import Mathlib

/-!
# JSON parser and path-expression evaluator (`JSONParser.cpp`)

A shallow embedding of `src/JSONParser/JSONParser.cpp`.

* A `std::string` is a `List Char`; a cursor `size_t pos` is a `Nat`.
* A thrown C++ exception is `Except.error`; the `Err` type also carries a
  marker for behaviour that C++ leaves undefined and a marker for the
  recursion budget of the embedding running out.
* A `double` is an infinity, the negative zero or an exact rational
  (`Double`): values are compared numerically and the two zeros compare
  equal; rounding to 53 bits is outside the model, so a numeric value is
  stated only where a `double` holds it exactly or relative to what
  `std::stod` returns.
* Recursive procedures recurse structurally on a `fuel` counter; the loops
  that only move a cursor are bounded by the distance to the end of the text.
-/

/-! ## Outcomes -/

/-- Ways in which a call does not return a value. -/
inductive Err where
  /-- The exception `std::runtime_error(what)`. -/
  | runtime_error (what : String)
  /-- The exception `std::invalid_argument`, thrown by `std::stod`. -/
  | invalid_argument (what : String)
  /-- The exception `std::out_of_range`, thrown by `vector::at`, `string::substr`
  and `std::stod`. -/
  | out_of_range (what : String)
  /-- Not an exception: the behaviour of the C++ program is undefined. -/
  | undefined
  /-- Not an exception: the recursion budget of the embedding is exhausted. -/
  | fuel
deriving DecidableEq, Repr

/-! ## Characters (`<cctype>`, "C" locale) -/

/-- The function `isspace`: space, `\t`, `\n`, `\v`, `\f`, `\r`. -/
def isspace (c : Char) : Bool :=
  c.toNat = 32 || (9 ≤ c.toNat && c.toNat ≤ 13)

/-- The function `isdigit`. -/
def isdigit (c : Char) : Bool :=
  48 ≤ c.toNat && c.toNat ≤ 57

/-- The function `isalpha`. -/
def isalpha (c : Char) : Bool :=
  (65 ≤ c.toNat && c.toNat ≤ 90) || (97 ≤ c.toNat && c.toNat ≤ 122)

/-- The function `isalnum`. -/
def isalnum (c : Char) : Bool :=
  isalpha c || isdigit c

/-! ## Strings -/

/-- The expression `s[pos]` on a `std::string`: the character at `pos`, the
terminator `'\0'` at `pos == s.size()`, undefined beyond. -/
def charAt (s : List Char) (pos : Nat) : Except Err Char :=
  match s[pos]? with
  | some c => .ok c
  | none => if pos = s.length then .ok (Char.ofNat 0) else .error .undefined

/-- The call `s.substr(pos, n)`: throws `std::out_of_range` when `pos > s.size()`. -/
def substr (s : List Char) (pos n : Nat) : Except Err (List Char) :=
  if pos ≤ s.length then .ok ((s.drop pos).take n)
  else .error (.out_of_range "basic_string::substr")

/-- The loop `while (pos < s.size() && p(s[pos])) pos++;`, which runs at
most `bound` times; callers pass `s.size() - pos`. -/
def scanWhile (p : Char → Bool) (s : List Char) : Nat → Nat → Nat
  | 0, pos => pos
  | bound + 1, pos =>
    match s[pos]? with
    | some c => if p c then scanWhile p s bound (pos + 1) else pos
    | none => pos

/-! ## Numbers -/

/-- A `double`: an infinity, the negative zero `-0.0`, or any other finite
value, held as an exact rational (`fin 0` is the positive zero `+0.0`). The
program never produces a NaN: its numbers come from `std::stod` on digits,
signs and dots, from `size_t` counts and from the infinite seeds of `min` and
`max`. Rounding to 53 bits is outside the model. -/
inductive Double where
  | neg_inf
  | neg_zero
  | fin (q : ℚ)
  | pos_inf
deriving DecidableEq

/-- The comparison `a < b` on `double`; the two zeros compare equal. -/
def Double.lt : Double → Double → Bool
  | .neg_inf, .neg_inf => false
  | .neg_inf, .neg_zero => true
  | .neg_inf, .fin _ => true
  | .neg_inf, .pos_inf => true
  | .neg_zero, .neg_inf => false
  | .neg_zero, .neg_zero => false
  | .neg_zero, .fin b => decide (0 < b)
  | .neg_zero, .pos_inf => true
  | .fin _, .neg_inf => false
  | .fin a, .neg_zero => decide (a < 0)
  | .fin a, .fin b => decide (a < b)
  | .fin _, .pos_inf => true
  | .pos_inf, _ => false

/-- The call `std::min(a, b)`, which is `(b < a) ? b : a`. -/
def Double.min (a b : Double) : Double :=
  if Double.lt b a then b else a

/-- The call `std::max(a, b)`, which is `(a < b) ? b : a`. -/
def Double.max (a b : Double) : Double :=
  if Double.lt a b then b else a

/-- The conversion `static_cast<double>(n)` of a `size_t`. -/
def Double.ofSizeT (n : Nat) : Double :=
  .fin (n : ℚ)

/-- The conversion `static_cast<size_t>(d)`: truncation toward zero, defined
only when the truncated value fits a 64-bit `size_t`; undefined (`none`) for
an infinity, for a value of `2^64` or more and for a value of `-1` or less. -/
def Double.toSizeT : Double → Option Nat
  | .fin q =>
    let t := Int.tdiv q.num (q.den : Int)
    if 0 ≤ t ∧ t < 2 ^ 64 then some t.toNat else none
  | .neg_zero => some 0
  | _ => none

/-- The value of a string of decimal digits. -/
def digitsValue (ds : List Char) : Nat :=
  ds.foldl (fun acc c => acc * 10 + (c.toNat - 48)) 0

/-- The least magnitude that a conversion to `double` reports as out of
range: `DBL_MAX` plus half a unit in its last place. -/
def DBL_OVERFLOW : Nat :=
  2 ^ 1024 - 2 ^ 970

/-- The digits of the fraction that `strtod` reads after the integer digits:
those that follow a `.`, none without a `.`. -/
def fractionDigits : List Char → List Char
  | '.' :: r => r.takeWhile isdigit
  | _ => []

/-- The beginning of `r` that `strtod` reads as the fraction after the integer
digits: a `.` with the digits that follow it, nothing when `r` does not start
with a `.`. -/
def fractionText : List Char → List Char
  | '.' :: r => '.' :: r.takeWhile isdigit
  | _ => []

/-- The call `std::stod(s)` on the strings its two callers can pass (decimal
digits, `.`, `+`, `-`): an optional sign, digits, optionally `.` and more
digits, with at least one digit in all; the longest such beginning of `s` is
converted and the rest is ignored. Without any digit it throws
`std::invalid_argument`. It throws `std::out_of_range` when `strtod` reports
a range error: when the magnitude overflows a `double` (it is at least
`DBL_OVERFLOW`), and, as glibc reports underflow, when the magnitude is not
zero, is tiny (rounded to 53 bits it stays below the least normal `double`
`2^-1022`, that is, it is below `2^-1022 - 2^-1076`) and is inexact (not a
multiple of the least subnormal `2^-1074`). A zero magnitude after `-` gives
the negative zero. Any other value is held exactly: the rounding to the
nearest `double` is outside the model. -/
def stod (s : List Char) : Except Err Double :=
  let neg : Bool := s.head? = some '-'
  let body : List Char := if s.head? = some '-' ∨ s.head? = some '+' then s.tail else s
  let ip : List Char := body.takeWhile isdigit
  let fp : List Char := fractionDigits (body.dropWhile isdigit)
  if ip = [] ∧ fp = [] then .error (.invalid_argument "stod")
  else if DBL_OVERFLOW * 10 ^ fp.length ≤ digitsValue (ip ++ fp) then
    .error (.out_of_range "stod")
  else if digitsValue (ip ++ fp) = 0 then
    .ok (if neg then .neg_zero else .fin 0)
  else if digitsValue (ip ++ fp) * 2 ^ 1076 < (2 ^ 54 - 1) * 10 ^ fp.length ∧
      digitsValue (ip ++ fp) * 2 ^ 1074 % 10 ^ fp.length ≠ 0 then
    .error (.out_of_range "stod")
  else
    let m : Int := (digitsValue (ip ++ fp) : Int)
    .ok (.fin (mkRat (if neg then -m else m) (10 ^ fp.length)))

/-! ## The value model -/

/-- The class `JsonValue`: the tag `type` together with the payload in use. -/
inductive JsonValue where
  | OBJECT (objectValue : List (List Char × JsonValue))
  | ARRAY (arrayValue : List JsonValue)
  | STRING (stringValue : List Char)
  | NUMBER (numberValue : Double)
  | BOOLEAN (boolValue : Bool)
  | NIL

mutual
/-- Equality of values is decidable. -/
def JsonValue.decEq : (a b : JsonValue) → Decidable (a = b)
  | .OBJECT x, .OBJECT y =>
    match JsonValue.decEqObject x y with
    | isTrue h => isTrue (congrArg JsonValue.OBJECT h)
    | isFalse h => isFalse (fun e => h (JsonValue.OBJECT.inj e))
  | .ARRAY x, .ARRAY y =>
    match JsonValue.decEqArray x y with
    | isTrue h => isTrue (congrArg JsonValue.ARRAY h)
    | isFalse h => isFalse (fun e => h (JsonValue.ARRAY.inj e))
  | .STRING x, .STRING y =>
    if h : x = y then isTrue (congrArg JsonValue.STRING h)
    else isFalse (fun e => h (JsonValue.STRING.inj e))
  | .NUMBER x, .NUMBER y =>
    if h : x = y then isTrue (congrArg JsonValue.NUMBER h)
    else isFalse (fun e => h (JsonValue.NUMBER.inj e))
  | .BOOLEAN x, .BOOLEAN y =>
    if h : x = y then isTrue (congrArg JsonValue.BOOLEAN h)
    else isFalse (fun e => h (JsonValue.BOOLEAN.inj e))
  | .NIL, .NIL => isTrue rfl
  | .OBJECT _, .ARRAY _ => isFalse (fun h => JsonValue.noConfusion h)
  | .OBJECT _, .STRING _ => isFalse (fun h => JsonValue.noConfusion h)
  | .OBJECT _, .NUMBER _ => isFalse (fun h => JsonValue.noConfusion h)
  | .OBJECT _, .BOOLEAN _ => isFalse (fun h => JsonValue.noConfusion h)
  | .OBJECT _, .NIL => isFalse (fun h => JsonValue.noConfusion h)
  | .ARRAY _, .OBJECT _ => isFalse (fun h => JsonValue.noConfusion h)
  | .ARRAY _, .STRING _ => isFalse (fun h => JsonValue.noConfusion h)
  | .ARRAY _, .NUMBER _ => isFalse (fun h => JsonValue.noConfusion h)
  | .ARRAY _, .BOOLEAN _ => isFalse (fun h => JsonValue.noConfusion h)
  | .ARRAY _, .NIL => isFalse (fun h => JsonValue.noConfusion h)
  | .STRING _, .OBJECT _ => isFalse (fun h => JsonValue.noConfusion h)
  | .STRING _, .ARRAY _ => isFalse (fun h => JsonValue.noConfusion h)
  | .STRING _, .NUMBER _ => isFalse (fun h => JsonValue.noConfusion h)
  | .STRING _, .BOOLEAN _ => isFalse (fun h => JsonValue.noConfusion h)
  | .STRING _, .NIL => isFalse (fun h => JsonValue.noConfusion h)
  | .NUMBER _, .OBJECT _ => isFalse (fun h => JsonValue.noConfusion h)
  | .NUMBER _, .ARRAY _ => isFalse (fun h => JsonValue.noConfusion h)
  | .NUMBER _, .STRING _ => isFalse (fun h => JsonValue.noConfusion h)
  | .NUMBER _, .BOOLEAN _ => isFalse (fun h => JsonValue.noConfusion h)
  | .NUMBER _, .NIL => isFalse (fun h => JsonValue.noConfusion h)
  | .BOOLEAN _, .OBJECT _ => isFalse (fun h => JsonValue.noConfusion h)
  | .BOOLEAN _, .ARRAY _ => isFalse (fun h => JsonValue.noConfusion h)
  | .BOOLEAN _, .STRING _ => isFalse (fun h => JsonValue.noConfusion h)
  | .BOOLEAN _, .NUMBER _ => isFalse (fun h => JsonValue.noConfusion h)
  | .BOOLEAN _, .NIL => isFalse (fun h => JsonValue.noConfusion h)
  | .NIL, .OBJECT _ => isFalse (fun h => JsonValue.noConfusion h)
  | .NIL, .ARRAY _ => isFalse (fun h => JsonValue.noConfusion h)
  | .NIL, .STRING _ => isFalse (fun h => JsonValue.noConfusion h)
  | .NIL, .NUMBER _ => isFalse (fun h => JsonValue.noConfusion h)
  | .NIL, .BOOLEAN _ => isFalse (fun h => JsonValue.noConfusion h)
/-- Equality of arrays of values is decidable. -/
def JsonValue.decEqArray : (a b : List JsonValue) → Decidable (a = b)
  | [], [] => isTrue rfl
  | [], _ :: _ => isFalse (fun h => List.noConfusion h)
  | _ :: _, [] => isFalse (fun h => List.noConfusion h)
  | x :: xs, y :: ys =>
    match JsonValue.decEq x y, JsonValue.decEqArray xs ys with
    | isTrue h, isTrue hs => isTrue (by rw [h, hs])
    | isFalse h, _ => isFalse (fun e => h (List.cons.inj e).1)
    | _, isFalse hs => isFalse (fun e => hs (List.cons.inj e).2)
/-- Equality of entry lists is decidable. -/
def JsonValue.decEqObject : (a b : List (List Char × JsonValue)) → Decidable (a = b)
  | [], [] => isTrue rfl
  | [], _ :: _ => isFalse (fun h => List.noConfusion h)
  | _ :: _, [] => isFalse (fun h => List.noConfusion h)
  | (k, x) :: xs, (l, y) :: ys =>
    if hk : k = l then
      match JsonValue.decEq x y, JsonValue.decEqObject xs ys with
      | isTrue h, isTrue hs => isTrue (by rw [hk, h, hs])
      | isFalse h, _ => isFalse (fun e => h (Prod.mk.inj (List.cons.inj e).1).2)
      | _, isFalse hs => isFalse (fun e => hs (List.cons.inj e).2)
    else isFalse (fun e => hk (Prod.mk.inj (List.cons.inj e).1).1)
end

instance : DecidableEq JsonValue := JsonValue.decEq

/-- Equality of outcomes is decidable. -/
def Except.decEq {ε α : Type} [DecidableEq ε] [DecidableEq α] :
    (a b : Except ε α) → Decidable (a = b)
  | .ok x, .ok y =>
    if h : x = y then isTrue (congrArg Except.ok h)
    else isFalse (fun e => h (Except.ok.inj e))
  | .error x, .error y =>
    if h : x = y then isTrue (congrArg Except.error h)
    else isFalse (fun e => h (Except.error.inj e))
  | .ok _, .error _ => isFalse (fun h => Except.noConfusion h)
  | .error _, .ok _ => isFalse (fun h => Except.noConfusion h)

instance {ε α : Type} [DecidableEq ε] [DecidableEq α] : DecidableEq (Except ε α) :=
  Except.decEq

/-- The lookup `m.find(key)` of an `unordered_map`, held as a list of entries
with pairwise different keys: `m.count(key)` is whether it finds an entry and
`m.at(key)` is the entry found. -/
def mapFind {V : Type} : List (List Char × V) → List Char → Option V
  | [], _ => none
  | (k, v) :: m, key => if k = key then some v else mapFind m key

/-- The assignment `m[key] = v` of an `unordered_map`: the entry of `key` is
overwritten, or a new entry is added. -/
def mapAssign {V : Type} : List (List Char × V) → List Char → V → List (List Char × V)
  | [], key, v => [(key, v)]
  | (k, w) :: m, key, v => if k = key then (k, v) :: m else (k, w) :: mapAssign m key v

/-- The method `JsonValue::size`. -/
def JsonValue.size : JsonValue → Except Err Nat
  | .OBJECT objectValue => .ok objectValue.length
  | .ARRAY arrayValue => .ok arrayValue.length
  | .STRING stringValue => .ok stringValue.length
  | _ => .error (.runtime_error "Invalid type for size")

/-- The method `JsonValue::toNumber`. -/
def JsonValue.toNumber : JsonValue → Except Err Double
  | .NUMBER numberValue => .ok numberValue
  | _ => .error (.runtime_error "Value is not a number")

/-! ## The JSON parser -/

/-- The function `skipWhitespace`; returns the new cursor. -/
def skipWhitespace (json : List Char) (pos : Nat) : Nat :=
  scanWhile isspace json (json.length - pos) pos

/-- The copying loop of `parseJsonString`:
`while (pos < json.size() && json[pos] != '"') { result += json[pos]; pos++; }`. -/
def parseJsonStringLoop (json : List Char) : Nat → Nat → List Char → List Char × Nat
  | 0, pos, result => (result, pos)
  | bound + 1, pos, result =>
    match json[pos]? with
    | some c =>
      if c ≠ '"' then parseJsonStringLoop json bound (pos + 1) (result ++ [c])
      else (result, pos)
    | none => (result, pos)

/-- The function `parseJsonString`; returns the string and the new cursor. -/
def parseJsonString (json : List Char) (pos : Nat) : Except Err (List Char × Nat) := do
  let c ← charAt json pos
  if c ≠ '"' then .error (.runtime_error "Expected '\"'")
  else
    let r := parseJsonStringLoop json (json.length - (pos + 1)) (pos + 1) []
    let c ← charAt json r.2
    if c ≠ '"' then .error (.runtime_error "Expected '\"'")
    else .ok (r.1, r.2 + 1)

/-- The characters over which the loop of `parseJsonNumber` advances. -/
def isNumberChar (c : Char) : Bool :=
  isdigit c || c = '.' || c = '-' || c = '+'

/-- The function `parseJsonNumber`; returns the number and the new cursor. -/
def parseJsonNumber (json : List Char) (pos : Nat) : Except Err (Double × Nat) := do
  let start := pos
  let pos := scanWhile isNumberChar json (json.length - pos) pos
  let text ← substr json start (pos - start)
  let d ← stod text
  .ok (d, pos)

mutual
/-- The function `parseJsonValue`; returns the value and the new cursor. -/
def parseJsonValue : Nat → List Char → Nat → Except Err (JsonValue × Nat)
  | 0, _, _ => .error .fuel
  | fuel + 1, json, pos => do
    let pos := skipWhitespace json pos
    let c ← charAt json pos
    if c = '{' then parseJsonObject fuel json pos
    else if c = '[' then parseJsonArray fuel json pos
    else if c = '"' then do
      let r ← parseJsonString json pos
      .ok (.STRING r.1, r.2)
    else if isdigit c || c = '-' then do
      let r ← parseJsonNumber json pos
      .ok (.NUMBER r.1, r.2)
    else do
      let s4 ← substr json pos 4
      if s4 = ['t', 'r', 'u', 'e'] then .ok (.BOOLEAN true, pos + 4)
      else do
        let s5 ← substr json pos 5
        if s5 = ['f', 'a', 'l', 's', 'e'] then .ok (.BOOLEAN false, pos + 5)
        else if s4 = ['n', 'u', 'l', 'l'] then .ok (.NIL, pos + 4)
        else .error (.runtime_error "Invalid JSON value")
termination_by structural n => n
/-- The function `parseJsonArray`. -/
def parseJsonArray : Nat → List Char → Nat → Except Err (JsonValue × Nat)
  | 0, _, _ => .error .fuel
  | fuel + 1, json, pos => do
    let c ← charAt json pos
    if c ≠ '[' then .error (.runtime_error "Expected '['")
    else
      let pos := skipWhitespace json (pos + 1)
      let c ← charAt json pos
      if c ≠ ']' then do
        let r ← parseJsonArrayLoop fuel json pos []
        .ok (.ARRAY r.1, r.2 + 1)
      else .ok (.ARRAY [], pos + 1)
termination_by structural n => n
/-- The `while (true)` loop of `parseJsonArray`, entered with the elements
read so far; it returns with the cursor on the closing bracket. -/
def parseJsonArrayLoop : Nat → List Char → Nat → List JsonValue →
    Except Err (List JsonValue × Nat)
  | 0, _, _, _ => .error .fuel
  | fuel + 1, json, pos, values => do
    let r ← parseJsonValue fuel json pos
    let values := values ++ [r.1]
    let pos := skipWhitespace json r.2
    let c ← charAt json pos
    if c = ']' then .ok (values, pos)
    else if c ≠ ',' then .error (.runtime_error "Expected ','")
    else parseJsonArrayLoop fuel json (skipWhitespace json (pos + 1)) values
termination_by structural n => n
/-- The function `parseJsonObject`. -/
def parseJsonObject : Nat → List Char → Nat → Except Err (JsonValue × Nat)
  | 0, _, _ => .error .fuel
  | fuel + 1, json, pos => do
    let c ← charAt json pos
    if c ≠ '{' then .error (.runtime_error "Expected '\x7b'")
    else
      let pos := skipWhitespace json (pos + 1)
      let c ← charAt json pos
      if c ≠ '}' then do
        let r ← parseJsonObjectLoop fuel json pos []
        .ok (.OBJECT r.1, r.2 + 1)
      else .ok (.OBJECT [], pos + 1)
termination_by structural n => n
/-- The `while (true)` loop of `parseJsonObject`, entered with the map built
so far; it returns with the cursor on the closing brace. -/
def parseJsonObjectLoop : Nat → List Char → Nat → List (List Char × JsonValue) →
    Except Err (List (List Char × JsonValue) × Nat)
  | 0, _, _, _ => .error .fuel
  | fuel + 1, json, pos, object => do
    let k ← parseJsonString json pos
    let pos := skipWhitespace json k.2
    let c ← charAt json pos
    if c ≠ ':' then .error (.runtime_error "Expected ':'")
    else do
      let r ← parseJsonValue fuel json (skipWhitespace json (pos + 1))
      let object := mapAssign object k.1 r.1
      let pos := skipWhitespace json r.2
      let c ← charAt json pos
      if c = '}' then .ok (object, pos)
      else if c ≠ ',' then .error (.runtime_error "Expected ','")
      else parseJsonObjectLoop fuel json (skipWhitespace json (pos + 1)) object
termination_by structural n => n
end

/-- The parse that `readJson` runs on the text of the file:
`parseJsonValue(text, pos)` with `pos = 0`; the cursor is dropped. The
recursion budget is three calls for each character of the text (a value, its
array or object and the loop start on the same character). -/
def readJson (text : List Char) : Except Err JsonValue :=
  (parseJsonValue (3 * text.length + 3) text 0).map Prod.fst

/-! ## The expression tokenizer -/

/-- The enumeration `TokenType`. -/
inductive TokenType where
  | IDENTIFIER | NUMBER | COMMA | LEFT_PAREN | RIGHT_PAREN
  | LEFT_BRACKET | RIGHT_BRACKET | DOT | END
deriving DecidableEq, Repr

/-- The structure `Token`. -/
structure Token where
  type : TokenType
  value : List Char
deriving DecidableEq, Repr

/-- The method `Tokenizer::nextToken` on the expression text and the cursor
`pos`; returns the token and the new cursor. -/
def Tokenizer.nextToken (expression : List Char) (pos : Nat) : Except Err (Token × Nat) :=
  let pos := scanWhile isspace expression (expression.length - pos) pos
  if pos ≥ expression.length then .ok (⟨.END, []⟩, pos)
  else do
    let current ← charAt expression pos
    if isalpha current then do
      let start := pos
      let pos := scanWhile (fun c => isalnum c || c = '_') expression
        (expression.length - pos) pos
      let text ← substr expression start (pos - start)
      .ok (⟨.IDENTIFIER, text⟩, pos)
    else if isdigit current || current = '-' then do
      let start := pos
      let pos := scanWhile (fun c => isdigit c || c = '.') expression
        (expression.length - pos) pos
      let text ← substr expression start (pos - start)
      .ok (⟨.NUMBER, text⟩, pos)
    else if current = ',' then .ok (⟨.COMMA, [',']⟩, pos + 1)
    else if current = '(' then .ok (⟨.LEFT_PAREN, ['(']⟩, pos + 1)
    else if current = ')' then .ok (⟨.RIGHT_PAREN, [')']⟩, pos + 1)
    else if current = '[' then .ok (⟨.LEFT_BRACKET, ['[']⟩, pos + 1)
    else if current = ']' then .ok (⟨.RIGHT_BRACKET, [']']⟩, pos + 1)
    else if current = '.' then .ok (⟨.DOT, ['.']⟩, pos + 1)
    else .error (.runtime_error "Unexpected character in expression")

/-! ## The expression parser -/

/-- The enumeration `AstNode::Type`. -/
inductive AstNodeType where
  | LITERAL | IDENTIFIER | FUNCTION_CALL | SUBSCRIPT | MEMBER_ACCESS
deriving DecidableEq, Repr

/-- The structure `AstNode`. -/
inductive AstNode where
  | mk (type : AstNodeType) (value : List Char) (children : List AstNode)

mutual
/-- Equality of nodes is decidable. -/
def AstNode.decEq : (a b : AstNode) → Decidable (a = b)
  | .mk t v c, .mk u w d =>
    if ht : t = u then
      if hv : v = w then
        match AstNode.decEqList c d with
        | isTrue hc => isTrue (by rw [ht, hv, hc])
        | isFalse hc => isFalse (fun e => hc (AstNode.mk.inj e).2.2)
      else isFalse (fun e => hv (AstNode.mk.inj e).2.1)
    else isFalse (fun e => ht (AstNode.mk.inj e).1)
/-- Equality of lists of nodes is decidable. -/
def AstNode.decEqList : (a b : List AstNode) → Decidable (a = b)
  | [], [] => isTrue rfl
  | [], _ :: _ => isFalse (fun h => List.noConfusion h)
  | _ :: _, [] => isFalse (fun h => List.noConfusion h)
  | x :: xs, y :: ys =>
    match AstNode.decEq x y, AstNode.decEqList xs ys with
    | isTrue h, isTrue hs => isTrue (by rw [h, hs])
    | isFalse h, _ => isFalse (fun e => h (List.cons.inj e).1)
    | _, isFalse hs => isFalse (fun e => hs (List.cons.inj e).2)
end

instance : DecidableEq AstNode := AstNode.decEq

/-- The mutable members of `ExpressionParser`: the cursor of its tokenizer
and `currentToken`. -/
structure ParserState where
  pos : Nat
  currentToken : Token
deriving DecidableEq, Repr

/-- The method `ExpressionParser::advance`. -/
def ExpressionParser.advance (expr : List Char) (st : ParserState) : Except Err ParserState := do
  let r ← Tokenizer.nextToken expr st.pos
  .ok ⟨r.2, r.1⟩

mutual
/-- The method `ExpressionParser::parsePrimary`. -/
def ExpressionParser.parsePrimary : Nat → List Char → ParserState →
    Except Err (AstNode × ParserState)
  | 0, _, _ => .error .fuel
  | fuel + 1, expr, st =>
    if st.currentToken.type = .NUMBER ∨ st.currentToken.type = .IDENTIFIER then do
      let node := AstNode.mk .LITERAL st.currentToken.value []
      let st ← ExpressionParser.advance expr st
      .ok (node, st)
    else if st.currentToken.type = .LEFT_PAREN then do
      let st ← ExpressionParser.advance expr st
      let r ← ExpressionParser.parseExpression fuel expr st
      if r.2.currentToken.type ≠ .RIGHT_PAREN then .error (.runtime_error "Expected ')'")
      else do
        let st ← ExpressionParser.advance expr r.2
        .ok (r.1, st)
    else .error (.runtime_error "Invalid expression")
termination_by structural n => n
/-- The method `ExpressionParser::parsePostfix`: one turn of its `while`
loop, then the remaining turns. -/
def ExpressionParser.parsePostfix : Nat → List Char → AstNode → ParserState →
    Except Err (AstNode × ParserState)
  | 0, _, _, _ => .error .fuel
  | fuel + 1, expr, node, st =>
    if st.currentToken.type = .LEFT_BRACKET ∨ st.currentToken.type = .DOT then
      if st.currentToken.type = .LEFT_BRACKET then do
        let st ← ExpressionParser.advance expr st
        let r ← ExpressionParser.parseExpression fuel expr st
        let subscriptNode := AstNode.mk .SUBSCRIPT [] [node, r.1]
        if r.2.currentToken.type ≠ .RIGHT_BRACKET then .error (.runtime_error "Expected ']'")
        else do
          let st ← ExpressionParser.advance expr r.2
          ExpressionParser.parsePostfix fuel expr subscriptNode st
      else do
        let st ← ExpressionParser.advance expr st
        if st.currentToken.type ≠ .IDENTIFIER then
          .error (.runtime_error "Expected an identifier after '.'")
        else do
          let memberNode := AstNode.mk .MEMBER_ACCESS st.currentToken.value [node]
          let st ← ExpressionParser.advance expr st
          ExpressionParser.parsePostfix fuel expr memberNode st
    else .ok (node, st)
termination_by structural n => n
/-- The `while (true)` loop of `ExpressionParser::parseFunctionCall`, entered
with the arguments read so far; it returns with `currentToken` on the closing
parenthesis. -/
def ExpressionParser.parseArguments : Nat → List Char → List AstNode → ParserState →
    Except Err (List AstNode × ParserState)
  | 0, _, _, _ => .error .fuel
  | fuel + 1, expr, children, st => do
    let r ← ExpressionParser.parseExpression fuel expr st
    let children := children ++ [r.1]
    if r.2.currentToken.type = .RIGHT_PAREN then .ok (children, r.2)
    else if r.2.currentToken.type ≠ .COMMA then .error (.runtime_error "Expected ',' or ')'")
    else do
      let st ← ExpressionParser.advance expr r.2
      ExpressionParser.parseArguments fuel expr children st
termination_by structural n => n
/-- The method `ExpressionParser::parseFunctionCall`. -/
def ExpressionParser.parseFunctionCall : Nat → List Char → ParserState →
    Except Err (AstNode × ParserState)
  | 0, _, _ => .error .fuel
  | fuel + 1, expr, st =>
    if st.currentToken.type = .IDENTIFIER then do
      let functionName := st.currentToken.value
      let st ← ExpressionParser.advance expr st
      if st.currentToken.type = .LEFT_PAREN then do
        let st ← ExpressionParser.advance expr st
        if st.currentToken.type ≠ .RIGHT_PAREN then do
          let r ← ExpressionParser.parseArguments fuel expr [] st
          let st ← ExpressionParser.advance expr r.2
          .ok (AstNode.mk .FUNCTION_CALL functionName r.1, st)
        else do
          let st ← ExpressionParser.advance expr st
          .ok (AstNode.mk .FUNCTION_CALL functionName [], st)
      else .ok (AstNode.mk .IDENTIFIER functionName [], st)
    else ExpressionParser.parsePrimary fuel expr st
termination_by structural n => n
/-- The method `ExpressionParser::parseExpression`. -/
def ExpressionParser.parseExpression : Nat → List Char → ParserState →
    Except Err (AstNode × ParserState)
  | 0, _, _ => .error .fuel
  | fuel + 1, expr, st => do
    let r ← ExpressionParser.parseFunctionCall fuel expr st
    ExpressionParser.parsePostfix fuel expr r.1 r.2
termination_by structural n => n
end

/-- The constructor `ExpressionParser(expr)` followed by `parse()`, with a
recursion budget: the tokenizer starts at cursor 0 and `advance()` reads the
first token. -/
def ExpressionParser.parseWith (fuel : Nat) (expr : List Char) : Except Err AstNode := do
  let st ← ExpressionParser.advance expr ⟨0, ⟨.END, []⟩⟩
  let r ← ExpressionParser.parseExpression fuel expr st
  .ok r.1

/-- The calls `ExpressionParser parser(expr); parser.parse()`. The recursion
budget is four calls for each character of the text. -/
def ExpressionParser.parse (expr : List Char) : Except Err AstNode :=
  ExpressionParser.parseWith (4 * expr.length + 4) expr

/-! ## The evaluator -/

/-- The field lookup of the `LITERAL` and `IDENTIFIER` branches of `evaluateAst`. -/
def lookupIdentifier (value : List Char) (json : JsonValue) : Except Err JsonValue :=
  match json with
  | .OBJECT objectValue =>
    match mapFind objectValue value with
    | some v => .ok v
    | none => .error (.runtime_error ("Unknown identifier: " ++ String.mk value))
  | _ => .error (.runtime_error ("Unknown identifier: " ++ String.mk value))

/-- The element access `arrayValue.at(i)` of a `std::vector`. -/
def vectorAt (arrayValue : List JsonValue) (i : Nat) : Except Err JsonValue :=
  match arrayValue[i]? with
  | some v => .ok v
  | none => .error (.out_of_range "vector::_M_range_check")

mutual
/-- The function `evaluateAst`. -/
def evaluateAst : AstNode → JsonValue → Except Err JsonValue
  | .mk .LITERAL value _, json =>
    if value.all isdigit then do
      let d ← stod value
      .ok (.NUMBER d)
    else lookupIdentifier value json
  | .mk .IDENTIFIER value _, json => lookupIdentifier value json
  | .mk .FUNCTION_CALL value children, json =>
    if value = ['m', 'i', 'n'] then do
      let minVal ← evaluateMin children json .pos_inf
      .ok (.NUMBER minVal)
    else if value = ['m', 'a', 'x'] then do
      let maxVal ← evaluateMax children json .neg_inf
      .ok (.NUMBER maxVal)
    else if value = ['s', 'i', 'z', 'e'] then
      match children with
      | [child] => do
        let v ← evaluateAst child json
        let n ← v.size
        .ok (.NUMBER (Double.ofSizeT n))
      | _ => .error (.runtime_error "size() expects exactly one argument")
    else .error (.runtime_error ("Unknown function: " ++ String.mk value))
  | .mk .SUBSCRIPT _ children, json =>
    match children with
    | child0 :: child1 :: _ => do
      let array ← evaluateAst child0 json
      let index ← evaluateAst child1 json
      match array with
      | .ARRAY arrayValue => do
        let d ← index.toNumber
        match d.toSizeT with
        | some i => vectorAt arrayValue i
        | none => .error .undefined
      | _ => .error (.runtime_error "Subscript operator applied to non-array")
    | _ => .error .undefined
  | .mk .MEMBER_ACCESS value children, json =>
    match children with
    | child0 :: _ => do
      let obj ← evaluateAst child0 json
      match obj with
      | .OBJECT objectValue =>
        match mapFind objectValue value with
        | some v => .ok v
        | none => .error (.runtime_error ("Member not found: " ++ String.mk value))
      | _ => .error (.runtime_error "Member access applied to non-object")
    | [] => .error .undefined
/-- The loop of the `min` branch over the children, entered with `minVal`. -/
def evaluateMin : List AstNode → JsonValue → Double → Except Err Double
  | [], _, minVal => .ok minVal
  | child :: rest, json, minVal => do
    let v ← evaluateAst child json
    let num ← v.toNumber
    evaluateMin rest json (Double.min minVal num)
/-- The loop of the `max` branch over the children, entered with `maxVal`. -/
def evaluateMax : List AstNode → JsonValue → Double → Except Err Double
  | [], _, maxVal => .ok maxVal
  | child :: rest, json, maxVal => do
    let v ← evaluateAst child json
    let num ← v.toNumber
    evaluateMax rest json (Double.max maxVal num)
end

/-- The body of `Test` after the file is read: parse the expression, then
evaluate it against the document. -/
def evaluate (expression : List Char) (json : JsonValue) : Except Err JsonValue := do
  let ast ← ExpressionParser.parse expression
  evaluateAst ast json

/-! ## Texts and trees used in the statements -/

/-- The text of the path `a.b[i]`, with the index written as the numeral `ds`. -/
def pathText (ds : List Char) : List Char :=
  ['a', '.', 'b', '['] ++ ds ++ [']']

/-- The tree of the path `a.b[i]`: a subscript of the member `b` of the
identifier `a`, by the literal `ds`. -/
def pathAst (ds : List Char) : AstNode :=
  .mk .SUBSCRIPT [] [.mk .MEMBER_ACCESS ['b'] [.mk .IDENTIFIER ['a'] []], .mk .LITERAL ds []]

/-- The document `{"a":{"b":[10,20,30,{"c":99}]}}` of the scenarios. -/
def exampleDocument : JsonValue :=
  .OBJECT [(['a'], .OBJECT [(['b'], .ARRAY [.NUMBER (.fin 10), .NUMBER (.fin 20),
    .NUMBER (.fin 30), .OBJECT [(['c'], .NUMBER (.fin 99))]])])]

/-- A result of a parser, with its cursor moved `n` places to the right. -/
def shiftCursor {α : Type} (n : Nat) (r : Except Err (α × Nat)) : Except Err (α × Nat) :=
  match r with
  | .ok x => .ok (x.1, n + x.2)
  | .error e => .error e

/-! ## Properties of the JSON parser used by the theorems -/

/-- Appended text `r` does not continue a number that ends at the end of `u`. -/
def NoContinuation (u : List Char) (v : JsonValue) (n : Nat) (r : List Char) : Prop :=
  (∃ d, v = .NUMBER d) → n = u.length → ∀ c, r.head? = some c → isNumberChar c = false

/-- A successful `parseJsonValue` on `u` consumes at least one character,
stays inside `u`, and gives the same result on `u ++ r` with any recursion
budget of at least twice the number of characters consumed, plus one. -/
def AppendStableValue (fuel : Nat) (u : List Char) : Prop :=
  ∀ k v n, parseJsonValue fuel u k = .ok (v, n) →
    k < n ∧ n ≤ u.length ∧
      ∀ m r, 2 * (n - k) + 1 ≤ m → NoContinuation u v n r →
        parseJsonValue m (u ++ r) k = .ok (v, n)

/-- The same for `parseJsonArray`. -/
def AppendStableArray (fuel : Nat) (u : List Char) : Prop :=
  ∀ k v n, parseJsonArray fuel u k = .ok (v, n) →
    k < n ∧ n ≤ u.length ∧ (∀ d, v ≠ .NUMBER d) ∧
      ∀ m r, 2 * (n - k) ≤ m → parseJsonArray m (u ++ r) k = .ok (v, n)

/-- The same for the loop of `parseJsonArray`, which stops on the bracket. -/
def AppendStableArrayLoop (fuel : Nat) (u : List Char) : Prop :=
  ∀ k values vs n, parseJsonArrayLoop fuel u k values = .ok (vs, n) →
    k < n ∧ n < u.length ∧
      ∀ m r, 2 * (n - k) + 2 ≤ m → parseJsonArrayLoop m (u ++ r) k values = .ok (vs, n)

/-- The same for `parseJsonObject`. -/
def AppendStableObject (fuel : Nat) (u : List Char) : Prop :=
  ∀ k v n, parseJsonObject fuel u k = .ok (v, n) →
    k < n ∧ n ≤ u.length ∧ (∀ d, v ≠ .NUMBER d) ∧
      ∀ m r, 2 * (n - k) ≤ m → parseJsonObject m (u ++ r) k = .ok (v, n)

/-- The same for the loop of `parseJsonObject`, which stops on the brace. -/
def AppendStableObjectLoop (fuel : Nat) (u : List Char) : Prop :=
  ∀ k object o n, parseJsonObjectLoop fuel u k object = .ok (o, n) →
    k < n ∧ n < u.length ∧
      ∀ m r, 2 * (n - k) + 2 ≤ m → parseJsonObjectLoop m (u ++ r) k object = .ok (o, n)

/-! ## Object texts -/

/-- One `"key" : value` member of an object text: the whitespace in front of
the key, the key, the whitespace on both sides of the colon, the text of the
value, the value it denotes, and the whitespace behind the value. -/
structure Member where
  ws1 : List Char
  key : List Char
  ws2 : List Char
  ws3 : List Char
  valueText : List Char
  value : JsonValue
  ws4 : List Char

/-- The text of a member from its opening quote on. -/
def Member.core (m : Member) : List Char :=
  '"' :: (m.key ++ '"' :: (m.ws2 ++ ':' :: (m.ws3 ++ (m.valueText ++ m.ws4))))

/-- The members of an object text from the opening quote of the first key on,
separated by commas. -/
def loopText : List Member → List Char
  | [] => []
  | [m] => m.core
  | m :: m' :: ms => m.core ++ ',' :: (m'.ws1 ++ loopText (m' :: ms))

/-- The object text with the given members, in the order written. -/
def objectText : List Member → List Char
  | [] => ['{', '}']
  | m :: ms => '{' :: (m.ws1 ++ (loopText (m :: ms) ++ ['}']))

/-- A member is well formed: its whitespace is whitespace, its key holds no
quote character, and its value text parses on its own, with some recursion
budget, to its value, the cursor ending at the end of the value text. -/
def Member.WellFormed (m : Member) : Prop :=
  (∀ c ∈ m.ws1, isspace c = true) ∧ (∀ c ∈ m.ws2, isspace c = true) ∧
    (∀ c ∈ m.ws3, isspace c = true) ∧ (∀ c ∈ m.ws4, isspace c = true) ∧
    (∀ c ∈ m.key, c ≠ '"') ∧
    ∃ fuel, parseJsonValue fuel m.valueText 0 = .ok (m.value, m.valueText.length)

/-- The map that the loop of `parseJsonObject` builds from the members. -/
def assignAll (object : List (List Char × JsonValue)) (ms : List Member) :
    List (List Char × JsonValue) :=
  ms.foldl (fun o m => mapAssign o m.key m.value) object

/-- The members of the object text `{"k":1,"k":2}`. -/
def duplicateKeyMembers : List Member :=
  [⟨[], ['k'], [], [], ['1'], .NUMBER (.fin 1), []⟩,
    ⟨[], ['k'], [], [], ['2'], .NUMBER (.fin 2), []⟩]

/-- A document on which the expressions of `main` evaluate:
`{"a":{"b":[1,2,{"c":"test"},[11,12]]}}`. -/
def testDocument : JsonValue :=
  .OBJECT [(['a'], .OBJECT [(['b'], .ARRAY [.NUMBER (.fin 1), .NUMBER (.fin 2),
    .OBJECT [(['c'], .STRING ['t', 'e', 's', 't'])],
    .ARRAY [.NUMBER (.fin 11), .NUMBER (.fin 12)]])])]

/-! ## Array texts -/

/-- One element of an array text: the whitespace in front of the value, the
text of the value, the value it denotes, and the whitespace behind it. -/
structure Element where
  ws1 : List Char
  valueText : List Char
  value : JsonValue
  ws2 : List Char

/-- The text of an element from the start of its value on. -/
def Element.core (e : Element) : List Char :=
  e.valueText ++ e.ws2

/-- The elements of an array text from the start of the first value on,
separated by commas. -/
def elementsText : List Element → List Char
  | [] => []
  | [e] => e.core
  | e :: e' :: es => e.core ++ ',' :: (e'.ws1 ++ elementsText (e' :: es))

/-- The array text with the given elements, in the order written; `ws` is the
whitespace between the brackets of the empty array. -/
def arrayText (ws : List Char) : List Element → List Char
  | [] => '[' :: (ws ++ [']'])
  | e :: es => '[' :: (e.ws1 ++ (elementsText (e :: es) ++ [']']))

/-- An element is well formed: its whitespace is whitespace and its value
text parses on its own, with some recursion budget, to its value, the cursor
ending at the end of the value text. -/
def Element.WellFormed (e : Element) : Prop :=
  (∀ c ∈ e.ws1, isspace c = true) ∧ (∀ c ∈ e.ws2, isspace c = true) ∧
    ∃ fuel, parseJsonValue fuel e.valueText 0 = .ok (e.value, e.valueText.length)

/-- The elements of the array text `[1 , "x",[true]]`. -/
def exampleElements : List Element :=
  [⟨[], ['1'], .NUMBER (.fin 1), [' ']⟩,
    ⟨[' '], ['"', 'x', '"'], .STRING ['x'], []⟩,
    ⟨[], ['[', 't', 'r', 'u', 'e', ']'], .ARRAY [.BOOLEAN true], []⟩]

/-! ## JSON texts that the parser reads in full -/

/-- Whether reading a token of this type has moved the cursor of the
tokenizer: 1 for identifiers and the one-character tokens, 0 for the end
token and for number tokens (the number token at a `-` has no characters). -/
def tokenWeight : TokenType → Nat
  | .END => 0
  | .NUMBER => 0
  | _ => 1

/-- The size of what the parser has not consumed: the characters behind the
cursor of the tokenizer, plus one for a current token that stands for at
least one character. -/
def ParserState.remaining (expr : List Char) (st : ParserState) : Nat :=
  (expr.length - st.pos) + tokenWeight st.currentToken.type

/-- A run `f fuel` of a parser method stays within its recursion budget: when
it does not return it throws a `std::runtime_error` (it does not end for lack
of budget), a state it returns has at most `bound` remaining, and one more
unit of budget does not change the result. -/
def WithinBudget {α : Type} (expr : List Char) (f : Nat → Except Err (α × ParserState))
    (fuel bound : Nat) : Prop :=
  (∀ e, f fuel = .error e → ∃ what, e = .runtime_error what) ∧
    (∀ x st, f fuel = .ok (x, st) → ParserState.remaining expr st ≤ bound) ∧
    f (fuel + 1) = f fuel

/-! ## Expressions inside a subscript -/

/-- The state of the parser on a text `p ++ e ++ "]" ++ rest` that corresponds
to the state `st` of the parser on `e` alone, where `P` and `E` are the
lengths of `p` and `e`: the cursor is moved by `P`, and where the parser on
`e` is at the end of the text, the parser on the longer text is on the
closing bracket. -/
def inContext (P E : Nat) (st : ParserState) : ParserState :=
  if st.currentToken.type = .END then ⟨P + E + 1, ⟨.RIGHT_BRACKET, [']']⟩⟩
  else ⟨P + st.pos, st.currentToken⟩

/-! ## Chains of postfix operations -/

/-- The constructor `ExpressionParser(expr)` followed by `parse()`, as
`ExpressionParser.parseWith`, together with the state in which the parser
ends. -/
def ExpressionParser.run (fuel : Nat) (expr : List Char) :
    Except Err (AstNode × ParserState) := do
  let st ← ExpressionParser.advance expr ⟨0, ⟨.END, []⟩⟩
  ExpressionParser.parseExpression fuel expr st

/-- A postfix operation as written: `.name`, or `[e]` with the text `e` of the
index and the tree `index` that the text denotes. -/
inductive PostfixOp where
  | member (name : List Char)
  | subscript (e : List Char) (index : AstNode)

/-- The text of a postfix operation. -/
def PostfixOp.text : PostfixOp → List Char
  | .member name => '.' :: name
  | .subscript e _ => '[' :: (e ++ [']'])

/-- The tree of a postfix operation applied to the tree `node`: `node` is the
first child of the new node. -/
def PostfixOp.apply (node : AstNode) : PostfixOp → AstNode
  | .member name => .mk .MEMBER_ACCESS name [node]
  | .subscript _ index => .mk .SUBSCRIPT [] [node, index]

/-- The text of a sequence of postfix operations. -/
def opsText : List PostfixOp → List Char
  | [] => []
  | op :: ops => op.text ++ opsText ops

/-- The text `x p_1 ... p_n`. -/
def chainText (x : List Char) (ops : List PostfixOp) : List Char :=
  x ++ opsText ops

/-- The left-nested tree of `x p_1 ... p_n`: the fold of the operations from
the identifier node of `x`. -/
def chainAst (x : List Char) (ops : List PostfixOp) : AstNode :=
  ops.foldl PostfixOp.apply (.mk .IDENTIFIER x [])

/-- The text is an identifier as the tokenizer reads one: a letter followed by
letters, digits and underscores. -/
def IsIdentifier (x : List Char) : Prop :=
  ∃ c r, x = c :: r ∧ isalpha c = true ∧ ∀ d ∈ r, (isalnum d || decide (d = '_')) = true

/-- A postfix operation is well formed: the name of a member access is an
identifier; the text of an index parses on its own to the tree `index`, the
parser ending at the end of the text. -/
def PostfixOp.WellFormed : PostfixOp → Prop
  | .member name => IsIdentifier name
  | .subscript e index =>
    ∃ st, ExpressionParser.run (4 * e.length + 4) e = .ok (index, st) ∧
      st.currentToken.type = .END

/-- The state of the parser after it has read the token that starts the
operations `ops`, which are written from the position `P` on. -/
def entryState (P : Nat) : List PostfixOp → ParserState
  | [] => ⟨P, ⟨.END, []⟩⟩
  | .member _ :: _ => ⟨P + 1, ⟨.DOT, ['.']⟩⟩
  | .subscript _ _ :: _ => ⟨P + 1, ⟨.LEFT_BRACKET, ['[']⟩⟩

/-- The operations of `a.b[1].c` behind the identifier `a`. -/
def exampleOps : List PostfixOp :=
  [.member ['b'], .subscript ['1'] (.mk .LITERAL ['1'] []), .member ['c']]

/-! ## The JSON parser with the cursor of a failed call

The parser takes its cursor by reference (`size_t& pos`), so a call that
throws leaves the cursor where it stood at the `throw`. The functions below
are the functions of the JSON parser once more, with that cursor kept: a
failure is a pair of the exception and the cursor. -/

/-- The function `parseJsonString`; a failure carries the cursor. -/
def parseJsonStringAt (json : List Char) (pos : Nat) :
    Except (Err × Nat) (List Char × Nat) := do
  let c ← (charAt json pos).mapError (fun e => (e, pos))
  if c ≠ '"' then .error (.runtime_error "Expected '\"'", pos)
  else
    let r := parseJsonStringLoop json (json.length - (pos + 1)) (pos + 1) []
    let c ← (charAt json r.2).mapError (fun e => (e, r.2))
    if c ≠ '"' then .error (.runtime_error "Expected '\"'", r.2)
    else .ok (r.1, r.2 + 1)

/-- The function `parseJsonNumber`; a failure carries the cursor. -/
def parseJsonNumberAt (json : List Char) (pos : Nat) : Except (Err × Nat) (Double × Nat) := do
  let start := pos
  let pos := scanWhile isNumberChar json (json.length - pos) pos
  let text ← (substr json start (pos - start)).mapError (fun e => (e, pos))
  let d ← (stod text).mapError (fun e => (e, pos))
  .ok (d, pos)

mutual
/-- The function `parseJsonValue`; a failure carries the cursor. -/
def parseJsonValueAt : Nat → List Char → Nat → Except (Err × Nat) (JsonValue × Nat)
  | 0, _, pos => .error (.fuel, pos)
  | fuel + 1, json, pos => do
    let pos := skipWhitespace json pos
    let c ← (charAt json pos).mapError (fun e => (e, pos))
    if c = '{' then parseJsonObjectAt fuel json pos
    else if c = '[' then parseJsonArrayAt fuel json pos
    else if c = '"' then do
      let r ← parseJsonStringAt json pos
      .ok (.STRING r.1, r.2)
    else if isdigit c || c = '-' then do
      let r ← parseJsonNumberAt json pos
      .ok (.NUMBER r.1, r.2)
    else do
      let s4 ← (substr json pos 4).mapError (fun e => (e, pos))
      if s4 = ['t', 'r', 'u', 'e'] then .ok (.BOOLEAN true, pos + 4)
      else do
        let s5 ← (substr json pos 5).mapError (fun e => (e, pos))
        if s5 = ['f', 'a', 'l', 's', 'e'] then .ok (.BOOLEAN false, pos + 5)
        else if s4 = ['n', 'u', 'l', 'l'] then .ok (.NIL, pos + 4)
        else .error (.runtime_error "Invalid JSON value", pos)
termination_by structural n => n
/-- The function `parseJsonArray`; a failure carries the cursor. -/
def parseJsonArrayAt : Nat → List Char → Nat → Except (Err × Nat) (JsonValue × Nat)
  | 0, _, pos => .error (.fuel, pos)
  | fuel + 1, json, pos => do
    let c ← (charAt json pos).mapError (fun e => (e, pos))
    if c ≠ '[' then .error (.runtime_error "Expected '['", pos)
    else
      let pos := skipWhitespace json (pos + 1)
      let c ← (charAt json pos).mapError (fun e => (e, pos))
      if c ≠ ']' then do
        let r ← parseJsonArrayLoopAt fuel json pos []
        .ok (.ARRAY r.1, r.2 + 1)
      else .ok (.ARRAY [], pos + 1)
termination_by structural n => n
/-- The loop of `parseJsonArray`; a failure carries the cursor. -/
def parseJsonArrayLoopAt : Nat → List Char → Nat → List JsonValue →
    Except (Err × Nat) (List JsonValue × Nat)
  | 0, _, pos, _ => .error (.fuel, pos)
  | fuel + 1, json, pos, values => do
    let r ← parseJsonValueAt fuel json pos
    let values := values ++ [r.1]
    let pos := skipWhitespace json r.2
    let c ← (charAt json pos).mapError (fun e => (e, pos))
    if c = ']' then .ok (values, pos)
    else if c ≠ ',' then .error (.runtime_error "Expected ','", pos)
    else parseJsonArrayLoopAt fuel json (skipWhitespace json (pos + 1)) values
termination_by structural n => n
/-- The function `parseJsonObject`; a failure carries the cursor. -/
def parseJsonObjectAt : Nat → List Char → Nat → Except (Err × Nat) (JsonValue × Nat)
  | 0, _, pos => .error (.fuel, pos)
  | fuel + 1, json, pos => do
    let c ← (charAt json pos).mapError (fun e => (e, pos))
    if c ≠ '{' then .error (.runtime_error "Expected '\x7b'", pos)
    else
      let pos := skipWhitespace json (pos + 1)
      let c ← (charAt json pos).mapError (fun e => (e, pos))
      if c ≠ '}' then do
        let r ← parseJsonObjectLoopAt fuel json pos []
        .ok (.OBJECT r.1, r.2 + 1)
      else .ok (.OBJECT [], pos + 1)
termination_by structural n => n
/-- The loop of `parseJsonObject`; a failure carries the cursor. -/
def parseJsonObjectLoopAt : Nat → List Char → Nat → List (List Char × JsonValue) →
    Except (Err × Nat) (List (List Char × JsonValue) × Nat)
  | 0, _, pos, _ => .error (.fuel, pos)
  | fuel + 1, json, pos, object => do
    let k ← parseJsonStringAt json pos
    let pos := skipWhitespace json k.2
    let c ← (charAt json pos).mapError (fun e => (e, pos))
    if c ≠ ':' then .error (.runtime_error "Expected ':'", pos)
    else do
      let r ← parseJsonValueAt fuel json (skipWhitespace json (pos + 1))
      let object := mapAssign object k.1 r.1
      let pos := skipWhitespace json r.2
      let c ← (charAt json pos).mapError (fun e => (e, pos))
      if c = '}' then .ok (object, pos)
      else if c ≠ ',' then .error (.runtime_error "Expected ','", pos)
      else parseJsonObjectLoopAt fuel json (skipWhitespace json (pos + 1)) object
termination_by structural n => n
end

theorem scanWhile_eq (p : Char → Bool) (s : List Char) :
    ∀ (bound pos : Nat), s.length - pos ≤ bound →
      scanWhile p s bound pos = pos + ((s.drop pos).takeWhile p).length := by
  intro bound
  induction bound with
  | zero =>
    intro pos h
    have hle : s.length ≤ pos := by omega
    simp [scanWhile, List.drop_eq_nil_of_le hle]
  | succ n ih =>
    intro pos h
    unfold scanWhile
    by_cases hp : pos < s.length
    · rw [List.getElem?_eq_getElem hp, List.drop_eq_getElem_cons hp]
      by_cases hc : p s[pos] = true
      · simp only [hc, if_true, List.takeWhile_cons_of_pos, List.length_cons]
        rw [ih (pos + 1) (by omega)]
        omega
      · simp [hc]
    · have hle : s.length ≤ pos := by omega
      simp [List.getElem?_eq_none hle, List.drop_eq_nil_of_le hle]

theorem lt_length_of_drop_eq_cons {s : List Char} {pos : Nat} {c : Char} {r : List Char}
    (h : s.drop pos = c :: r) : pos < s.length := by
  by_contra hn
  rw [List.drop_eq_nil_of_le (by omega)] at h
  cases h

theorem getElem?_of_drop_eq_cons {s : List Char} {pos : Nat} {c : Char} {r : List Char}
    (h : s.drop pos = c :: r) : s[pos]? = some c := by
  have hp := lt_length_of_drop_eq_cons h
  rw [List.drop_eq_getElem_cons hp] at h
  rw [List.getElem?_eq_getElem hp, (List.cons.inj h).1]

theorem charAt_of_drop_eq_cons {s : List Char} {pos : Nat} {c : Char} {r : List Char}
    (h : s.drop pos = c :: r) : charAt s pos = .ok c := by
  simp [charAt, getElem?_of_drop_eq_cons h]

theorem charAt_length (s : List Char) : charAt s s.length = .ok (Char.ofNat 0) := by
  simp [charAt]

theorem substr_of_le {s : List Char} {pos : Nat} (n : Nat) (h : pos ≤ s.length) :
    substr s pos n = .ok ((s.drop pos).take n) := by
  simp [substr, h]

/-- The scan over a run of characters satisfying `p` that is followed by a
character that does not, or by the end of the text. -/
theorem scanWhile_run (p : Char → Bool) (s : List Char) (pos : Nat) (run rest : List Char)
    (h : s.drop pos = run ++ rest) (hrun : ∀ c ∈ run, p c = true)
    (hrest : ∀ c, rest.head? = some c → p c = false) :
    scanWhile p s (s.length - pos) pos = pos + run.length := by
  rw [scanWhile_eq p s _ pos (le_refl _), h]
  congr 1
  cases rest with
  | nil => simp [List.takeWhile_eq_self_iff.2 hrun]
  | cons c r =>
    have hc : p c = false := hrest c rfl
    rw [List.takeWhile_append_of_pos hrun]
    simp [hc]

theorem digitsValue_append (xs ys : List Char) :
    digitsValue (xs ++ ys) = ys.foldl (fun acc c => acc * 10 + (c.toNat - 48)) (digitsValue xs) := by
  simp [digitsValue, List.foldl_append]

theorem digitsValue_snoc (xs : List Char) (c : Char) :
    digitsValue (xs ++ [c]) = digitsValue xs * 10 + (c.toNat - 48) := by
  simp [digitsValue_append]

theorem digitChar_isdigit (k : Nat) (h : k < 10) :
    isdigit (Nat.digitChar k) = true ∧ (Nat.digitChar k).toNat - 48 = k := by
  interval_cases k <;> decide

theorem toDigitsCore_decimal :
    ∀ (fuel n : Nat) (ds : List Char), n < fuel →
      ∃ pre, Nat.toDigitsCore 10 fuel n ds = pre ++ ds ∧ pre ≠ [] ∧
        (∀ c ∈ pre, isdigit c = true) ∧ digitsValue pre = n := by
  intro fuel
  induction fuel with
  | zero => intro n ds h; omega
  | succ f ih =>
    intro n ds h
    have hd := digitChar_isdigit (n % 10) (Nat.mod_lt _ (by decide))
    simp only [Nat.toDigitsCore]
    by_cases h0 : n / 10 = 0
    · refine ⟨[Nat.digitChar (n % 10)], by simp [h0], by simp, by simpa using hd.1, ?_⟩
      have : digitsValue [Nat.digitChar (n % 10)] = (Nat.digitChar (n % 10)).toNat - 48 := by
        simp [digitsValue]
      rw [this, hd.2]
      omega
    · obtain ⟨pre, hpre, _, hall, hval⟩ := ih (n / 10) (Nat.digitChar (n % 10) :: ds) (by omega)
      refine ⟨pre ++ [Nat.digitChar (n % 10)], by simp [h0, hpre], by simp, ?_, ?_⟩
      · intro c hc
        rcases List.mem_append.1 hc with hc | hc
        · exact hall c hc
        · rw [List.mem_singleton.1 hc]; exact hd.1
      · rw [digitsValue_snoc, hval, hd.2]
        omega

/-- The decimal numeral of `n`: non-empty, made of digits, of value `n`. -/
theorem toDigits_decimal (n : Nat) :
    Nat.toDigits 10 n ≠ [] ∧ (∀ c ∈ Nat.toDigits 10 n, isdigit c = true) ∧
      digitsValue (Nat.toDigits 10 n) = n := by
  obtain ⟨pre, hpre, hne, hall, hval⟩ := toDigitsCore_decimal (n + 1) n [] (by omega)
  have : Nat.toDigits 10 n = pre := by simp [Nat.toDigits, hpre]
  rw [this]
  exact ⟨hne, hall, hval⟩

theorem take_length_takeWhile (p : Char → Bool) (l : List Char) :
    l.take (l.takeWhile p).length = l.takeWhile p := by
  induction l with
  | nil => simp
  | cons c r ih =>
    by_cases hc : p c = true
    · simp [List.takeWhile_cons_of_pos hc, ih]
    · simp [List.takeWhile_cons_of_neg hc]

theorem skip_none (p : Char → Bool) {s : List Char} {pos : Nat} {c : Char} {r : List Char}
    (h : s.drop pos = c :: r) (hc : p c = false) :
    scanWhile p s (s.length - pos) pos = pos := by
  have := scanWhile_run p s pos [] (c :: r) (by simpa using h) (by simp) (by simp [hc])
  simpa using this

theorem scan_end (p : Char → Bool) {s : List Char} {pos : Nat} (h : s.length ≤ pos) :
    scanWhile p s (s.length - pos) pos = pos := by
  rw [scanWhile_eq p s _ pos (le_refl _), List.drop_eq_nil_of_le h]
  simp

theorem nextToken_end {expr : List Char} {pos : Nat} (h : expr.length ≤ pos) :
    Tokenizer.nextToken expr pos = .ok (⟨.END, []⟩, pos) := by
  simp only [Tokenizer.nextToken, scan_end isspace h]
  simp [h]

theorem nextToken_identifier (expr : List Char) (pos : Nat) {c : Char} {r : List Char}
    (h : expr.drop pos = c :: r) (hc : isalpha c = true) :
    Tokenizer.nextToken expr pos =
      .ok (⟨.IDENTIFIER, (c :: r).takeWhile (fun c => isalnum c || c = '_')⟩,
        pos + ((c :: r).takeWhile (fun c => isalnum c || c = '_')).length) := by
  have hp := lt_length_of_drop_eq_cons h
  have hs : isspace c = false := by
    simp only [isalpha, isspace] at hc ⊢
    simp only [Bool.or_eq_true, Bool.and_eq_true, decide_eq_true_eq] at hc
    simp only [Bool.or_eq_false_iff, Bool.and_eq_false_iff, decide_eq_false_iff_not]
    omega
  simp only [Tokenizer.nextToken, skip_none isspace h hs, ge_iff_le, Nat.not_le.2 hp, if_false,
    charAt_of_drop_eq_cons h, hc, if_true, bind, Except.bind]
  rw [scanWhile_eq _ expr _ pos (le_refl _), h, Nat.add_sub_cancel_left, substr_of_le _ hp.le, h,
    take_length_takeWhile]

theorem nextToken_number (expr : List Char) (pos : Nat) {c : Char} {r : List Char}
    (h : expr.drop pos = c :: r) (hc : isdigit c = true) :
    Tokenizer.nextToken expr pos =
      .ok (⟨.NUMBER, (c :: r).takeWhile (fun c => isdigit c || c = '.')⟩,
        pos + ((c :: r).takeWhile (fun c => isdigit c || c = '.')).length) := by
  have hp := lt_length_of_drop_eq_cons h
  have hs : isspace c = false := by
    simp only [isdigit, isspace] at hc ⊢
    simp only [Bool.and_eq_true, decide_eq_true_eq] at hc
    simp only [Bool.or_eq_false_iff, Bool.and_eq_false_iff, decide_eq_false_iff_not]
    omega
  have ha : isalpha c = false := by
    simp only [isdigit, isalpha] at hc ⊢
    simp only [Bool.and_eq_true, decide_eq_true_eq] at hc
    simp only [Bool.or_eq_false_iff, Bool.and_eq_false_iff, decide_eq_false_iff_not]
    omega
  simp only [Tokenizer.nextToken, skip_none isspace h hs, ge_iff_le, Nat.not_le.2 hp, if_false,
    charAt_of_drop_eq_cons h, hc, ha, if_true, bind, Except.bind, Bool.true_or, Bool.false_eq_true]
  rw [scanWhile_eq _ expr _ pos (le_refl _), h, Nat.add_sub_cancel_left, substr_of_le _ hp.le, h,
    take_length_takeWhile]

theorem nextToken_symbol (expr : List Char) (pos : Nat) {c : Char} {r : List Char}
    (h : expr.drop pos = c :: r) :
    (c = ',' → Tokenizer.nextToken expr pos = .ok (⟨.COMMA, [',']⟩, pos + 1)) ∧
    (c = '(' → Tokenizer.nextToken expr pos = .ok (⟨.LEFT_PAREN, ['(']⟩, pos + 1)) ∧
    (c = ')' → Tokenizer.nextToken expr pos = .ok (⟨.RIGHT_PAREN, [')']⟩, pos + 1)) ∧
    (c = '[' → Tokenizer.nextToken expr pos = .ok (⟨.LEFT_BRACKET, ['[']⟩, pos + 1)) ∧
    (c = ']' → Tokenizer.nextToken expr pos = .ok (⟨.RIGHT_BRACKET, [']']⟩, pos + 1)) ∧
    (c = '.' → Tokenizer.nextToken expr pos = .ok (⟨.DOT, ['.']⟩, pos + 1)) := by
  have hp := lt_length_of_drop_eq_cons h
  refine ⟨?_, ?_, ?_, ?_, ?_, ?_⟩ <;> intro hc <;> subst hc <;>
    simp [Tokenizer.nextToken, skip_none isspace h (by decide), Nat.not_le.2 hp,
      charAt_of_drop_eq_cons h, bind, Except.bind, isalpha, isdigit]

theorem two_pow_64_lt_overflow : 2 ^ 64 < DBL_OVERFLOW := by
  decide!

theorem stod_digits (ds : List Char) (hne : ds ≠ []) (hall : ∀ c ∈ ds, isdigit c = true)
    (hlt : digitsValue ds < DBL_OVERFLOW) :
    stod ds = .ok (.fin (digitsValue ds : ℚ)) := by
  obtain ⟨c, r, rfl⟩ := List.exists_cons_of_ne_nil hne
  have hc : isdigit c = true := hall c (by simp)
  have h1 : c ≠ '-' := by rintro rfl; exact absurd hc (by decide)
  have h2 : c ≠ '+' := by rintro rfl; exact absurd hc (by decide)
  have htw : (c :: r).takeWhile isdigit = c :: r := List.takeWhile_eq_self_iff.2 hall
  have hdw : (c :: r).dropWhile isdigit = [] := List.dropWhile_eq_nil_iff.2 hall
  simp only [stod, List.head?_cons, Option.some.injEq, h1, h2, or_self, if_false, htw, hdw,
    fractionDigits, decide_False, List.append_nil, List.length_nil, pow_zero, Nat.mul_one,
    Nat.not_le.2 hlt]
  by_cases h0 : digitsValue (c :: r) = 0
  · simp [h0]
  · rw [if_neg (by simp), if_neg h0, if_neg (fun h => h.2 (Nat.mod_one _))]
    simp [Rat.mkRat_one]

theorem toSizeT_natCast (n : Nat) (h : n < 2 ^ 64) :
    Double.toSizeT (.fin (n : ℚ)) = some n := by
  have h2 : (n : Int) < 2 ^ 64 := by exact_mod_cast h
  simp [Double.toSizeT, h2]
  exact h

theorem parse_pathText (ds : List Char) (hne : ds ≠ []) (hall : ∀ c ∈ ds, isdigit c = true)
    (fuel : Nat) :
    ExpressionParser.parseWith (fuel + 6) (pathText ds) = .ok (pathAst ds) := by
  have hrun : ∀ c ∈ ds, (isdigit c || decide (c = '.')) = true := by
    intro c hc; simp [hall c hc]
  have htw : (ds ++ [']']).takeWhile (fun c => isdigit c || decide (c = '.')) = ds := by
    rw [List.takeWhile_append_of_pos hrun]
    simp [isdigit]
  have t0 : Tokenizer.nextToken (pathText ds) 0 = .ok (⟨.IDENTIFIER, ['a']⟩, 1) := by
    have := nextToken_identifier (pathText ds) 0 (c := 'a') rfl (by decide)
    simpa [isalnum, isalpha, isdigit] using this
  have t1 : Tokenizer.nextToken (pathText ds) 1 = .ok (⟨.DOT, ['.']⟩, 2) :=
    (nextToken_symbol (pathText ds) 1 rfl).2.2.2.2.2 rfl
  have t2 : Tokenizer.nextToken (pathText ds) 2 = .ok (⟨.IDENTIFIER, ['b']⟩, 3) := by
    have := nextToken_identifier (pathText ds) 2 (c := 'b') rfl (by decide)
    simpa [isalnum, isalpha, isdigit] using this
  have t3 : Tokenizer.nextToken (pathText ds) 3 = .ok (⟨.LEFT_BRACKET, ['[']⟩, 4) :=
    (nextToken_symbol (pathText ds) 3 rfl).2.2.2.1 rfl
  have t4 : Tokenizer.nextToken (pathText ds) 4 = .ok (⟨.NUMBER, ds⟩, 4 + ds.length) := by
    obtain ⟨d, r, rfl⟩ := List.exists_cons_of_ne_nil hne
    have := nextToken_number (pathText (d :: r)) 4 (c := d) (r := r ++ [']'])
      rfl (hall d (by simp))
    rw [show d :: (r ++ [']']) = d :: r ++ [']'] from rfl, htw] at this
    exact this
  have hdrop : (pathText ds).drop (4 + ds.length) = [']'] := by
    rw [Nat.add_comm]
    show List.drop ds.length (ds ++ [']']) = [']']
    exact List.drop_left _ _
  have t5 : Tokenizer.nextToken (pathText ds) (4 + ds.length) =
      .ok (⟨.RIGHT_BRACKET, [']']⟩, 4 + ds.length + 1) :=
    (nextToken_symbol _ _ hdrop).2.2.2.2.1 rfl
  have t6 : Tokenizer.nextToken (pathText ds) (4 + ds.length + 1) =
      .ok (⟨.END, []⟩, 4 + ds.length + 1) :=
    nextToken_end (by simp [pathText]; omega)
  simp [ExpressionParser.parseWith, ExpressionParser.parseExpression,
    ExpressionParser.parseFunctionCall, ExpressionParser.parsePostfix,
    ExpressionParser.parsePrimary, ExpressionParser.advance, bind, Except.bind,
    t0, t1, t2, t3, t4, t5, t6, pathAst]

theorem evaluateAst_subscript (json : JsonValue) (a b : AstNode) (xs : List JsonValue)
    (d : Double) (i : Nat)
    (ha : evaluateAst a json = .ok (.ARRAY xs)) (hb : evaluateAst b json = .ok (.NUMBER d))
    (hd : d.toSizeT = some i) :
    evaluateAst (.mk .SUBSCRIPT [] [a, b]) json = vectorAt xs i := by
  simp only [evaluateAst, ha, hb, bind, Except.bind, JsonValue.toNumber, hd]

theorem evaluateAst_literal_digits (json : JsonValue) (ds : List Char) (hne : ds ≠ [])
    (hall : ∀ c ∈ ds, isdigit c = true) (hlt : digitsValue ds < DBL_OVERFLOW) :
    evaluateAst (.mk .LITERAL ds []) json = .ok (.NUMBER (.fin (digitsValue ds : ℚ))) := by
  have hall2 : ds.all isdigit = true := List.all_eq_true.2 hall
  simp only [evaluateAst, hall2, stod_digits ds hne hall hlt, bind, Except.bind, if_true]

theorem evaluate_pathAst (m o : List (List Char × JsonValue)) (xs : List JsonValue)
    (ds : List Char) (hne : ds ≠ []) (hall : ∀ c ∈ ds, isdigit c = true)
    (ha : mapFind m ['a'] = some (.OBJECT o)) (hb : mapFind o ['b'] = some (.ARRAY xs))
    (h64 : digitsValue ds < 2 ^ 64) :
    evaluateAst (pathAst ds) (.OBJECT m) = vectorAt xs (digitsValue ds) := by
  have hbase : evaluateAst (.mk .MEMBER_ACCESS ['b'] [.mk .IDENTIFIER ['a'] []]) (.OBJECT m) =
      .ok (.ARRAY xs) := by
    simp only [evaluateAst, lookupIdentifier, ha, hb, bind, Except.bind]
  exact evaluateAst_subscript _ _ _ xs _ _ hbase
    (evaluateAst_literal_digits _ ds hne hall (lt_trans h64 two_pow_64_lt_overflow))
    (toSizeT_natCast _ h64)

/-- C1: for a root object whose key `a` holds an object whose key `b` holds
the array `xs`, and for every index `i < xs.length` (the size of a vector fits
a `size_t`), parsing the text `a.b[i]`, with `i` written as its decimal
numeral, with `ExpressionParser::parse` and evaluating the tree with
`evaluateAst` against the root returns exactly the element `xs[i]`. -/
theorem C1_path_subscript_returns_element (m o : List (List Char × JsonValue))
    (xs : List JsonValue) (i : Nat)
    (ha : mapFind m ['a'] = some (.OBJECT o)) (hb : mapFind o ['b'] = some (.ARRAY xs))
    (hi : i < xs.length) (hsize : xs.length ≤ 2 ^ 64) :
    evaluate (['a', '.', 'b', '['] ++ Nat.toDigits 10 i ++ [']']) (.OBJECT m) = .ok xs[i] := by
  obtain ⟨hne, hall, hval⟩ := toDigits_decimal i
  have hfuel : 4 * (pathText (Nat.toDigits 10 i)).length + 4 =
      (4 * (Nat.toDigits 10 i).length + 18) + 6 := by
    simp only [pathText, List.length_append, List.length_cons, List.length_nil]
    omega
  have hparse : ExpressionParser.parse (pathText (Nat.toDigits 10 i)) =
      .ok (pathAst (Nat.toDigits 10 i)) := by
    rw [ExpressionParser.parse, hfuel]
    exact parse_pathText _ hne hall _
  show evaluate (pathText (Nat.toDigits 10 i)) (.OBJECT m) = .ok xs[i]
  simp only [evaluate, hparse, bind, Except.bind]
  rw [evaluate_pathAst m o xs _ hne hall ha hb (by rw [hval]; omega), hval]
  simp [vectorAt, List.getElem?_eq_getElem hi]

/-- C1 on the document `{"a":{"b":[10,20,30,{"c":99}]}}` and the text `a.b[1]`:
the result is `20`. -/
theorem C1_path_subscript_witness :
    evaluate (['a', '.', 'b', '['] ++ Nat.toDigits 10 1 ++ [']'])
      (.OBJECT [(['a'], .OBJECT [(['b'], .ARRAY [.NUMBER (.fin 10),
        .NUMBER (.fin 20), .NUMBER (.fin 30), .OBJECT [(['c'], .NUMBER (.fin 99))]])])]) =
        .ok (.NUMBER (.fin 20)) :=
  C1_path_subscript_returns_element
    [(['a'], .OBJECT [(['b'], .ARRAY [.NUMBER (.fin 10), .NUMBER (.fin 20), .NUMBER (.fin 30),
      .OBJECT [(['c'], .NUMBER (.fin 99))]])])]
    [(['b'], .ARRAY [.NUMBER (.fin 10), .NUMBER (.fin 20), .NUMBER (.fin 30),
      .OBJECT [(['c'], .NUMBER (.fin 99))]])]
    [.NUMBER (.fin 10), .NUMBER (.fin 20), .NUMBER (.fin 30), .OBJECT [(['c'], .NUMBER (.fin 99))]]
    1 (by decide!) (by decide!) (by decide) (by decide)

/-! ## The evaluator: `size`, `min`, `max`, subscripts -/

theorem evaluateAst_size (x : AstNode) (root : JsonValue) :
    evaluateAst (.mk .FUNCTION_CALL ['s', 'i', 'z', 'e'] [x]) root =
      (evaluateAst x root).bind (fun v => v.size.bind (fun n => .ok (.NUMBER (Double.ofSizeT n)))) := by
  simp only [evaluateAst, bind]
  simp

/-- C2: for a node `x` and a root, `size(x)` returns the Number equal to the
number of elements when `x` evaluates to an array, the Number equal to the
number of entries when it evaluates to an object, the Number equal to the
number of characters when it evaluates to a string, and throws
"Invalid type for size" when it evaluates to a number, a boolean or null. -/
theorem C2_size_counts_or_type_error (x : AstNode) (root : JsonValue) :
    (∀ xs, evaluateAst x root = .ok (.ARRAY xs) →
      evaluateAst (.mk .FUNCTION_CALL ['s', 'i', 'z', 'e'] [x]) root =
        .ok (.NUMBER (.fin (xs.length : ℚ)))) ∧
    (∀ o, evaluateAst x root = .ok (.OBJECT o) →
      evaluateAst (.mk .FUNCTION_CALL ['s', 'i', 'z', 'e'] [x]) root =
        .ok (.NUMBER (.fin (o.length : ℚ)))) ∧
    (∀ s, evaluateAst x root = .ok (.STRING s) →
      evaluateAst (.mk .FUNCTION_CALL ['s', 'i', 'z', 'e'] [x]) root =
        .ok (.NUMBER (.fin (s.length : ℚ)))) ∧
    (∀ d, evaluateAst x root = .ok (.NUMBER d) →
      evaluateAst (.mk .FUNCTION_CALL ['s', 'i', 'z', 'e'] [x]) root =
        .error (.runtime_error "Invalid type for size")) ∧
    (∀ b, evaluateAst x root = .ok (.BOOLEAN b) →
      evaluateAst (.mk .FUNCTION_CALL ['s', 'i', 'z', 'e'] [x]) root =
        .error (.runtime_error "Invalid type for size")) ∧
    (evaluateAst x root = .ok .NIL →
      evaluateAst (.mk .FUNCTION_CALL ['s', 'i', 'z', 'e'] [x]) root =
        .error (.runtime_error "Invalid type for size")) := by
  refine ⟨?_, ?_, ?_, ?_, ?_, ?_⟩ <;> intros <;>
    simp_all [evaluateAst_size, Except.bind, JsonValue.size, Double.ofSizeT]

/-- C2 on the document `{"a":{"b":[10,20,30,{"c":99}]}}`: `size(a.b)` is the
Number 4 and `size(a.b[0])` throws. -/
theorem C2_size_witness :
    evaluateAst (.mk .FUNCTION_CALL ['s', 'i', 'z', 'e']
        [.mk .MEMBER_ACCESS ['b'] [.mk .IDENTIFIER ['a'] []]]) exampleDocument =
        .ok (.NUMBER (.fin 4)) ∧
      evaluateAst (.mk .FUNCTION_CALL ['s', 'i', 'z', 'e'] [pathAst ['0']]) exampleDocument =
        .error (.runtime_error "Invalid type for size") :=
  ⟨(C2_size_counts_or_type_error (.mk .MEMBER_ACCESS ['b'] [.mk .IDENTIFIER ['a'] []])
      exampleDocument).1
      [.NUMBER (.fin 10), .NUMBER (.fin 20), .NUMBER (.fin 30),
        .OBJECT [(['c'], .NUMBER (.fin 99))]] (by decide!),
    (C2_size_counts_or_type_error (pathAst ['0']) exampleDocument).2.2.2.1 (.fin 10)
      (by decide!)⟩

/-! ### The order of `double` -/

theorem Double.lt_irrefl (a : Double) : Double.lt a a = false := by
  cases a <;> simp [Double.lt]

theorem Double.lt_asymm (a b : Double) (h : Double.lt a b = true) : Double.lt b a = false := by
  cases a <;> cases b <;> simp_all [Double.lt] <;> exact le_of_lt h

theorem Double.lt_of_lt_of_not_lt (a b c : Double) (h : Double.lt a c = true)
    (hb : Double.lt a b = false) : Double.lt b c = true := by
  cases a <;> cases b <;> cases c <;> simp_all [Double.lt] <;> linarith

/-- Two numbers neither of which is less than the other are the same number
or are both zeros. -/
theorem Double.eq_or_zeros_of_not_lt (a b : Double) (h1 : Double.lt a b = false)
    (h2 : Double.lt b a = false) :
    a = b ∨ ((a = .fin 0 ∨ a = .neg_zero) ∧ (b = .fin 0 ∨ b = .neg_zero)) := by
  cases a <;> cases b <;> simp_all [Double.lt] <;>
    first
      | exact le_antisymm h2 h1
      | exact le_antisymm h1 h2
      | exact Or.inl (le_antisymm h2 h1)

theorem Double.min_cases (a b : Double) :
    (Double.min a b = a ∨ Double.min a b = b) ∧ Double.lt a (Double.min a b) = false ∧
      Double.lt b (Double.min a b) = false := by
  unfold Double.min
  by_cases h : Double.lt b a = true
  · simp [h, Double.lt_irrefl, Double.lt_asymm b a h]
  · simp [h, Double.lt_irrefl]

theorem Double.max_cases (a b : Double) :
    (Double.max a b = a ∨ Double.max a b = b) ∧ Double.lt (Double.max a b) a = false ∧
      Double.lt (Double.max a b) b = false := by
  unfold Double.max
  by_cases h : Double.lt a b = true
  · simp [h, Double.lt_irrefl, Double.lt_asymm a b h]
  · simp [h, Double.lt_irrefl]

theorem Double.lt_of_not_lt_of_lt (a b c : Double) (h : Double.lt a c = true)
    (hb : Double.lt b c = false) : Double.lt a b = true := by
  cases a <;> cases b <;> cases c <;> simp_all [Double.lt] <;> linarith

theorem evaluateAst_min (args : List AstNode) (root : JsonValue) :
    evaluateAst (.mk .FUNCTION_CALL ['m', 'i', 'n'] args) root =
      (evaluateMin args root .pos_inf).bind (fun d => .ok (.NUMBER d)) := by
  unfold evaluateAst
  simp only [bind, if_true]

theorem evaluateAst_max (args : List AstNode) (root : JsonValue) :
    evaluateAst (.mk .FUNCTION_CALL ['m', 'a', 'x'] args) root =
      (evaluateMax args root .neg_inf).bind (fun d => .ok (.NUMBER d)) := by
  unfold evaluateAst
  simp [bind]

theorem evaluateMin_cons_number (a : AstNode) (rest : List AstNode) (root : JsonValue)
    (acc d : Double) (h : evaluateAst a root = .ok (.NUMBER d)) :
    evaluateMin (a :: rest) root acc = evaluateMin rest root (Double.min acc d) := by
  simp only [evaluateMin, h, bind, Except.bind, JsonValue.toNumber]

theorem evaluateMax_cons_number (a : AstNode) (rest : List AstNode) (root : JsonValue)
    (acc d : Double) (h : evaluateAst a root = .ok (.NUMBER d)) :
    evaluateMax (a :: rest) root acc = evaluateMax rest root (Double.max acc d) := by
  simp only [evaluateMax, h, bind, Except.bind, JsonValue.toNumber]

/-- The loop of `min` over arguments that all evaluate to numbers returns the
least of the seed and the argument values. -/
theorem evaluateMin_least (root : JsonValue) :
    ∀ (args : List AstNode) (acc : Double),
      (∀ a ∈ args, ∃ d, evaluateAst a root = .ok (.NUMBER d)) →
      ∃ r, evaluateMin args root acc = .ok r ∧
        (r = acc ∨ ∃ a ∈ args, evaluateAst a root = .ok (.NUMBER r)) ∧
        Double.lt acc r = false ∧
        ∀ a ∈ args, ∀ d, evaluateAst a root = .ok (.NUMBER d) → Double.lt d r = false := by
  intro args
  induction args with
  | nil =>
    intro acc _
    exact ⟨acc, by simp [evaluateMin], Or.inl rfl, Double.lt_irrefl acc, by simp⟩
  | cons a rest ih =>
    intro acc hnum
    obtain ⟨d, hd⟩ := hnum a (by simp)
    obtain ⟨r, hr, hmem, hacc, hall⟩ := ih (Double.min acc d)
      (fun b hb => hnum b (List.mem_cons_of_mem _ hb))
    obtain ⟨hm, hm1, hm2⟩ := Double.min_cases acc d
    have below : ∀ x, Double.lt x (Double.min acc d) = false → Double.lt x r = false := by
      intro x hx
      by_contra hcon
      have h1 := Double.lt_of_lt_of_not_lt x (Double.min acc d) r (by simpa using hcon) hx
      rw [hacc] at h1
      exact absurd h1 (by simp)
    refine ⟨r, by rw [evaluateMin_cons_number a rest root acc d hd, hr], ?_, below acc hm1, ?_⟩
    · rcases hmem with hmem | ⟨b, hb, hbv⟩
      · rcases hm with hm | hm
        · exact Or.inl (by rw [hmem, hm])
        · exact Or.inr ⟨a, by simp, by rw [hmem, hm]; exact hd⟩
      · exact Or.inr ⟨b, List.mem_cons_of_mem _ hb, hbv⟩
    · intro b hb e he
      rcases List.mem_cons.1 hb with rfl | hb
      · rw [hd] at he
        cases he
        exact below _ hm2
      · exact hall b hb e he

/-- The loop of `max` over arguments that all evaluate to numbers returns the
greatest of the seed and the argument values. -/
theorem evaluateMax_greatest (root : JsonValue) :
    ∀ (args : List AstNode) (acc : Double),
      (∀ a ∈ args, ∃ d, evaluateAst a root = .ok (.NUMBER d)) →
      ∃ r, evaluateMax args root acc = .ok r ∧
        (r = acc ∨ ∃ a ∈ args, evaluateAst a root = .ok (.NUMBER r)) ∧
        Double.lt r acc = false ∧
        ∀ a ∈ args, ∀ d, evaluateAst a root = .ok (.NUMBER d) → Double.lt r d = false := by
  intro args
  induction args with
  | nil =>
    intro acc _
    exact ⟨acc, by simp [evaluateMax], Or.inl rfl, Double.lt_irrefl acc, by simp⟩
  | cons a rest ih =>
    intro acc hnum
    obtain ⟨d, hd⟩ := hnum a (by simp)
    obtain ⟨r, hr, hmem, hacc, hall⟩ := ih (Double.max acc d)
      (fun b hb => hnum b (List.mem_cons_of_mem _ hb))
    obtain ⟨hm, hm1, hm2⟩ := Double.max_cases acc d
    have above : ∀ x, Double.lt (Double.max acc d) x = false → Double.lt r x = false := by
      intro x hx
      by_contra hcon
      have h1 := Double.lt_of_not_lt_of_lt r (Double.max acc d) x (by simpa using hcon) hx
      rw [hacc] at h1
      exact absurd h1 (by simp)
    refine ⟨r, by rw [evaluateMax_cons_number a rest root acc d hd, hr], ?_, above acc hm1, ?_⟩
    · rcases hmem with hmem | ⟨b, hb, hbv⟩
      · rcases hm with hm | hm
        · exact Or.inl (by rw [hmem, hm])
        · exact Or.inr ⟨a, by simp, by rw [hmem, hm]; exact hd⟩
      · exact Or.inr ⟨b, List.mem_cons_of_mem _ hb, hbv⟩
    · intro b hb e he
      rcases List.mem_cons.1 hb with rfl | hb
      · rw [hd] at he
        cases he
        exact above _ hm2
      · exact hall b hb e he

theorem Double.eq_pos_inf_of_not_lt (d : Double) (h : Double.lt d .pos_inf = false) :
    d = .pos_inf := by
  cases d <;> simp_all [Double.lt]

theorem Double.eq_neg_inf_of_not_lt (d : Double) (h : Double.lt .neg_inf d = false) :
    d = .neg_inf := by
  cases d <;> simp_all [Double.lt]

/-- The value of `min(args)` on a non-empty list of arguments that evaluate to
numbers: a number attained by an argument and not above any argument. -/
theorem evaluateAst_min_least (root : JsonValue) (args : List AstNode) (hne : args ≠ [])
    (hnum : ∀ a ∈ args, ∃ d, evaluateAst a root = .ok (.NUMBER d)) :
    ∃ lo, evaluateAst (.mk .FUNCTION_CALL ['m', 'i', 'n'] args) root = .ok (.NUMBER lo) ∧
      (∃ a ∈ args, evaluateAst a root = .ok (.NUMBER lo)) ∧
      ∀ a ∈ args, ∀ d, evaluateAst a root = .ok (.NUMBER d) → Double.lt d lo = false := by
  obtain ⟨r, hr, hmem, _, hall⟩ := evaluateMin_least root args .pos_inf hnum
  refine ⟨r, by rw [evaluateAst_min, hr]; rfl, ?_, hall⟩
  rcases hmem with rfl | h
  · obtain ⟨a, rest, rfl⟩ := List.exists_cons_of_ne_nil hne
    obtain ⟨d, hd⟩ := hnum a (by simp)
    have := Double.eq_pos_inf_of_not_lt d (hall a (by simp) d hd)
    exact ⟨a, by simp, by rw [hd, this]⟩
  · exact h

/-- The value of `max(args)` on a non-empty list of arguments that evaluate to
numbers: a number attained by an argument and not below any argument. -/
theorem evaluateAst_max_greatest (root : JsonValue) (args : List AstNode) (hne : args ≠ [])
    (hnum : ∀ a ∈ args, ∃ d, evaluateAst a root = .ok (.NUMBER d)) :
    ∃ hi, evaluateAst (.mk .FUNCTION_CALL ['m', 'a', 'x'] args) root = .ok (.NUMBER hi) ∧
      (∃ a ∈ args, evaluateAst a root = .ok (.NUMBER hi)) ∧
      ∀ a ∈ args, ∀ d, evaluateAst a root = .ok (.NUMBER d) → Double.lt hi d = false := by
  obtain ⟨r, hr, hmem, _, hall⟩ := evaluateMax_greatest root args .neg_inf hnum
  refine ⟨r, by rw [evaluateAst_max, hr]; rfl, ?_, hall⟩
  rcases hmem with rfl | h
  · obtain ⟨a, rest, rfl⟩ := List.exists_cons_of_ne_nil hne
    obtain ⟨d, hd⟩ := hnum a (by simp)
    have := Double.eq_neg_inf_of_not_lt d (hall a (by simp) d hd)
    exact ⟨a, by simp, by rw [hd, this]⟩
  · exact h

/-- C3 fails on the document `{"x":-0,"y":0}`, which `readJson` reads as the
negative zero under `x` and the positive zero under `y`: `min(x,y)` and
`max(x,y)` return the negative zero while `min(y,x)` and `max(y,x)` return the
positive zero, since `std::min` and `std::max` keep the value found first
among values that compare equal. -/
theorem C3_signed_zero_counterexample :
    readJson ['{', '"', 'x', '"', ':', '-', '0', ',', '"', 'y', '"', ':', '0', '}'] =
        .ok (.OBJECT [(['x'], .NUMBER .neg_zero), (['y'], .NUMBER (.fin 0))]) ∧
      evaluate ['m', 'i', 'n', '(', 'x', ',', 'y', ')']
        (.OBJECT [(['x'], .NUMBER .neg_zero), (['y'], .NUMBER (.fin 0))]) =
        .ok (.NUMBER .neg_zero) ∧
      evaluate ['m', 'i', 'n', '(', 'y', ',', 'x', ')']
        (.OBJECT [(['x'], .NUMBER .neg_zero), (['y'], .NUMBER (.fin 0))]) =
        .ok (.NUMBER (.fin 0)) ∧
      evaluate ['m', 'a', 'x', '(', 'x', ',', 'y', ')']
        (.OBJECT [(['x'], .NUMBER .neg_zero), (['y'], .NUMBER (.fin 0))]) =
        .ok (.NUMBER .neg_zero) ∧
      evaluate ['m', 'a', 'x', '(', 'y', ',', 'x', ')']
        (.OBJECT [(['x'], .NUMBER .neg_zero), (['y'], .NUMBER (.fin 0))]) =
        .ok (.NUMBER (.fin 0)) ∧
      JsonValue.NUMBER .neg_zero ≠ JsonValue.NUMBER (.fin 0) := by
  decide!

/-- C3 as amended: for a root and a non-empty list `args` of nodes that all
evaluate to numbers, `min(args)` returns a number `lo` that is the value of
one of the arguments and that no argument value is less than, and `max(args)`
returns a number `hi` that is the value of one of the arguments and that is
less than no argument value; for every permutation `args'` of the arguments
`min(args')` and `max(args')` return the same numbers `lo` and `hi`, except
that where the result is a zero the other order may return the zero of the
other sign. -/
theorem C3_min_max_order_up_to_zero_sign (root : JsonValue) (args args' : List AstNode)
    (hne : args ≠ []) (hperm : args.Perm args')
    (hnum : ∀ a ∈ args, ∃ d, evaluateAst a root = .ok (.NUMBER d)) :
    (∃ lo lo', evaluateAst (.mk .FUNCTION_CALL ['m', 'i', 'n'] args) root = .ok (.NUMBER lo) ∧
      evaluateAst (.mk .FUNCTION_CALL ['m', 'i', 'n'] args') root = .ok (.NUMBER lo') ∧
      (lo' = lo ∨ ((lo' = .fin 0 ∨ lo' = .neg_zero) ∧ (lo = .fin 0 ∨ lo = .neg_zero))) ∧
      (∃ a ∈ args, evaluateAst a root = .ok (.NUMBER lo)) ∧
      ∀ a ∈ args, ∀ d, evaluateAst a root = .ok (.NUMBER d) → Double.lt d lo = false) ∧
    (∃ hi hi', evaluateAst (.mk .FUNCTION_CALL ['m', 'a', 'x'] args) root = .ok (.NUMBER hi) ∧
      evaluateAst (.mk .FUNCTION_CALL ['m', 'a', 'x'] args') root = .ok (.NUMBER hi') ∧
      (hi' = hi ∨ ((hi' = .fin 0 ∨ hi' = .neg_zero) ∧ (hi = .fin 0 ∨ hi = .neg_zero))) ∧
      (∃ a ∈ args, evaluateAst a root = .ok (.NUMBER hi)) ∧
      ∀ a ∈ args, ∀ d, evaluateAst a root = .ok (.NUMBER d) → Double.lt hi d = false) := by
  have hne' : args' ≠ [] := by
    intro h
    rw [h] at hperm
    exact hne hperm.eq_nil
  have hnum' : ∀ a ∈ args', ∃ d, evaluateAst a root = .ok (.NUMBER d) :=
    fun a ha => hnum a (hperm.mem_iff.2 ha)
  constructor
  · obtain ⟨lo, h1, ⟨a, ha, hav⟩, h3⟩ := evaluateAst_min_least root args hne hnum
    obtain ⟨lo', h1', ⟨a', ha', hav'⟩, h3'⟩ := evaluateAst_min_least root args' hne' hnum'
    exact ⟨lo, lo', h1, h1',
      Double.eq_or_zeros_of_not_lt lo' lo (h3 a' (hperm.mem_iff.2 ha') lo' hav')
        (h3' a (hperm.mem_iff.1 ha) lo hav), ⟨a, ha, hav⟩, h3⟩
  · obtain ⟨hi, h1, ⟨a, ha, hav⟩, h3⟩ := evaluateAst_max_greatest root args hne hnum
    obtain ⟨hi', h1', ⟨a', ha', hav'⟩, h3'⟩ := evaluateAst_max_greatest root args' hne' hnum'
    exact ⟨hi, hi', h1, h1',
      Double.eq_or_zeros_of_not_lt hi' hi (h3' a (hperm.mem_iff.1 ha) hi hav)
        (h3 a' (hperm.mem_iff.2 ha') hi' hav'), ⟨a, ha, hav⟩, h3⟩

/-- C3 as amended, on the document `{"a":{"b":[10,20,30,{"c":99}]}}`:
`max(a.b[0], 10, a.b[1], 15)` and `max(15, a.b[1], 10, a.b[0])`, and the same
with `min`. -/
theorem C3_min_max_order_witness :
    (∃ lo lo', evaluateAst (.mk .FUNCTION_CALL ['m', 'i', 'n']
        [pathAst ['0'], .mk .LITERAL ['1', '0'] [], pathAst ['1'], .mk .LITERAL ['1', '5'] []])
        exampleDocument = .ok (.NUMBER lo) ∧
      evaluateAst (.mk .FUNCTION_CALL ['m', 'i', 'n']
        [.mk .LITERAL ['1', '5'] [], pathAst ['1'], .mk .LITERAL ['1', '0'] [], pathAst ['0']])
        exampleDocument = .ok (.NUMBER lo') ∧
      (lo' = lo ∨ ((lo' = .fin 0 ∨ lo' = .neg_zero) ∧ (lo = .fin 0 ∨ lo = .neg_zero))) ∧
      (∃ a ∈ [pathAst ['0'], .mk .LITERAL ['1', '0'] [], pathAst ['1'],
          .mk .LITERAL ['1', '5'] []], evaluateAst a exampleDocument = .ok (.NUMBER lo)) ∧
      ∀ a ∈ [pathAst ['0'], .mk .LITERAL ['1', '0'] [], pathAst ['1'],
          .mk .LITERAL ['1', '5'] []], ∀ d,
        evaluateAst a exampleDocument = .ok (.NUMBER d) → Double.lt d lo = false) ∧
    (∃ hi hi', evaluateAst (.mk .FUNCTION_CALL ['m', 'a', 'x']
        [pathAst ['0'], .mk .LITERAL ['1', '0'] [], pathAst ['1'], .mk .LITERAL ['1', '5'] []])
        exampleDocument = .ok (.NUMBER hi) ∧
      evaluateAst (.mk .FUNCTION_CALL ['m', 'a', 'x']
        [.mk .LITERAL ['1', '5'] [], pathAst ['1'], .mk .LITERAL ['1', '0'] [], pathAst ['0']])
        exampleDocument = .ok (.NUMBER hi') ∧
      (hi' = hi ∨ ((hi' = .fin 0 ∨ hi' = .neg_zero) ∧ (hi = .fin 0 ∨ hi = .neg_zero))) ∧
      (∃ a ∈ [pathAst ['0'], .mk .LITERAL ['1', '0'] [], pathAst ['1'],
          .mk .LITERAL ['1', '5'] []], evaluateAst a exampleDocument = .ok (.NUMBER hi)) ∧
      ∀ a ∈ [pathAst ['0'], .mk .LITERAL ['1', '0'] [], pathAst ['1'],
          .mk .LITERAL ['1', '5'] []], ∀ d,
        evaluateAst a exampleDocument = .ok (.NUMBER d) → Double.lt hi d = false) :=
  C3_min_max_order_up_to_zero_sign exampleDocument
    [pathAst ['0'], .mk .LITERAL ['1', '0'] [], pathAst ['1'], .mk .LITERAL ['1', '5'] []]
    [.mk .LITERAL ['1', '5'] [], pathAst ['1'], .mk .LITERAL ['1', '0'] [], pathAst ['0']]
    (by simp) (List.reverse_perm _).symm
    (by
      intro a ha
      simp only [List.mem_cons, List.mem_singleton, List.not_mem_nil, or_false] at ha
      rcases ha with rfl | rfl | rfl | rfl
      · exact ⟨.fin 10, by decide!⟩
      · exact ⟨.fin 10, by decide!⟩
      · exact ⟨.fin 20, by decide!⟩
      · exact ⟨.fin 15, by decide!⟩)

/-- The loops of `min` and `max` stop at the first argument that does not
evaluate to a number: with its own failure, or with "Value is not a number". -/
theorem evaluateMin_non_number (root : JsonValue) :
    ∀ (args : List AstNode) (acc : Double),
      (∃ a ∈ args, ∃ v, evaluateAst a root = .ok v ∧ ∀ d, v ≠ .NUMBER d) →
      (∃ e, evaluateMin args root acc = .error e ∧
        (e = .runtime_error "Value is not a number" ∨
          ∃ b ∈ args, evaluateAst b root = .error e)) ∧
      (∃ e, evaluateMax args root acc = .error e ∧
        (e = .runtime_error "Value is not a number" ∨
          ∃ b ∈ args, evaluateAst b root = .error e)) := by
  intro args
  induction args with
  | nil => intro acc h; simp at h
  | cons b rest ih =>
    intro acc h
    obtain ⟨a, ha, v, hv, hnot⟩ := h
    cases hb : evaluateAst b root with
    | error e =>
      constructor <;>
        exact ⟨e, by simp [evaluateMin, evaluateMax, hb, bind, Except.bind],
          Or.inr ⟨b, by simp, hb⟩⟩
    | ok w =>
      cases w with
      | NUMBER d =>
        have hrest : a ∈ rest := by
          rcases List.mem_cons.1 ha with rfl | h
          · rw [hb] at hv
            cases hv
            exact absurd rfl (hnot d)
          · exact h
        obtain ⟨⟨e, he, hor⟩, ⟨e', he', hor'⟩⟩ := ih (Double.min acc d) ⟨a, hrest, v, hv, hnot⟩
        obtain ⟨⟨_, _, _⟩, ⟨e', he', hor'⟩⟩ := ih (Double.max acc d) ⟨a, hrest, v, hv, hnot⟩
        constructor
        · refine ⟨e, by rw [evaluateMin_cons_number b rest root acc d hb, he], ?_⟩
          rcases hor with h | ⟨c, hc, hce⟩
          · exact Or.inl h
          · exact Or.inr ⟨c, List.mem_cons_of_mem _ hc, hce⟩
        · refine ⟨e', by rw [evaluateMax_cons_number b rest root acc d hb, he'], ?_⟩
          rcases hor' with h | ⟨c, hc, hce⟩
          · exact Or.inl h
          · exact Or.inr ⟨c, List.mem_cons_of_mem _ hc, hce⟩
      | OBJECT _ | ARRAY _ | STRING _ | BOOLEAN _ | NIL =>
        constructor <;>
          exact ⟨_, by simp [evaluateMin, evaluateMax, hb, bind, Except.bind,
            JsonValue.toNumber], Or.inl rfl⟩

/-- C4: for a root and an argument list in which some argument evaluates to a
value that is not a number, `min(args)` and `max(args)` return no value: the
call throws "Value is not a number" (nothing is coerced or skipped), unless an
argument before it fails on its own, in which case the call ends with that
failure. -/
theorem C4_min_max_non_number_fails (root : JsonValue) (args : List AstNode) (a : AstNode)
    (v : JsonValue) (ha : a ∈ args) (hv : evaluateAst a root = .ok v)
    (hnot : ∀ d, v ≠ .NUMBER d) :
    (∃ e, evaluateAst (.mk .FUNCTION_CALL ['m', 'i', 'n'] args) root = .error e ∧
      (e = .runtime_error "Value is not a number" ∨
        ∃ b ∈ args, evaluateAst b root = .error e)) ∧
    (∃ e, evaluateAst (.mk .FUNCTION_CALL ['m', 'a', 'x'] args) root = .error e ∧
      (e = .runtime_error "Value is not a number" ∨
        ∃ b ∈ args, evaluateAst b root = .error e)) := by
  obtain ⟨⟨e, he, hor⟩, _⟩ := evaluateMin_non_number root args .pos_inf ⟨a, ha, v, hv, hnot⟩
  obtain ⟨_, ⟨e', he', hor'⟩⟩ := evaluateMin_non_number root args .neg_inf ⟨a, ha, v, hv, hnot⟩
  exact ⟨⟨e, by rw [evaluateAst_min, he]; rfl, hor⟩, ⟨e', by rw [evaluateAst_max, he']; rfl, hor'⟩⟩

/-- C4 on the document `{"a":{"b":[10,20,30,{"c":99}]}}` and the arguments of
`min(a.b[0], a.b[3])`, the second of which is an object. -/
theorem C4_min_max_non_number_witness :
    (∃ e, evaluateAst (.mk .FUNCTION_CALL ['m', 'i', 'n'] [pathAst ['0'], pathAst ['3']])
        exampleDocument = .error e ∧
      (e = .runtime_error "Value is not a number" ∨
        ∃ b ∈ [pathAst ['0'], pathAst ['3']], evaluateAst b exampleDocument = .error e)) ∧
    (∃ e, evaluateAst (.mk .FUNCTION_CALL ['m', 'a', 'x'] [pathAst ['0'], pathAst ['3']])
        exampleDocument = .error e ∧
      (e = .runtime_error "Value is not a number" ∨
        ∃ b ∈ [pathAst ['0'], pathAst ['3']], evaluateAst b exampleDocument = .error e)) :=
  C4_min_max_non_number_fails exampleDocument [pathAst ['0'], pathAst ['3']] (pathAst ['3'])
    (.OBJECT [(['c'], .NUMBER (.fin 99))]) (by simp) (by decide!) (by intro d h; cases h)

theorem vectorAt_out_of_range (xs : List JsonValue) (k : Nat) (h : xs.length ≤ k) :
    vectorAt xs k = .error (.out_of_range "vector::_M_range_check") := by
  simp [vectorAt, List.getElem?_eq_none h]

/-- A subscript whose base evaluates to an array `xs` and whose index
evaluates to a number whose conversion to `size_t` is defined and gives
`k ≥ xs.length` throws `std::out_of_range` (the bounds check of `vector::at`). -/
theorem subscript_out_of_range (root : JsonValue) (value : List Char) (base index : AstNode)
    (xs : List JsonValue) (d : Double) (k : Nat)
    (hbase : evaluateAst base root = .ok (.ARRAY xs))
    (hindex : evaluateAst index root = .ok (.NUMBER d))
    (hk : d.toSizeT = some k) (hge : xs.length ≤ k) :
    evaluateAst (.mk .SUBSCRIPT value [base, index]) root =
      .error (.out_of_range "vector::_M_range_check") := by
  have h : evaluateAst (.mk .SUBSCRIPT value [base, index]) root = vectorAt xs k := by
    simp only [evaluateAst, hbase, hindex, bind, Except.bind, JsonValue.toNumber, hk]
  rw [h, vectorAt_out_of_range xs k hge]

/-- C5 does not hold of the code for an index that does not fit `size_t`. On
the document `{"a":{"b":[10,20,30,{"c":99}]}}`, where `a.b` has 4 elements,
the index of `a.b[100000000000000000000]` evaluates to the Number `10^20` and
the index of `a.b[min()]` to the Number `+infinity`; both are beyond the
length, but `static_cast<size_t>` of a `double` of `2^64` or more is undefined
in C++ and is applied before `vector::at` checks the bound, so the behaviour
of the two subscripts is undefined and no `std::out_of_range` is thrown by
right. The index of `a.b[5]` fits `size_t` and is caught by `vector::at`. -/
theorem C5_subscript_index_beyond_size_t :
    evaluateAst (.mk .LITERAL ['1', '0', '0', '0', '0', '0', '0', '0', '0', '0', '0',
        '0', '0', '0', '0', '0', '0', '0', '0', '0', '0'] [])
        exampleDocument = .ok (.NUMBER (.fin 100000000000000000000)) ∧
      evaluate (['a', '.', 'b', '['] ++ ['1', '0', '0', '0', '0', '0', '0', '0', '0', '0', '0',
        '0', '0', '0', '0', '0', '0', '0', '0', '0', '0'] ++
        [']']) exampleDocument = .error .undefined ∧
      evaluateAst (.mk .FUNCTION_CALL ['m', 'i', 'n'] []) exampleDocument =
        .ok (.NUMBER .pos_inf) ∧
      evaluate ['a', '.', 'b', '[', 'm', 'i', 'n', '(', ')', ']'] exampleDocument =
        .error .undefined ∧
      evaluate ['a', '.', 'b', '[', '5', ']'] exampleDocument =
        .error (.out_of_range "vector::_M_range_check") := by
  decide!

/-! ## The JSON parser: strings and numbers -/

theorem drop_add (s : List Char) (a b : Nat) : s.drop (a + b) = (s.drop a).drop b := by
  rw [List.drop_drop, Nat.add_comm]

theorem parseJsonStringLoop_eq (s : List Char) :
    ∀ (bound pos : Nat) (acc : List Char), s.length - pos ≤ bound →
      parseJsonStringLoop s bound pos acc =
        (acc ++ (s.drop pos).takeWhile (fun c => decide (c ≠ '"')),
          pos + ((s.drop pos).takeWhile (fun c => decide (c ≠ '"'))).length) := by
  intro bound
  induction bound with
  | zero =>
    intro pos acc h
    have hle : s.length ≤ pos := by omega
    simp [parseJsonStringLoop, List.drop_eq_nil_of_le hle]
  | succ n ih =>
    intro pos acc h
    unfold parseJsonStringLoop
    by_cases hp : pos < s.length
    · rw [List.getElem?_eq_getElem hp, List.drop_eq_getElem_cons hp]
      by_cases hc : s[pos] = '"'
      · simp [hc]
      · have hd : decide (s[pos] ≠ '"') = true := by simpa using hc
        show (if s[pos] ≠ '"' then parseJsonStringLoop s n (pos + 1) (acc ++ [s[pos]])
          else (acc, pos)) = _
        rw [if_pos hc, List.takeWhile_cons_of_pos (p := fun c => decide (c ≠ '"')) hd, ih (pos + 1) _ (by omega)]
        simp only [List.append_assoc, List.singleton_append, List.length_cons, Prod.mk.injEq,
          true_and]
        omega
    · have hle : s.length ≤ pos := by omega
      simp [List.getElem?_eq_none hle, List.drop_eq_nil_of_le hle]

theorem takeWhile_not_quote (body rest : List Char) (h : ∀ c ∈ body, c ≠ '"') :
    (body ++ '"' :: rest).takeWhile (fun c => decide (c ≠ '"')) = body := by
  rw [List.takeWhile_append_of_pos (by simpa using h)]
  simp

/-- The string parser on an opening quote, a body without a quote character
and a quote: the body is returned as it stands and the cursor ends after the
second quote. -/
theorem parseJsonString_of_drop (s : List Char) (pos : Nat) (body rest : List Char)
    (h : s.drop pos = '"' :: (body ++ '"' :: rest)) (hbody : ∀ c ∈ body, c ≠ '"') :
    parseJsonString s pos = .ok (body, pos + body.length + 2) := by
  have hp := lt_length_of_drop_eq_cons h
  have h1 : s.drop (pos + 1) = body ++ '"' :: rest := by
    rw [drop_add, h]
    rfl
  have h2 : s.drop (pos + 1 + body.length) = '"' :: rest := by
    rw [drop_add, h1, List.drop_left]
  simp only [parseJsonString, charAt_of_drop_eq_cons h, bind, Except.bind, ne_eq,
    not_true_eq_false, if_false]
  rw [parseJsonStringLoop_eq s _ (pos + 1) [] (le_refl _), h1, takeWhile_not_quote body rest hbody]
  simp only [List.nil_append, charAt_of_drop_eq_cons h2, not_true_eq_false, if_false]
  congr 2
  omega

/-- C7 fails on the literal `"a\"b"`: the parser returns the two characters
`a` and backslash with the cursor at 4, after the escaped quote; it does not
return the three characters `a"b` with the cursor at 6. -/
theorem C7_escaped_quote_counterexample :
    parseJsonString ['"', 'a', '\\', '"', 'b', '"'] 0 = .ok (['a', '\\'], 4) ∧
      parseJsonString ['"', 'a', '\\', '"', 'b', '"'] 0 ≠ .ok (['a', '"', 'b'], 6) := by
  decide!

/-- C7 as amended: on a text that holds, at the cursor, a quote, a body
without a quote character (backslashes included) and a quote, `parseJsonString`
returns the body unchanged, escape sequences undecoded, and leaves the cursor
just after the second quote. -/
theorem C7_string_body_verbatim (before body after : List Char) (hbody : ∀ c ∈ body, c ≠ '"') :
    parseJsonString (before ++ '"' :: (body ++ '"' :: after)) before.length =
      .ok (body, before.length + body.length + 2) :=
  parseJsonString_of_drop _ _ body after (List.drop_left _ _) hbody

/-- C7 as amended, on the body `a\n` (three characters) inside `["a\n"]`. -/
theorem C7_string_body_verbatim_witness :
    parseJsonString (['['] ++ '"' :: (['a', '\\', 'n'] ++ '"' :: [']'])) ['['].length =
      .ok (['a', '\\', 'n'], ['['].length + ['a', '\\', 'n'].length + 2) :=
  C7_string_body_verbatim ['['] ['a', '\\', 'n'] [']'] (by decide)

/-- C8 at the failing input `[1e2]`: the number parser stops in front of the
`e` (cursor 1 on the text `1e2`, value 1), and the array parser then rejects
the document with "Expected ','"; the exponent is never consumed. -/
theorem C8_exponent_not_consumed :
    parseJsonNumber ['1', 'e', '2'] 0 = .ok (.fin 1, 1) ∧
      readJson ['[', '1', 'e', '2', ']'] = .error (.runtime_error "Expected ','") := by
  decide!

theorem takeWhile_dropWhile_digits (ip more : List Char) (hdig : ∀ c ∈ ip, isdigit c = true)
    (hmore : ∀ c, more.head? = some c → isdigit c = false) :
    (ip ++ more).takeWhile isdigit = ip ∧ (ip ++ more).dropWhile isdigit = more := by
  constructor
  · rw [List.takeWhile_append_of_pos hdig]
    cases more with
    | nil => simp
    | cons m ms => simp [hmore m rfl]
  · rw [List.dropWhile_append_of_pos hdig]
    cases more with
    | nil => simp
    | cons m ms => simp [hmore m rfl]

/-- The conversion `std::stod` on an optional `-`, digits `ip` and further
characters `more` that do not start with a digit. -/
theorem stod_run (negative : Bool) (ip more : List Char)
    (hstart : negative = true ∨ ip ≠ [])
    (hdig : ∀ c ∈ ip, isdigit c = true) (hmore : ∀ c, more.head? = some c → isdigit c = false) :
    stod ((if negative then ['-'] else []) ++ ip ++ more) =
      if ip = [] ∧ fractionDigits more = [] then .error (.invalid_argument "stod")
      else if DBL_OVERFLOW * 10 ^ (fractionDigits more).length ≤
          digitsValue (ip ++ fractionDigits more) then .error (.out_of_range "stod")
      else if digitsValue (ip ++ fractionDigits more) = 0 then
        .ok (if negative then .neg_zero else .fin 0)
      else if digitsValue (ip ++ fractionDigits more) * 2 ^ 1076 <
          (2 ^ 54 - 1) * 10 ^ (fractionDigits more).length ∧
          digitsValue (ip ++ fractionDigits more) * 2 ^ 1074 %
            10 ^ (fractionDigits more).length ≠ 0 then .error (.out_of_range "stod")
      else .ok (.fin (mkRat (if negative then -(digitsValue (ip ++ fractionDigits more) : Int)
        else (digitsValue (ip ++ fractionDigits more) : Int))
        (10 ^ (fractionDigits more).length))) := by
  obtain ⟨htw, hdw⟩ := takeWhile_dropWhile_digits ip more hdig hmore
  cases negative with
  | true =>
    have e : (if true = true then ['-'] else []) ++ ip ++ more = '-' :: (ip ++ more) := rfl
    rw [e]
    unfold stod
    simp only [List.head?_cons, true_or, if_true, List.tail_cons, htw, hdw, decide_True]
  | false =>
    rcases hstart with h | h
    · cases h
    · obtain ⟨c, r, rfl⟩ := List.exists_cons_of_ne_nil h
      have hc : isdigit c = true := hdig c (by simp)
      have h1 : c ≠ '-' := by rintro rfl; exact absurd hc (by decide)
      have h2 : c ≠ '+' := by rintro rfl; exact absurd hc (by decide)
      have e : (if false = true then ['-'] else []) ++ (c :: r) ++ more = c :: (r ++ more) := rfl
      rw [e]
      unfold stod
      simp only [List.head?_cons, Option.some.injEq, h1, h2, or_self, if_false, decide_False,
        Bool.false_eq_true]
      rw [show c :: (r ++ more) = c :: r ++ more from rfl, htw, hdw]

theorem isNumberChar_of_isdigit {c : Char} (h : isdigit c = true) : isNumberChar c = true := by
  simp [isNumberChar, h]

theorem fractionDigits_fractionText (more : List Char) :
    fractionDigits (fractionText more) = fractionDigits more := by
  rcases more with _ | ⟨c, r⟩
  · rfl
  · by_cases hc : c = '.'
    · subst hc
      simp only [fractionText, fractionDigits]
      exact List.takeWhile_eq_self_iff.2 (fun x hx => List.mem_takeWhile_imp hx)
    · have h1 : fractionText (c :: r) = [] := by
        unfold fractionText
        split
        · rename_i heq
          exact absurd (List.cons.inj heq).1 hc
        · rfl
      have h2 : fractionDigits (c :: r) = [] := by
        unfold fractionDigits
        split
        · rename_i heq
          exact absurd (List.cons.inj heq).1 hc
        · rfl
      rw [h1, h2]
      rfl

theorem fractionText_head (more : List Char) :
    ∀ c, (fractionText more).head? = some c → isdigit c = false := by
  intro c hc
  unfold fractionText at hc
  split at hc
  · simp only [List.head?_cons, Option.some.injEq] at hc
    rw [← hc]
    decide
  · cases hc

/-- The conversion `std::stod` reads the sign, the digits `ip` and the
fraction at the start of `more`, and ignores the rest of `more`. -/
theorem stod_leading (negative : Bool) (ip more : List Char)
    (hstart : negative = true ∨ ip ≠ [])
    (hdig : ∀ c ∈ ip, isdigit c = true) (hmore : ∀ c, more.head? = some c → isdigit c = false) :
    stod ((if negative then ['-'] else []) ++ ip ++ more) =
      stod ((if negative then ['-'] else []) ++ ip ++ fractionText more) := by
  rw [stod_run negative ip more hstart hdig hmore,
    stod_run negative ip (fractionText more) hstart hdig (fractionText_head more),
    fractionDigits_fractionText]

/-- At a value position whose maximal run of number characters is `run`,
starting with a digit or `-`, `parseJsonValue` returns what `std::stod` returns
on `run`, with the cursor after the run. -/
theorem parseJsonValue_number_run (fuel : Nat) (json : List Char) (pos : Nat)
    (run rest : List Char) (c0 : Char) (r0 : List Char)
    (hdrop : json.drop (skipWhitespace json pos) = run ++ rest)
    (hrunEq : run = c0 :: r0) (hc0 : isdigit c0 = true ∨ c0 = '-')
    (hall : ∀ c ∈ run, isNumberChar c = true)
    (hrest : ∀ c, rest.head? = some c → isNumberChar c = false) :
    parseJsonValue (fuel + 1) json pos =
      Except.map (fun d => (JsonValue.NUMBER d, skipWhitespace json pos + run.length))
        (stod run) := by
  have hd0 : json.drop (skipWhitespace json pos) = c0 :: (r0 ++ rest) := by
    rw [hdrop, hrunEq]
    rfl
  have hp := lt_length_of_drop_eq_cons hd0
  have hscan := scanWhile_run isNumberChar json (skipWhitespace json pos) _ rest hdrop hall hrest
  have h1 : c0 ≠ '{' := by
    rintro rfl
    rcases hc0 with h | h
    · exact absurd h (by decide)
    · exact absurd h (by decide)
  have h2 : c0 ≠ '[' := by
    rintro rfl
    rcases hc0 with h | h
    · exact absurd h (by decide)
    · exact absurd h (by decide)
  have h3 : c0 ≠ '"' := by
    rintro rfl
    rcases hc0 with h | h
    · exact absurd h (by decide)
    · exact absurd h (by decide)
  have h4 : (isdigit c0 || decide (c0 = '-')) = true := by
    rcases hc0 with h | h
    · simp [h]
    · simp [h]
  have hsub : substr json (skipWhitespace json pos)
      (skipWhitespace json pos + run.length - skipWhitespace json pos) = .ok run := by
    rw [substr_of_le _ hp.le, hdrop, Nat.add_sub_cancel_left, List.take_left]
  simp only [parseJsonValue, charAt_of_drop_eq_cons hd0, bind, Except.bind, h1, h2, h3, h4,
    if_false, if_true, parseJsonNumber, hscan, hsub]
  cases stod run <;> rfl

/-- C9 fails on the claim's texts `1.2.3`, `1-2` and `1+`, and on `1.5.3`:
`parseJsonValue` returns a Number with the cursor after the whole run (the
numbers 1, 1 and 1.5 on the last three). -/
theorem C9_malformed_number_counterexample :
    (∃ d, parseJsonValue 1 ['1', '.', '2', '.', '3'] 0 = .ok (.NUMBER d, 5)) ∧
      parseJsonValue 1 ['1', '-', '2'] 0 = .ok (.NUMBER (.fin 1), 3) ∧
      parseJsonValue 1 ['1', '+'] 0 = .ok (.NUMBER (.fin 1), 2) ∧
      parseJsonValue 1 ['1', '.', '5', '.', '3'] 0 = .ok (.NUMBER (.fin (3 / 2)), 5) :=
  ⟨⟨.fin (mkRat 6 5), by decide!⟩, by decide!, by decide!, by decide!⟩

/-- C9 as amended: at a value position that starts with a digit or `-`, let
the maximal run of number characters be an optional `-`, the digits `ip` and
the further number characters `more` (not starting with a digit). Then
`parseJsonValue` returns what `std::stod` returns on the leading part of the
run, made of the sign, `ip` and the fraction (a `.` and the digits that
directly follow it) at the start of `more`: the Number that `std::stod`
converts it to, with the cursor after the whole run, or the exception that
`std::stod` throws; the remainder of the run is ignored. The exception is
`std::invalid_argument` exactly when the leading part holds no digit, and is
`std::out_of_range` otherwise. -/
theorem C9_number_run_leading_value (fuel : Nat) (json : List Char) (pos : Nat)
    (negative : Bool) (ip more rest : List Char)
    (hdrop : json.drop (skipWhitespace json pos) =
      (if negative then ['-'] else []) ++ ip ++ more ++ rest)
    (hstart : negative = true ∨ ip ≠ []) (hdig : ∀ c ∈ ip, isdigit c = true)
    (hrun : ∀ c ∈ more, isNumberChar c = true)
    (hmore : ∀ c, more.head? = some c → isdigit c = false)
    (hrest : ∀ c, rest.head? = some c → isNumberChar c = false) :
    parseJsonValue (fuel + 1) json pos =
        Except.map
          (fun d => (JsonValue.NUMBER d,
            skipWhitespace json pos + ((if negative then ['-'] else []) ++ ip ++ more).length))
          (stod ((if negative then ['-'] else []) ++ ip ++ fractionText more)) ∧
      (stod ((if negative then ['-'] else []) ++ ip ++ fractionText more) =
          .error (.invalid_argument "stod") ↔ ip = [] ∧ fractionDigits more = []) ∧
      ∀ e, stod ((if negative then ['-'] else []) ++ ip ++ fractionText more) = .error e →
        e = .invalid_argument "stod" ∨ e = .out_of_range "stod" := by
  obtain ⟨c0, r0, hrunEq, hc0⟩ : ∃ c0 r0,
      (if negative then ['-'] else []) ++ ip ++ more = c0 :: r0 ∧
      (isdigit c0 = true ∨ c0 = '-') := by
    cases negative with
    | true => exact ⟨'-', ip ++ more, by simp, Or.inr rfl⟩
    | false =>
      rcases hstart with h | h
      · cases h
      · obtain ⟨c, r, rfl⟩ := List.exists_cons_of_ne_nil h
        exact ⟨c, r ++ more, by simp, Or.inl (hdig c (by simp))⟩
  have hall : ∀ c ∈ (if negative then ['-'] else []) ++ ip ++ more, isNumberChar c = true := by
    intro c hc
    rcases List.mem_append.1 hc with hc | hc
    · rcases List.mem_append.1 hc with hc | hc
      · cases negative with
        | false => simp at hc
        | true =>
          simp only [if_true, List.mem_singleton] at hc
          rw [hc]
          decide
      · exact isNumberChar_of_isdigit (hdig c hc)
    · exact hrun c hc
  refine ⟨?_, ?_, ?_⟩
  · rw [parseJsonValue_number_run fuel json pos _ rest c0 r0 hdrop hrunEq hc0 hall hrest,
      stod_leading negative ip more hstart hdig hmore]
  · rw [stod_run negative ip (fractionText more) hstart hdig (fractionText_head more),
      fractionDigits_fractionText]
    constructor
    · intro h
      by_contra hne
      rw [if_neg hne] at h
      split_ifs at h <;> cases h
    · intro h
      rw [if_pos h]
  · intro e he
    rw [stod_run negative ip (fractionText more) hstart hdig (fractionText_head more)] at he
    split_ifs at he
    all_goals first
      | (cases he; exact Or.inl rfl)
      | (cases he; exact Or.inr rfl)

/-- C9 as amended, on the text `1.5.3`: the result is that of `std::stod` on
`1.5`, the Number 1.5, with the cursor at 5. -/
theorem C9_number_run_leading_value_witness :
    (parseJsonValue (0 + 1) ['1', '.', '5', '.', '3'] 0 =
        Except.map
          (fun d => (JsonValue.NUMBER d,
            skipWhitespace ['1', '.', '5', '.', '3'] 0 +
              ((if false then ['-'] else []) ++ ['1'] ++ ['.', '5', '.', '3']).length))
          (stod ((if false then ['-'] else []) ++ ['1'] ++ fractionText ['.', '5', '.', '3'])) ∧
      (stod ((if false then ['-'] else []) ++ ['1'] ++ fractionText ['.', '5', '.', '3']) =
          .error (.invalid_argument "stod") ↔
        ['1'] = [] ∧ fractionDigits ['.', '5', '.', '3'] = []) ∧
      ∀ e, stod ((if false then ['-'] else []) ++ ['1'] ++ fractionText ['.', '5', '.', '3']) =
          .error e → e = .invalid_argument "stod" ∨ e = .out_of_range "stod") ∧
      stod ((if false then ['-'] else []) ++ ['1'] ++ fractionText ['.', '5', '.', '3']) =
        .ok (.fin (3 / 2)) :=
  ⟨C9_number_run_leading_value 0 ['1', '.', '5', '.', '3'] 0 false ['1'] ['.', '5', '.', '3'] []
    (by decide) (Or.inr (by decide)) (by decide) (by decide) (by decide) (by simp),
    by decide!⟩

/-! ## The JSON parser reads from its cursor onwards

Parsing `s` at the cursor `pos + k` is parsing `s.drop pos` at the cursor `k`,
with the resulting cursor moved by `pos`. -/

theorem scanWhile_shift (p : Char → Bool) (s : List Char) (pos k : Nat) :
    scanWhile p s (s.length - (pos + k)) (pos + k) =
      pos + scanWhile p (s.drop pos) ((s.drop pos).length - k) k := by
  rw [scanWhile_eq p s _ _ (le_refl _), scanWhile_eq p (s.drop pos) _ _ (le_refl _),
    ← drop_add, Nat.add_assoc]

theorem skipWhitespace_shift (s : List Char) (pos k : Nat) :
    skipWhitespace s (pos + k) = pos + skipWhitespace (s.drop pos) k :=
  scanWhile_shift isspace s pos k

theorem charAt_shift (s : List Char) (pos k : Nat) (h : pos ≤ s.length) :
    charAt s (pos + k) = charAt (s.drop pos) k := by
  simp only [charAt, List.getElem?_drop, List.length_drop]
  have : (pos + k = s.length) ↔ (k = s.length - pos) := by omega
  simp only [this]

theorem substr_shift (s : List Char) (pos k n : Nat) (h : pos ≤ s.length) :
    substr s (pos + k) n = substr (s.drop pos) k n := by
  simp only [substr, List.length_drop, ← drop_add]
  have : (pos + k ≤ s.length) ↔ (k ≤ s.length - pos) := by omega
  simp only [this]

theorem parseJsonString_shift (s : List Char) (pos k : Nat) (h : pos ≤ s.length) :
    parseJsonString s (pos + k) = shiftCursor pos (parseJsonString (s.drop pos) k) := by
  simp only [parseJsonString, charAt_shift s pos _ h, bind, Except.bind]
  cases charAt (s.drop pos) k with
  | error e => rfl
  | ok c =>
    by_cases hc : c = '"'
    · simp only [hc, ne_eq, not_true_eq_false, if_false]
      rw [parseJsonStringLoop_eq s _ _ [] (le_refl _),
        parseJsonStringLoop_eq (s.drop pos) _ _ [] (le_refl _), Nat.add_assoc, drop_add]
      simp only [Nat.add_assoc, charAt_shift s pos _ h]
      cases charAt (s.drop pos)
          (k + (1 + ((s.drop pos).drop (k + 1) |>.takeWhile (fun c => decide (c ≠ '"'))).length)) with
      | error e => rfl
      | ok d =>
        by_cases hd : d = '"'
        · simp [hd, shiftCursor, Nat.add_assoc]
        · simp [hd, shiftCursor]
    · simp [hc, shiftCursor]

theorem parseJsonNumber_shift (s : List Char) (pos k : Nat) (h : pos ≤ s.length) :
    parseJsonNumber s (pos + k) = shiftCursor pos (parseJsonNumber (s.drop pos) k) := by
  simp only [parseJsonNumber, scanWhile_shift, Nat.add_sub_add_left, substr_shift s pos k _ h,
    bind, Except.bind]
  cases substr (s.drop pos) k
      (scanWhile isNumberChar (s.drop pos) ((s.drop pos).length - k) k - k) with
  | error e => rfl
  | ok t =>
    dsimp only
    cases stod t <;> rfl

set_option maxHeartbeats 4000000 in
/-- Parsing `s` from the cursor `pos + k` is parsing the text `s.drop pos`
from the cursor `k`; the resulting cursor differs by `pos`. -/
theorem parseJson_shift (s : List Char) (pos : Nat) (h : pos ≤ s.length) :
    ∀ (fuel k : Nat),
      parseJsonValue fuel s (pos + k) = shiftCursor pos (parseJsonValue fuel (s.drop pos) k) ∧
      parseJsonArray fuel s (pos + k) = shiftCursor pos (parseJsonArray fuel (s.drop pos) k) ∧
      (∀ values, parseJsonArrayLoop fuel s (pos + k) values =
        shiftCursor pos (parseJsonArrayLoop fuel (s.drop pos) k values)) ∧
      parseJsonObject fuel s (pos + k) = shiftCursor pos (parseJsonObject fuel (s.drop pos) k) ∧
      (∀ object, parseJsonObjectLoop fuel s (pos + k) object =
        shiftCursor pos (parseJsonObjectLoop fuel (s.drop pos) k object)) := by
  intro fuel
  induction fuel with
  | zero =>
    intro k
    simp [parseJsonValue, parseJsonArray, parseJsonArrayLoop, parseJsonObject,
      parseJsonObjectLoop, shiftCursor]
  | succ f ih =>
    intro k
    have ihV := fun k => (ih k).1
    have ihA := fun k => (ih k).2.1
    have ihAL := fun k => (ih k).2.2.1
    have ihO := fun k => (ih k).2.2.2.1
    have ihOL := fun k => (ih k).2.2.2.2
    have hws := skipWhitespace_shift s pos
    have hch := fun k => charAt_shift s pos k h
    have hsub := fun k n => substr_shift s pos k n h
    have hstr := fun k => parseJsonString_shift s pos k h
    have hnum := fun k => parseJsonNumber_shift s pos k h
    refine ⟨?_, ?_, ?_, ?_, ?_⟩
    · -- parseJsonValue
      simp only [parseJsonValue, hws, hch, hsub, hstr, hnum, ihO, ihA, bind, Except.bind]
      cases charAt (s.drop pos) (skipWhitespace (s.drop pos) k) with
      | error e => rfl
      | ok c =>
        cases parseJsonString (s.drop pos) (skipWhitespace (s.drop pos) k) <;>
        cases parseJsonNumber (s.drop pos) (skipWhitespace (s.drop pos) k) <;>
        cases substr (s.drop pos) (skipWhitespace (s.drop pos) k) 4 <;>
        cases substr (s.drop pos) (skipWhitespace (s.drop pos) k) 5 <;>
        (dsimp only; split_ifs <;> simp [shiftCursor, Nat.add_assoc])
    · -- parseJsonArray
      simp only [parseJsonArray, Nat.add_assoc, hws, hch, ihAL, bind, Except.bind]
      cases charAt (s.drop pos) k with
      | error e => rfl
      | ok c =>
        cases charAt (s.drop pos) (skipWhitespace (s.drop pos) (k + 1)) <;>
        cases parseJsonArrayLoop f (s.drop pos) (skipWhitespace (s.drop pos) (k + 1)) [] <;>
        (dsimp only; split_ifs <;> simp [shiftCursor, Nat.add_assoc])
    · -- parseJsonArrayLoop
      intro values
      simp only [parseJsonArrayLoop, ihV, bind, Except.bind]
      cases parseJsonValue f (s.drop pos) k with
      | error e => rfl
      | ok r =>
        simp only [shiftCursor, hws, hch, Nat.add_assoc, ihAL]
        cases charAt (s.drop pos) (skipWhitespace (s.drop pos) r.2) with
        | error e => rfl
        | ok c => dsimp only; split_ifs <;> simp [shiftCursor, Nat.add_assoc]
    · -- parseJsonObject
      simp only [parseJsonObject, Nat.add_assoc, hws, hch, ihOL, bind, Except.bind]
      cases charAt (s.drop pos) k with
      | error e => rfl
      | ok c =>
        cases charAt (s.drop pos) (skipWhitespace (s.drop pos) (k + 1)) <;>
        cases parseJsonObjectLoop f (s.drop pos) (skipWhitespace (s.drop pos) (k + 1)) [] <;>
        (dsimp only; split_ifs <;> simp [shiftCursor, Nat.add_assoc])
    · -- parseJsonObjectLoop
      intro object
      simp only [parseJsonObjectLoop, hstr, bind, Except.bind]
      cases parseJsonString (s.drop pos) k with
      | error e => rfl
      | ok key =>
        simp only [shiftCursor, hws, hch, Nat.add_assoc]
        cases charAt (s.drop pos) (skipWhitespace (s.drop pos) key.2) with
        | error e => rfl
        | ok c =>
          dsimp only
          simp only [ihV]
          cases parseJsonValue f (s.drop pos)
              (skipWhitespace (s.drop pos) (skipWhitespace (s.drop pos) key.2 + 1)) with
          | error e => split_ifs <;> rfl
          | ok r =>
            simp only [shiftCursor, hws, hch, Nat.add_assoc, ihOL]
            cases charAt (s.drop pos) (skipWhitespace (s.drop pos) r.2) with
            | error e => split_ifs <;> rfl
            | ok d => dsimp only; split_ifs <;> simp [shiftCursor, Nat.add_assoc]

/-! ## The JSON parser does not read past the value

A successful parse is unchanged when text is appended, as long as a number at
the very end is not continued by the appended text. -/

theorem takeWhile_append_of_lt (p : Char → Bool) (a b : List Char)
    (h : (a.takeWhile p).length < a.length) : (a ++ b).takeWhile p = a.takeWhile p := by
  induction a with
  | nil => simp at h
  | cons c r ih =>
    by_cases hc : p c = true
    · simp only [List.cons_append, List.takeWhile_cons_of_pos hc, List.length_cons] at h ⊢
      rw [ih (by omega)]
    · simp [List.takeWhile_cons_of_neg hc]

theorem takeWhile_append_of_head (p : Char → Bool) (a b : List Char)
    (h : ∀ c, b.head? = some c → p c = false) : (a ++ b).takeWhile p = a.takeWhile p := by
  induction a with
  | nil =>
    cases b with
    | nil => rfl
    | cons c r => simp [h c rfl]
  | cons c r ih =>
    by_cases hc : p c = true
    · simp [List.takeWhile_cons_of_pos hc, ih]
    · simp [List.takeWhile_cons_of_neg hc]

theorem scanWhile_bounds (p : Char → Bool) (u : List Char) (k : Nat) :
    k ≤ scanWhile p u (u.length - k) k ∧ (k ≤ u.length → scanWhile p u (u.length - k) k ≤ u.length) := by
  rw [scanWhile_eq p u _ k (le_refl _)]
  refine ⟨by omega, fun hk => ?_⟩
  have := (List.takeWhile_sublist p (l := u.drop k)).length_le
  rw [List.length_drop] at this
  omega

theorem scanWhile_append (p : Char → Bool) (u r : List Char) (k : Nat)
    (h : scanWhile p u (u.length - k) k < u.length ∨
      (k ≤ u.length ∧ ∀ c, r.head? = some c → p c = false)) :
    scanWhile p (u ++ r) ((u ++ r).length - k) k = scanWhile p u (u.length - k) k := by
  have hk : k ≤ u.length := by
    rcases h with h | h
    · have := (scanWhile_bounds p u k).1
      omega
    · exact h.1
  rw [scanWhile_eq p u _ k (le_refl _)] at h ⊢
  rw [scanWhile_eq p (u ++ r) _ k (le_refl _), List.drop_append_of_le_length hk]
  rcases h with h | h
  · rw [takeWhile_append_of_lt p _ r (by rw [List.length_drop]; omega)]
  · rw [takeWhile_append_of_head p _ r h.2]

theorem skipWhitespace_le (u : List Char) (k : Nat) : k ≤ skipWhitespace u k :=
  (scanWhile_bounds isspace u k).1

theorem skipWhitespace_append (u r : List Char) (k : Nat) (h : skipWhitespace u k < u.length) :
    skipWhitespace (u ++ r) k = skipWhitespace u k :=
  scanWhile_append isspace u r k (Or.inl h)

theorem charAt_append (u r : List Char) (k : Nat) (h : k < u.length) :
    charAt (u ++ r) k = charAt u k := by
  simp only [charAt, List.getElem?_append_left h, List.getElem?_eq_getElem h]

theorem lt_length_of_charAt (u : List Char) (k : Nat) (c : Char) (h : charAt u k = .ok c)
    (hc : c ≠ Char.ofNat 0) : k < u.length := by
  by_contra hn
  have hle : u.length ≤ k := by omega
  simp only [charAt, List.getElem?_eq_none hle] at h
  split_ifs at h with he
  cases h
  exact hc rfl

theorem substr_append (u r : List Char) (k n : Nat) (h : k + n ≤ u.length) :
    substr (u ++ r) k n = substr u k n := by
  have hk : k ≤ u.length := by omega
  have hk' : k ≤ (u ++ r).length := by rw [List.length_append]; omega
  rw [substr_of_le n hk, substr_of_le n hk', List.drop_append_of_le_length hk,
    List.take_append_of_le_length (by rw [List.length_drop]; omega)]

theorem substr_length (u : List Char) (k n : Nat) (t : List Char) (h : substr u k n = .ok t)
    (ht : t.length = n) : k + n ≤ u.length := by
  unfold substr at h
  split_ifs at h with hk
  cases h
  rw [List.length_take, List.length_drop] at ht
  omega

theorem parseJsonString_append (u : List Char) (k : Nat) (str : List Char) (n : Nat)
    (h : parseJsonString u k = .ok (str, n)) :
    k < n ∧ n ≤ u.length ∧ ∀ r, parseJsonString (u ++ r) k = .ok (str, n) := by
  simp only [parseJsonString, bind, Except.bind] at h
  cases hc : charAt u k with
  | error e => rw [hc] at h; cases h
  | ok c =>
    rw [hc] at h
    dsimp only at h
    by_cases hq : c = '"'
    · subst hq
      have hk : k < u.length := lt_length_of_charAt u k _ hc (by decide)
      rw [if_neg (by simp), parseJsonStringLoop_eq u _ _ [] (le_refl _)] at h
      dsimp only at h
      cases hd : charAt u (k + 1 + ((u.drop (k + 1)).takeWhile (fun c => decide (c ≠ '"'))).length) with
      | error e => rw [hd] at h; cases h
      | ok d =>
        rw [hd] at h
        dsimp only at h
        by_cases hq2 : d = '"'
        · subst hq2
          rw [if_neg (by simp)] at h
          cases h
          have hq : k + 1 + ((u.drop (k + 1)).takeWhile (fun c => decide (c ≠ '"'))).length <
              u.length := lt_length_of_charAt u _ _ hd (by decide)
          refine ⟨by omega, by omega, fun r => ?_⟩
          have hk1 : k + 1 ≤ u.length := by omega
          simp only [parseJsonString, charAt_append u r k hk, hc, bind, Except.bind]
          rw [if_neg (by simp), parseJsonStringLoop_eq (u ++ r) _ _ [] (le_refl _),
            List.drop_append_of_le_length hk1,
            takeWhile_append_of_lt _ _ r (by rw [List.length_drop]; omega)]
          dsimp only
          rw [charAt_append u r _ hq, hd]
          simp
        · rw [if_pos hq2] at h
          cases h
    · rw [if_pos hq] at h
      cases h

theorem parseJsonNumber_append (u : List Char) (k : Nat) (d : Double) (n : Nat)
    (h : parseJsonNumber u k = .ok (d, n)) :
    k ≤ n ∧ n ≤ u.length ∧ n = scanWhile isNumberChar u (u.length - k) k ∧
      ∀ r, (n = u.length → ∀ c, r.head? = some c → isNumberChar c = false) →
        parseJsonNumber (u ++ r) k = .ok (d, n) := by
  simp only [parseJsonNumber, bind, Except.bind] at h
  cases hs : substr u k (scanWhile isNumberChar u (u.length - k) k - k) with
  | error e => rw [hs] at h; cases h
  | ok t =>
    rw [hs] at h
    dsimp only at h
    cases hd : stod t with
    | error e => rw [hd] at h; cases h
    | ok d' =>
      rw [hd] at h
      cases h
      have hk : k ≤ u.length := by
        unfold substr at hs
        split_ifs at hs with hk
        exact hk
      obtain ⟨hb1, hb2⟩ := scanWhile_bounds isNumberChar u k
      refine ⟨hb1, hb2 hk, rfl, fun r hr => ?_⟩
      have hscan : scanWhile isNumberChar (u ++ r) ((u ++ r).length - k) k =
          scanWhile isNumberChar u (u.length - k) k := by
        apply scanWhile_append
        by_cases hlt : scanWhile isNumberChar u (u.length - k) k < u.length
        · exact Or.inl hlt
        · exact Or.inr ⟨hk, hr (by have := hb2 hk; omega)⟩
      simp only [parseJsonNumber, hscan, bind, Except.bind]
      rw [substr_append u r k _ (by have := hb2 hk; omega), hs]
      simp [hd]

theorem scanWhile_advances (p : Char → Bool) (u : List Char) (k : Nat) (c : Char)
    (hc : charAt u k = .ok c) (hk : k < u.length) (hp : p c = true) :
    k < scanWhile p u (u.length - k) k := by
  rw [scanWhile_eq p u _ k (le_refl _), List.drop_eq_getElem_cons hk]
  have : u[k] = c := by
    simp only [charAt, List.getElem?_eq_getElem hk] at hc
    cases hc
    rfl
  rw [this, List.takeWhile_cons_of_pos hp, List.length_cons]
  omega

theorem appendStable_array_step (f : Nat) (u : List Char)
    (ihAL : AppendStableArrayLoop f u) : AppendStableArray (f + 1) u := by
  intro k v n h
  simp only [parseJsonArray, bind, Except.bind] at h
  cases hc : charAt u k with
  | error e => rw [hc] at h; cases h
  | ok c =>
    rw [hc] at h
    dsimp only at h
    by_cases hb : c = '['
    · subst hb
      rw [if_neg (by simp)] at h
      have hk : k < u.length := lt_length_of_charAt u k _ hc (by decide)
      cases hd : charAt u (skipWhitespace u (k + 1)) with
      | error e => rw [hd] at h; cases h
      | ok d =>
        rw [hd] at h
        dsimp only at h
        have hle := skipWhitespace_le u (k + 1)
        by_cases hcl : d = ']'
        · subst hcl
          rw [if_neg (by simp)] at h
          cases h
          have hp : skipWhitespace u (k + 1) < u.length :=
            lt_length_of_charAt u _ _ hd (by decide)
          refine ⟨by omega, by omega, (fun d hd => by cases hd), fun m r hm => ?_⟩
          obtain ⟨m, rfl⟩ : ∃ m', m = m' + 1 := ⟨m - 1, by omega⟩
          simp only [parseJsonArray, charAt_append u r k hk, hc, bind, Except.bind,
            skipWhitespace_append u r (k + 1) hp, charAt_append u r _ hp, hd]
          simp
        · rw [if_pos hcl] at h
          cases hl : parseJsonArrayLoop f u (skipWhitespace u (k + 1)) [] with
          | error e => rw [hl] at h; cases h
          | ok res =>
            rw [hl] at h
            cases h
            obtain ⟨h1, h2, h3⟩ := ihAL _ _ _ _ hl
            have hp : skipWhitespace u (k + 1) < u.length := by omega
            refine ⟨by omega, by omega, (fun d hd => by cases hd), fun m r hm => ?_⟩
            obtain ⟨m, rfl⟩ : ∃ m', m = m' + 1 := ⟨m - 1, by omega⟩
            simp only [parseJsonArray, charAt_append u r k hk, hc, bind, Except.bind,
              skipWhitespace_append u r (k + 1) hp, charAt_append u r _ hp, hd,
              h3 m r (by omega)]
            simp [hcl]
    · rw [if_pos hb] at h
      cases h

theorem appendStable_object_step (f : Nat) (u : List Char)
    (ihOL : AppendStableObjectLoop f u) : AppendStableObject (f + 1) u := by
  intro k v n h
  simp only [parseJsonObject, bind, Except.bind] at h
  cases hc : charAt u k with
  | error e => rw [hc] at h; cases h
  | ok c =>
    rw [hc] at h
    dsimp only at h
    by_cases hb : c = '{'
    · subst hb
      rw [if_neg (by simp)] at h
      have hk : k < u.length := lt_length_of_charAt u k _ hc (by decide)
      cases hd : charAt u (skipWhitespace u (k + 1)) with
      | error e => rw [hd] at h; cases h
      | ok d =>
        rw [hd] at h
        dsimp only at h
        have hle := skipWhitespace_le u (k + 1)
        by_cases hcl : d = '}'
        · subst hcl
          rw [if_neg (by simp)] at h
          cases h
          have hp : skipWhitespace u (k + 1) < u.length :=
            lt_length_of_charAt u _ _ hd (by decide)
          refine ⟨by omega, by omega, (fun d hd => by cases hd), fun m r hm => ?_⟩
          obtain ⟨m, rfl⟩ : ∃ m', m = m' + 1 := ⟨m - 1, by omega⟩
          simp only [parseJsonObject, charAt_append u r k hk, hc, bind, Except.bind,
            skipWhitespace_append u r (k + 1) hp, charAt_append u r _ hp, hd]
          simp
        · rw [if_pos hcl] at h
          cases hl : parseJsonObjectLoop f u (skipWhitespace u (k + 1)) [] with
          | error e => rw [hl] at h; cases h
          | ok res =>
            rw [hl] at h
            cases h
            obtain ⟨h1, h2, h3⟩ := ihOL _ _ _ _ hl
            have hp : skipWhitespace u (k + 1) < u.length := by omega
            refine ⟨by omega, by omega, (fun d hd => by cases hd), fun m r hm => ?_⟩
            obtain ⟨m, rfl⟩ : ∃ m', m = m' + 1 := ⟨m - 1, by omega⟩
            simp only [parseJsonObject, charAt_append u r k hk, hc, bind, Except.bind,
              skipWhitespace_append u r (k + 1) hp, charAt_append u r _ hp, hd,
              h3 m r (by omega)]
            simp [hcl]
    · rw [if_pos hb] at h
      cases h

theorem appendStable_arrayLoop_step (f : Nat) (u : List Char)
    (ihV : AppendStableValue f u) (ihAL : AppendStableArrayLoop f u) :
    AppendStableArrayLoop (f + 1) u := by
  intro k values vs n h
  simp only [parseJsonArrayLoop, bind, Except.bind] at h
  cases hv : parseJsonValue f u k with
  | error e => rw [hv] at h; cases h
  | ok res =>
    obtain ⟨v1, n1⟩ := res
    rw [hv] at h
    dsimp only at h
    obtain ⟨hv1, hv2, hv3⟩ := ihV _ _ _ hv
    have hle := skipWhitespace_le u n1
    cases hc : charAt u (skipWhitespace u n1) with
    | error e => rw [hc] at h; cases h
    | ok c =>
      rw [hc] at h
      dsimp only at h
      by_cases hcl : c = ']'
      · subst hcl
        rw [if_pos rfl] at h
        cases h
        have hp : skipWhitespace u n1 < u.length := lt_length_of_charAt u _ _ hc (by decide)
        refine ⟨by omega, hp, fun m r hm => ?_⟩
        obtain ⟨m, rfl⟩ : ∃ m', m = m' + 1 := ⟨m - 1, by omega⟩
        have hv' := hv3 m r (by omega) (fun _ hn => by omega)
        simp only [parseJsonArrayLoop, hv', bind, Except.bind, skipWhitespace_append u r n1 hp,
          charAt_append u r _ hp, hc]
        simp
      · rw [if_neg hcl] at h
        by_cases hcm : c = ','
        · subst hcm
          rw [if_neg (by simp)] at h
          have hp : skipWhitespace u n1 < u.length := lt_length_of_charAt u _ _ hc (by decide)
          obtain ⟨h1, h2, h3⟩ := ihAL _ _ _ _ h
          have hle2 := skipWhitespace_le u (skipWhitespace u n1 + 1)
          refine ⟨by omega, h2, fun m r hm => ?_⟩
          obtain ⟨m, rfl⟩ : ∃ m', m = m' + 1 := ⟨m - 1, by omega⟩
          have hv' := hv3 m r (by omega) (fun _ hn => by omega)
          simp only [parseJsonArrayLoop, hv', bind, Except.bind, skipWhitespace_append u r n1 hp,
            charAt_append u r _ hp, hc,
            skipWhitespace_append u r (skipWhitespace u n1 + 1) (by omega), h3 m r (by omega)]
          simp
        · rw [if_pos hcm] at h
          cases h

theorem appendStable_objectLoop_step (f : Nat) (u : List Char)
    (ihV : AppendStableValue f u) (ihOL : AppendStableObjectLoop f u) :
    AppendStableObjectLoop (f + 1) u := by
  intro k object o n h
  simp only [parseJsonObjectLoop, bind, Except.bind] at h
  cases hkey : parseJsonString u k with
  | error e => rw [hkey] at h; cases h
  | ok key =>
    obtain ⟨ks, kn⟩ := key
    rw [hkey] at h
    dsimp only at h
    obtain ⟨hk1, hk2, hk3⟩ := parseJsonString_append u k ks kn hkey
    have hle0 := skipWhitespace_le u kn
    cases hc : charAt u (skipWhitespace u kn) with
    | error e => rw [hc] at h; cases h
    | ok c =>
      rw [hc] at h
      dsimp only at h
      by_cases hcol : c = ':'
      · subst hcol
        rw [if_neg (by simp)] at h
        have hp0 : skipWhitespace u kn < u.length := lt_length_of_charAt u _ _ hc (by decide)
        have hle1 := skipWhitespace_le u (skipWhitespace u kn + 1)
        cases hv : parseJsonValue f u (skipWhitespace u (skipWhitespace u kn + 1)) with
        | error e => rw [hv] at h; cases h
        | ok res =>
          obtain ⟨v1, n1⟩ := res
          rw [hv] at h
          dsimp only at h
          obtain ⟨hv1, hv2, hv3⟩ := ihV _ _ _ hv
          have hle := skipWhitespace_le u n1
          cases hd : charAt u (skipWhitespace u n1) with
          | error e => rw [hd] at h; cases h
          | ok d =>
            rw [hd] at h
            dsimp only at h
            have hstep : ∀ m r, 2 * (n1 - k) ≤ m → skipWhitespace u n1 < u.length →
                parseJsonObjectLoop (m + 1) (u ++ r) k object =
                  (if d = '}' then .ok (mapAssign object ks v1, skipWhitespace u n1)
                   else if d ≠ ',' then .error (.runtime_error "Expected ','")
                   else parseJsonObjectLoop m (u ++ r)
                     (skipWhitespace (u ++ r) (skipWhitespace u n1 + 1))
                     (mapAssign object ks v1)) := by
              intro m r hm hp
              have hv' := hv3 m r (by omega) (fun _ hn => by omega)
              simp only [parseJsonObjectLoop, hk3 r, bind, Except.bind,
                skipWhitespace_append u r kn hp0, charAt_append u r _ hp0, hc,
                skipWhitespace_append u r _ (by omega : skipWhitespace u (skipWhitespace u kn + 1)
                  < u.length), hv', skipWhitespace_append u r n1 hp, charAt_append u r _ hp, hd]
              simp
            by_cases hcl : d = '}'
            · subst hcl
              rw [if_pos rfl] at h
              cases h
              have hp : skipWhitespace u n1 < u.length :=
                lt_length_of_charAt u _ _ hd (by decide)
              refine ⟨by omega, hp, fun m r hm => ?_⟩
              obtain ⟨m, rfl⟩ : ∃ m', m = m' + 1 := ⟨m - 1, by omega⟩
              rw [hstep m r (by omega) hp, if_pos rfl]
            · rw [if_neg hcl] at h
              by_cases hcm : d = ','
              · subst hcm
                rw [if_neg (by simp)] at h
                have hp : skipWhitespace u n1 < u.length :=
                  lt_length_of_charAt u _ _ hd (by decide)
                obtain ⟨h1, h2, h3⟩ := ihOL _ _ _ _ h
                have hle2 := skipWhitespace_le u (skipWhitespace u n1 + 1)
                refine ⟨by omega, h2, fun m r hm => ?_⟩
                obtain ⟨m, rfl⟩ : ∃ m', m = m' + 1 := ⟨m - 1, by omega⟩
                rw [hstep m r (by omega) hp, if_neg hcl, if_neg (by simp),
                  skipWhitespace_append u r (skipWhitespace u n1 + 1) (by omega),
                  h3 m r (by omega)]
              · rw [if_pos hcm] at h
                cases h
      · rw [if_pos hcol] at h
        cases h

theorem substr_five_ne_false (w : List Char) (p : Nat) (s4 : List Char)
    (h4 : substr w p 4 = .ok s4) (hne : s4 = ['n', 'u', 'l', 'l']) :
    ∃ s5, substr w p 5 = .ok s5 ∧ s5 ≠ ['f', 'a', 'l', 's', 'e'] := by
  unfold substr at h4 ⊢
  split_ifs at h4 ⊢ with hp
  cases h4
  refine ⟨_, rfl, fun h5 => ?_⟩
  have : ((w.drop p).take 5).take 4 = (w.drop p).take 4 := by
    rw [List.take_take]
    rfl
  rw [h5, hne] at this
  cases this

theorem appendStable_value_step (f : Nat) (u : List Char)
    (ihA : AppendStableArray f u) (ihO : AppendStableObject f u) :
    AppendStableValue (f + 1) u := by
  intro k v n h
  simp only [parseJsonValue, bind, Except.bind] at h
  have hle := skipWhitespace_le u k
  cases hc : charAt u (skipWhitespace u k) with
  | error e => rw [hc] at h; cases h
  | ok c =>
    rw [hc] at h
    dsimp only at h
    -- the head of the parse on the longer text, once the cursor is known to be inside `u`
    have hhead : ∀ m r, skipWhitespace u k < u.length →
        parseJsonValue (m + 1) (u ++ r) k =
          (if c = '{' then parseJsonObject m (u ++ r) (skipWhitespace u k)
          else if c = '[' then parseJsonArray m (u ++ r) (skipWhitespace u k)
          else if c = '"' then
            (parseJsonString (u ++ r) (skipWhitespace u k)).bind
              (fun x => .ok (.STRING x.1, x.2))
          else if (isdigit c || decide (c = '-')) = true then
            (parseJsonNumber (u ++ r) (skipWhitespace u k)).bind
              (fun x => .ok (.NUMBER x.1, x.2))
          else
            (substr (u ++ r) (skipWhitespace u k) 4).bind (fun s4 =>
              if s4 = ['t', 'r', 'u', 'e'] then .ok (.BOOLEAN true, skipWhitespace u k + 4)
              else (substr (u ++ r) (skipWhitespace u k) 5).bind (fun s5 =>
                if s5 = ['f', 'a', 'l', 's', 'e'] then
                  .ok (.BOOLEAN false, skipWhitespace u k + 5)
                else if s4 = ['n', 'u', 'l', 'l'] then .ok (.NIL, skipWhitespace u k + 4)
                else .error (.runtime_error "Invalid JSON value")))) := by
      intro m r hp
      simp only [parseJsonValue, bind, Except.bind, skipWhitespace_append u r k hp,
        charAt_append u r _ hp, hc]
    by_cases h1 : c = '{'
    · rw [if_pos h1] at h
      obtain ⟨a1, a2, _, a3⟩ := ihO _ _ _ h
      refine ⟨by omega, a2, fun m r hm _ => ?_⟩
      obtain ⟨m, rfl⟩ : ∃ m', m = m' + 1 := ⟨m - 1, by omega⟩
      rw [hhead m r (by omega), if_pos h1, a3 m r (by omega)]
    · rw [if_neg h1] at h
      by_cases h2 : c = '['
      · rw [if_pos h2] at h
        obtain ⟨a1, a2, _, a3⟩ := ihA _ _ _ h
        refine ⟨by omega, a2, fun m r hm _ => ?_⟩
        obtain ⟨m, rfl⟩ : ∃ m', m = m' + 1 := ⟨m - 1, by omega⟩
        rw [hhead m r (by omega), if_neg h1, if_pos h2, a3 m r (by omega)]
      · rw [if_neg h2] at h
        by_cases h3 : c = '"'
        · rw [if_pos h3] at h
          cases hs : parseJsonString u (skipWhitespace u k) with
          | error e => rw [hs] at h; cases h
          | ok res =>
            obtain ⟨str, m⟩ := res
            rw [hs] at h
            cases h
            obtain ⟨a1, a2, a3⟩ := parseJsonString_append u _ str m hs
            refine ⟨by omega, a2, fun m r hm _ => ?_⟩
            obtain ⟨m, rfl⟩ : ∃ m', m = m' + 1 := ⟨m - 1, by omega⟩
            rw [hhead m r (by omega), if_neg h1, if_neg h2, if_pos h3, a3 r]
            rfl
        · rw [if_neg h3] at h
          by_cases h4 : (isdigit c || decide (c = '-')) = true
          · rw [if_pos h4] at h
            cases hs : parseJsonNumber u (skipWhitespace u k) with
            | error e => rw [hs] at h; cases h
            | ok res =>
              obtain ⟨d, m⟩ := res
              rw [hs] at h
              cases h
              obtain ⟨a1, a2, a3, a4⟩ := parseJsonNumber_append u _ d m hs
              have hc0 : c ≠ Char.ofNat 0 := by
                rintro rfl
                exact absurd h4 (by decide)
              have hp := lt_length_of_charAt u _ c hc hc0
              have hnum : isNumberChar c = true := by
                simp only [Bool.or_eq_true, decide_eq_true_eq] at h4
                rcases h4 with h4 | h4
                · exact isNumberChar_of_isdigit h4
                · rw [h4]; decide
              have hadv := scanWhile_advances isNumberChar u _ c hc hp hnum
              refine ⟨by omega, a2, fun m r hm hr => ?_⟩
              obtain ⟨m, rfl⟩ : ∃ m', m = m' + 1 := ⟨m - 1, by omega⟩
              rw [hhead m r hp, if_neg h1, if_neg h2, if_neg h3, if_pos h4,
                a4 r (hr ⟨d, rfl⟩)]
              rfl
          · rw [if_neg h4] at h
            cases hs4 : substr u (skipWhitespace u k) 4 with
            | error e => rw [hs4] at h; cases h
            | ok s4 =>
              rw [hs4] at h
              dsimp only at h
              by_cases ht : s4 = ['t', 'r', 'u', 'e']
              · rw [if_pos ht] at h
                cases h
                have hlen := substr_length u _ 4 s4 hs4 (by rw [ht]; rfl)
                refine ⟨by omega, hlen, fun m r hm _ => ?_⟩
                obtain ⟨m, rfl⟩ : ∃ m', m = m' + 1 := ⟨m - 1, by omega⟩
                rw [hhead m r (by omega), if_neg h1, if_neg h2, if_neg h3, if_neg h4,
                  substr_append u r _ 4 hlen, hs4]
                simp [Except.bind, ht]
              · rw [if_neg ht] at h
                cases hs5 : substr u (skipWhitespace u k) 5 with
                | error e => rw [hs5] at h; cases h
                | ok s5 =>
                  rw [hs5] at h
                  dsimp only at h
                  by_cases hf : s5 = ['f', 'a', 'l', 's', 'e']
                  · rw [if_pos hf] at h
                    cases h
                    have hlen := substr_length u _ 5 s5 hs5 (by rw [hf]; rfl)
                    refine ⟨by omega, hlen, fun m r hm _ => ?_⟩
                    obtain ⟨m, rfl⟩ : ∃ m', m = m' + 1 := ⟨m - 1, by omega⟩
                    rw [hhead m r (by omega), if_neg h1, if_neg h2, if_neg h3, if_neg h4,
                      substr_append u r _ 4 (by omega), hs4, substr_append u r _ 5 hlen, hs5]
                    simp [Except.bind, ht, hf]
                  · rw [if_neg hf] at h
                    by_cases hn : s4 = ['n', 'u', 'l', 'l']
                    · rw [if_pos hn] at h
                      cases h
                      have hlen := substr_length u _ 4 s4 hs4 (by rw [hn]; rfl)
                      refine ⟨by omega, hlen, fun m r hm _ => ?_⟩
                      obtain ⟨m, rfl⟩ : ∃ m', m = m' + 1 := ⟨m - 1, by omega⟩
                      have h4' : substr (u ++ r) (skipWhitespace u k) 4 = .ok s4 := by
                        rw [substr_append u r _ 4 hlen, hs4]
                      obtain ⟨s5', hs5', hne5⟩ := substr_five_ne_false _ _ s4 h4' hn
                      rw [hhead m r (by omega), if_neg h1, if_neg h2, if_neg h3, if_neg h4,
                        h4', hs5']
                      simp [Except.bind, ht, hne5, hn]
                    · rw [if_neg hn] at h
                      cases h

/-- A successful parse consumes at least one character, stays inside the
text, and is unchanged when text is appended (for a number that ends at the
end of the text: text that does not start with a number character) and when
the recursion budget is replaced by one that covers the characters consumed. -/
theorem parseJson_append (u : List Char) :
    ∀ fuel : Nat, AppendStableValue fuel u ∧ AppendStableArray fuel u ∧
      AppendStableArrayLoop fuel u ∧ AppendStableObject fuel u ∧
      AppendStableObjectLoop fuel u := by
  intro fuel
  induction fuel with
  | zero =>
    refine ⟨?_, ?_, ?_, ?_, ?_⟩ <;> intro k <;> intros <;>
      simp_all [parseJsonValue, parseJsonArray, parseJsonArrayLoop, parseJsonObject,
        parseJsonObjectLoop]
  | succ f ih =>
    obtain ⟨ihV, ihA, ihAL, ihO, ihOL⟩ := ih
    exact ⟨appendStable_value_step f u ihA ihO, appendStable_array_step f u ihAL,
      appendStable_arrayLoop_step f u ihV ihAL, appendStable_object_step f u ihOL,
      appendStable_objectLoop_step f u ihV ihOL⟩

/-- C6 fails on `{"a":1} x` and on `1 2`: the parse returns the leading value
and does not look at what follows it. -/
theorem C6_trailing_content_counterexample :
    readJson ['{', '"', 'a', '"', ':', '1', '}', ' ', 'x'] =
        .ok (.OBJECT [(['a'], .NUMBER (.fin 1))]) ∧
      readJson ['1', ' ', '2'] = .ok (.NUMBER (.fin 1)) := by
  decide!

/-- C6 as amended: when a text `t` parses from position 0 to the value `v`
with the cursor at its end, then on `t` followed by any text `r` (for a
number `v`: any text that does not start with a number character) the parse
started at position 0 returns `v` with the cursor at the end of `t`, for
every recursion budget that covers `t`, and `readJson` returns `v`: what
follows the value is not examined. -/
theorem C6_trailing_content_ignored (fuel : Nat) (t r : List Char) (v : JsonValue)
    (h : parseJsonValue fuel t 0 = .ok (v, t.length))
    (hr : (∃ d, v = .NUMBER d) → ∀ c, r.head? = some c → isNumberChar c = false) :
    (∀ m, 2 * t.length + 1 ≤ m → parseJsonValue m (t ++ r) 0 = .ok (v, t.length)) ∧
      readJson (t ++ r) = .ok v := by
  obtain ⟨_, _, h3⟩ := (parseJson_append t fuel).1 0 v t.length h
  have hp : ∀ m, 2 * t.length + 1 ≤ m → parseJsonValue m (t ++ r) 0 = .ok (v, t.length) :=
    fun m hm => h3 m r (by omega) (fun hd _ => hr hd)
  refine ⟨hp, ?_⟩
  rw [readJson, hp _ (by rw [List.length_append]; omega)]
  rfl

/-- C6 as amended, on `{"a":1}` followed by ` x`. -/
theorem C6_trailing_content_ignored_witness :
    (∀ m, 2 * ['{', '"', 'a', '"', ':', '1', '}'].length + 1 ≤ m →
        parseJsonValue m (['{', '"', 'a', '"', ':', '1', '}'] ++ [' ', 'x']) 0 =
          .ok (.OBJECT [(['a'], .NUMBER (.fin 1))], ['{', '"', 'a', '"', ':', '1', '}'].length)) ∧
      readJson (['{', '"', 'a', '"', ':', '1', '}'] ++ [' ', 'x']) =
        .ok (.OBJECT [(['a'], .NUMBER (.fin 1))]) :=
  C6_trailing_content_ignored 4 ['{', '"', 'a', '"', ':', '1', '}'] [' ', 'x']
    (.OBJECT [(['a'], .NUMBER (.fin 1))]) (by decide!) (by rintro ⟨d, hd⟩; cases hd)

/-! ## The map built by `parseJsonObject` -/

theorem mapFind_mapAssign {V : Type} (o : List (List Char × V)) (k k' : List Char) (v : V) :
    mapFind (mapAssign o k v) k' = if k = k' then some v else mapFind o k' := by
  induction o with
  | nil => simp [mapAssign, mapFind]
  | cons e o ih =>
    obtain ⟨ek, ev⟩ := e
    by_cases h1 : ek = k
    · subst h1
      by_cases h2 : ek = k'
      · simp [mapAssign, mapFind, h2]
      · simp [mapAssign, mapFind, h2]
    · by_cases h2 : ek = k'
      · subst h2
        have : ¬ k = ek := fun h => h1 h.symm
        simp [mapAssign, mapFind, h1, this]
      · simp [mapAssign, mapFind, h1, h2, ih]

theorem keys_mapAssign {V : Type} (o : List (List Char × V)) (k : List Char) (v : V) :
    (mapAssign o k v).map Prod.fst =
      if k ∈ o.map Prod.fst then o.map Prod.fst else o.map Prod.fst ++ [k] := by
  induction o with
  | nil => rfl
  | cons e o ih =>
    obtain ⟨ek, ev⟩ := e
    by_cases h1 : ek = k
    · subst h1
      simp only [mapAssign, if_true, List.map_cons, List.mem_cons, true_or]
    · have h1' : ¬ k = ek := fun h => h1 h.symm
      simp only [mapAssign, h1, if_false, List.map_cons, ih, List.mem_cons, h1', false_or]
      split_ifs
      · rfl
      · rfl

theorem keys_assignAll (ms : List Member) :
    ∀ o : List (List Char × JsonValue), (o.map Prod.fst).Nodup →
      ((assignAll o ms).map Prod.fst).Nodup ∧
        ∀ k, k ∈ (assignAll o ms).map Prod.fst ↔ k ∈ o.map Prod.fst ∨ k ∈ ms.map Member.key := by
  induction ms with
  | nil =>
    intro o h
    exact ⟨h, fun k => by simp only [assignAll, List.foldl_nil, List.map_nil, List.not_mem_nil,
      or_false]⟩
  | cons m ms ih =>
    intro o h
    have hstep : ((mapAssign o m.key m.value).map Prod.fst).Nodup := by
      rw [keys_mapAssign]
      split_ifs with hk
      · exact h
      · refine List.Nodup.append h (List.nodup_singleton _) ?_
        intro x hx hx'
        rw [List.mem_singleton] at hx'
        exact hk (hx' ▸ hx)
    obtain ⟨h1, h2⟩ := ih _ hstep
    refine ⟨h1, fun k => ?_⟩
    have := h2 k
    simp only [assignAll, List.foldl_cons] at this ⊢
    rw [this, keys_mapAssign]
    split_ifs with hk
    · simp only [List.map_cons, List.mem_cons]
      constructor
      · rintro (h | h)
        · exact Or.inl h
        · exact Or.inr (Or.inr h)
      · rintro (h | h | h)
        · exact Or.inl h
        · exact Or.inl (h ▸ hk)
        · exact Or.inr h
    · simp only [List.mem_append, List.mem_singleton, List.map_cons, List.mem_cons]
      tauto

theorem filter_key_length_eq_one (o : List (List Char × JsonValue)) (k : List Char)
    (hnd : (o.map Prod.fst).Nodup) (hk : k ∈ o.map Prod.fst) :
    (o.filter (fun e => decide (e.1 = k))).length = 1 := by
  induction o with
  | nil => cases hk
  | cons e o ih =>
    rw [List.map_cons, List.nodup_cons] at hnd
    by_cases he : e.1 = k
    · have hnone : o.filter (fun e => decide (e.1 = k)) = [] := by
        rw [List.filter_eq_nil_iff]
        intro x hx hxk
        have hxk' : x.1 = k := by simpa using hxk
        exact hnd.1 (he ▸ hxk' ▸ List.mem_map_of_mem Prod.fst hx)
      rw [List.filter_cons_of_pos (by simpa using he), hnone]
      rfl
    · rw [List.filter_cons_of_neg (by simpa using he)]
      apply ih hnd.2
      rw [List.map_cons, List.mem_cons] at hk
      rcases hk with hk | hk
      · exact absurd hk.symm he
      · exact hk

theorem mapFind_assignAll_of_not_mem (ms : List Member) (k : List Char)
    (hk : ∀ m ∈ ms, m.key ≠ k) :
    ∀ o : List (List Char × JsonValue), mapFind (assignAll o ms) k = mapFind o k := by
  induction ms with
  | nil => intro o; rfl
  | cons m ms ih =>
    intro o
    simp only [assignAll, List.foldl_cons]
    have := ih (fun m' hm' => hk m' (List.mem_cons_of_mem _ hm')) (mapAssign o m.key m.value)
    simp only [assignAll] at this
    rw [this, mapFind_mapAssign, if_neg (hk m (by simp))]

/-- The entries of the map built from the members: one entry for each
distinct key, holding the value of the last member with that key. -/
theorem assignAll_last_wins (ms : List Member) :
    (assignAll [] ms).length = ((ms.map Member.key).dedup).length ∧
      ∀ before m after, ms = before ++ m :: after → (∀ m' ∈ after, m'.key ≠ m.key) →
        ((assignAll [] ms).filter (fun e => decide (e.1 = m.key))).length = 1 ∧
          mapFind (assignAll [] ms) m.key = some m.value := by
  obtain ⟨hnd, hmem⟩ := keys_assignAll ms [] List.nodup_nil
  constructor
  · have hperm : ((assignAll [] ms).map Prod.fst).Perm ((ms.map Member.key).dedup) :=
      (List.perm_ext_iff_of_nodup hnd (List.nodup_dedup _)).2
        (fun k => by rw [hmem k, List.mem_dedup, List.map_nil]; simp only [List.not_mem_nil,
          false_or])
    rw [← hperm.length_eq, List.length_map]
  · intro before m after hms hlast
    constructor
    · apply filter_key_length_eq_one _ _ hnd
      rw [hmem, hms, List.map_append, List.map_cons]
      exact Or.inr (List.mem_append_right _ (List.mem_cons_self _ _))
    · rw [hms]
      have h1 : assignAll [] (before ++ m :: after) =
          assignAll (mapAssign (assignAll [] before) m.key m.value) after := by
        simp only [assignAll, List.foldl_append, List.foldl_cons]
      rw [h1, mapFind_assignAll_of_not_mem after m.key hlast, mapFind_mapAssign, if_pos rfl]

/-! ## Parsing an object text -/

theorem drop_of_drop_eq_append (s : List Char) (p : Nat) (x y : List Char)
    (h : s.drop p = x ++ y) : s.drop (p + x.length) = y := by
  rw [drop_add, h, List.drop_left]

theorem takeWhile_drop_takeWhile (p : Char → Bool) (l : List Char) :
    (l.drop (l.takeWhile p).length).takeWhile p = [] := by
  induction l with
  | nil => rfl
  | cons c r ih =>
    by_cases hc : p c = true
    · rw [List.takeWhile_cons_of_pos hc]
      exact ih
    · rw [List.takeWhile_cons_of_neg hc]
      exact List.takeWhile_cons_of_neg hc

theorem skipWhitespace_idem (s : List Char) (p : Nat) :
    skipWhitespace s (skipWhitespace s p) = skipWhitespace s p := by
  have h1 : skipWhitespace s p = p + ((s.drop p).takeWhile isspace).length :=
    scanWhile_eq isspace s _ p (le_refl _)
  have h2 : skipWhitespace s (skipWhitespace s p) =
      skipWhitespace s p + ((s.drop (skipWhitespace s p)).takeWhile isspace).length :=
    scanWhile_eq isspace s _ _ (le_refl _)
  rw [h2]
  rw [h1, drop_add, takeWhile_drop_takeWhile]
  rfl

theorem parseJsonValue_skipWhitespace (fuel : Nat) (s : List Char) (p : Nat) :
    parseJsonValue fuel s (skipWhitespace s p) = parseJsonValue fuel s p := by
  cases fuel with
  | zero => rfl
  | succ f => simp only [parseJsonValue, skipWhitespace_idem]

theorem skipWhitespace_spaces (s : List Char) (p : Nat) (ws rest : List Char)
    (h : s.drop p = ws ++ rest) (hws : ∀ c ∈ ws, isspace c = true) :
    skipWhitespace s p = skipWhitespace s (p + ws.length) := by
  have h1 : skipWhitespace s p = p + ((s.drop p).takeWhile isspace).length :=
    scanWhile_eq isspace s _ p (le_refl _)
  have h2 : skipWhitespace s (p + ws.length) =
      p + ws.length + ((s.drop (p + ws.length)).takeWhile isspace).length :=
    scanWhile_eq isspace s _ _ (le_refl _)
  rw [h1, h2, drop_of_drop_eq_append s p ws rest h, h, List.takeWhile_append_of_pos hws,
    List.length_append, Nat.add_assoc]

theorem skipWhitespace_stop (s : List Char) (p : Nat) (ws rest : List Char)
    (h : s.drop p = ws ++ rest) (hws : ∀ c ∈ ws, isspace c = true)
    (hrest : ∀ c, rest.head? = some c → isspace c = false) :
    skipWhitespace s p = p + ws.length :=
  scanWhile_run isspace s p ws rest h hws hrest

theorem isspace_of_isNumberChar (c : Char) (h : isNumberChar c = true) : isspace c = false := by
  simp only [isNumberChar, isdigit, Bool.or_eq_true, Bool.and_eq_true, decide_eq_true_eq] at h
  simp only [isspace, Bool.or_eq_false_iff, Bool.and_eq_false_iff, decide_eq_false_iff_not]
  rcases h with ((h | h) | h) | h
  · omega
  · subst h; decide
  · subst h; decide
  · subst h; decide

/-- A value text that parses on its own parses in the same way inside a
longer text, when what follows it does not start with a number character. -/
theorem parseJsonValue_in_context (s : List Char) (p : Nat) (vt tail : List Char)
    (v : JsonValue) (fuel : Nat) (h : parseJsonValue fuel vt 0 = .ok (v, vt.length))
    (hdrop : s.drop p = vt ++ tail)
    (htail : ∀ c, tail.head? = some c → isNumberChar c = false)
    (m : Nat) (hm : 2 * vt.length + 1 ≤ m) :
    parseJsonValue m s p = .ok (v, p + vt.length) := by
  obtain ⟨h1, _, h3⟩ := (parseJson_append vt fuel).1 0 v vt.length h
  have hp : p ≤ s.length := by
    by_contra hn
    rw [List.drop_eq_nil_of_le (by omega)] at hdrop
    have : vt = [] := (List.append_eq_nil.1 hdrop.symm).1
    rw [this] at h1
    simp at h1
  have hs := (parseJson_shift s p hp m 0).1
  rw [Nat.add_zero, hdrop, h3 m tail (by omega) (fun _ _ => htail)] at hs
  exact hs

/-- One turn of the loop of `parseJsonObject` on a well-formed member that is
followed by the character `c`: the entry is assigned; on a closing brace the
loop returns, on a comma it goes on behind the comma. -/
theorem parseJsonObjectLoop_member (m : Member) (hm : m.WellFormed) (s : List Char) (p : Nat)
    (c : Char) (rest : List Char) (hdrop : s.drop p = m.core ++ c :: rest)
    (hc : c = '}' ∨ c = ',') (object : List (List Char × JsonValue)) (F : Nat)
    (hF : 2 * m.valueText.length + 1 ≤ F) :
    parseJsonObjectLoop (F + 1) s p object =
      if c = '}' then .ok (mapAssign object m.key m.value, p + m.core.length)
      else parseJsonObjectLoop F s (skipWhitespace s (p + m.core.length + 1))
        (mapAssign object m.key m.value) := by
  obtain ⟨_, hws2, hws3, hws4, hkey, fuel, hval⟩ := hm
  have hcs : isspace c = false := by
    rcases hc with rfl | rfl <;> decide
  have hcn : isNumberChar c = false := by
    rcases hc with rfl | rfl <;> decide
  -- the text from the cursor on, laid out piece by piece
  have e0 : s.drop p = '"' :: (m.key ++ '"' :: (m.ws2 ++ ':' :: (m.ws3 ++ (m.valueText ++
      (m.ws4 ++ c :: rest))))) := by
    rw [hdrop]
    simp [Member.core]
  have e1 : s.drop (p + (m.key.length + 2)) = m.ws2 ++ ':' :: (m.ws3 ++ (m.valueText ++
      (m.ws4 ++ c :: rest))) := by
    have := drop_of_drop_eq_append s p ('"' :: (m.key ++ ['"']))
      (m.ws2 ++ ':' :: (m.ws3 ++ (m.valueText ++ (m.ws4 ++ c :: rest)))) (by rw [e0]; simp)
    simpa using this
  have e2 : s.drop (p + (m.key.length + 2) + m.ws2.length) = ':' :: (m.ws3 ++ (m.valueText ++
      (m.ws4 ++ c :: rest))) := drop_of_drop_eq_append s _ _ _ e1
  have e3 : s.drop (p + (m.key.length + 2) + m.ws2.length + 1) = m.ws3 ++ (m.valueText ++
      (m.ws4 ++ c :: rest)) := by
    have := drop_of_drop_eq_append s _ [':'] _ (by rw [e2]; rfl)
    simpa using this
  have e4 : s.drop (p + (m.key.length + 2) + m.ws2.length + 1 + m.ws3.length) =
      m.valueText ++ (m.ws4 ++ c :: rest) := drop_of_drop_eq_append s _ _ _ e3
  have e5 : s.drop (p + (m.key.length + 2) + m.ws2.length + 1 + m.ws3.length +
      m.valueText.length) = m.ws4 ++ c :: rest := drop_of_drop_eq_append s _ _ _ e4
  have e6 : s.drop (p + (m.key.length + 2) + m.ws2.length + 1 + m.ws3.length +
      m.valueText.length + m.ws4.length) = c :: rest := drop_of_drop_eq_append s _ _ _ e5
  have hlen : p + m.core.length = p + (m.key.length + 2) + m.ws2.length + 1 + m.ws3.length +
      m.valueText.length + m.ws4.length := by
    simp only [Member.core, List.length_cons, List.length_append]
    omega
  -- the steps of the loop body
  have s1 : parseJsonString s p = .ok (m.key, p + (m.key.length + 2)) := by
    rw [parseJsonString_of_drop s p m.key _ e0 hkey, Nat.add_assoc]
  have s2 : skipWhitespace s (p + (m.key.length + 2)) = p + (m.key.length + 2) + m.ws2.length :=
    skipWhitespace_stop s _ _ _ e1 hws2 (by simp; decide)
  have s3 : charAt s (p + (m.key.length + 2) + m.ws2.length) = .ok ':' :=
    charAt_of_drop_eq_cons e2
  have s4 : parseJsonValue F s (skipWhitespace s (p + (m.key.length + 2) + m.ws2.length + 1)) =
      .ok (m.value, p + (m.key.length + 2) + m.ws2.length + 1 + m.ws3.length +
        m.valueText.length) := by
    rw [skipWhitespace_spaces s _ _ _ e3 hws3, parseJsonValue_skipWhitespace]
    apply parseJsonValue_in_context s _ _ _ _ fuel hval e4 _ F hF
    intro d hd
    cases hw : m.ws4 with
    | nil =>
      rw [hw] at hd
      cases hd
      exact hcn
    | cons w ws =>
      rw [hw] at hd
      cases hd
      by_contra hcon
      have := isspace_of_isNumberChar d (by simpa using hcon)
      rw [hws4 d (by rw [hw]; simp)] at this
      cases this
  have s5 : skipWhitespace s (p + (m.key.length + 2) + m.ws2.length + 1 + m.ws3.length +
      m.valueText.length) = p + m.core.length := by
    rw [hlen]
    exact skipWhitespace_stop s _ _ _ e5 hws4 (by simp [hcs])
  have s6 : charAt s (p + m.core.length) = .ok c := by
    rw [hlen]
    exact charAt_of_drop_eq_cons e6
  simp only [parseJsonObjectLoop, s1, s2, s3, s4, s5, s6, bind, Except.bind]
  rcases hc with rfl | rfl <;> simp

theorem loopText_head (m : Member) (ms : List Member) :
    ∃ r, loopText (m :: ms) = '"' :: r := by
  cases ms with
  | nil => exact ⟨_, rfl⟩
  | cons m' ms => exact ⟨_, rfl⟩

/-- The loop of `parseJsonObject` on the members of an object text assigns
the members in the order written and stops on the closing brace. -/
theorem parseJsonObjectLoop_loopText :
    ∀ (ms : List Member), ms ≠ [] → (∀ m ∈ ms, m.WellFormed) →
      ∀ (s : List Char) (p : Nat) (post : List Char) (object : List (List Char × JsonValue))
        (F : Nat), s.drop p = loopText ms ++ '}' :: post →
        2 * (loopText ms).length + 2 ≤ F →
        parseJsonObjectLoop F s p object = .ok (assignAll object ms, p + (loopText ms).length) := by
  intro ms
  induction ms with
  | nil => intro h; exact absurd rfl h
  | cons m ms ih =>
    intro _ hwf s p post object F hdrop hF
    have hm := hwf m (by simp)
    cases ms with
    | nil =>
      obtain ⟨F, rfl⟩ : ∃ F', F = F' + 1 := ⟨F - 1, by omega⟩
      have hlen : m.valueText.length ≤ m.core.length := by
        simp only [Member.core, List.length_cons, List.length_append]
        omega
      simp only [loopText] at hdrop hF ⊢
      rw [parseJsonObjectLoop_member m hm s p '}' post hdrop (Or.inl rfl) object F (by omega),
        if_pos rfl]
      rfl
    | cons m' ms' =>
      obtain ⟨F, rfl⟩ : ∃ F', F = F' + 1 := ⟨F - 1, by omega⟩
      have hlen : m.valueText.length ≤ m.core.length := by
        simp only [Member.core, List.length_cons, List.length_append]
        omega
      have hll : (loopText (m :: m' :: ms')).length =
          m.core.length + 1 + m'.ws1.length + (loopText (m' :: ms')).length := by
        simp only [loopText, List.length_append, List.length_cons]
        omega
      have hdrop1 : s.drop p = m.core ++ ',' :: (m'.ws1 ++ (loopText (m' :: ms') ++ '}' :: post)) := by
        rw [hdrop]
        simp [loopText]
      rw [parseJsonObjectLoop_member m hm s p ',' _ hdrop1 (Or.inr rfl) object F (by omega),
        if_neg (by decide)]
      have e1 : s.drop (p + m.core.length + 1) =
          m'.ws1 ++ (loopText (m' :: ms') ++ '}' :: post) := by
        have := drop_of_drop_eq_append s p (m.core ++ [','])
          (m'.ws1 ++ (loopText (m' :: ms') ++ '}' :: post)) (by rw [hdrop1]; simp)
        simpa [Nat.add_assoc] using this
      obtain ⟨r, hr⟩ := loopText_head m' ms'
      have hskip : skipWhitespace s (p + m.core.length + 1) =
          p + m.core.length + 1 + m'.ws1.length :=
        skipWhitespace_stop s _ _ _ e1 (hwf m' (by simp)).1 (by rw [hr]; simp; decide)
      have e2 := drop_of_drop_eq_append s _ _ _ e1
      rw [hskip, ih (by simp) (fun x hx => hwf x (List.mem_cons_of_mem _ hx)) s _ post _ F e2
        (by omega), hll]
      simp only [assignAll, List.foldl_cons]
      congr 2
      omega

/-- The object parser on an object text: the map of its members, the cursor
at the end of the text. -/
theorem parseJsonObject_objectText (ms : List Member) (hwf : ∀ m ∈ ms, m.WellFormed)
    (F : Nat) (hF : 2 * (objectText ms).length ≤ F) :
    parseJsonObject F (objectText ms) 0 = .ok (.OBJECT (assignAll [] ms), (objectText ms).length) := by
  cases ms with
  | nil =>
    obtain ⟨F, rfl⟩ : ∃ F', F = F' + 1 := ⟨F - 1, by simp [objectText] at hF; omega⟩
    rfl
  | cons m ms =>
    have hlen : (objectText (m :: ms)).length = 1 + m.ws1.length + (loopText (m :: ms)).length + 1 := by
      simp only [objectText, List.length_cons, List.length_append, List.length_nil]
      omega
    obtain ⟨F, rfl⟩ : ∃ F', F = F' + 1 := ⟨F - 1, by omega⟩
    obtain ⟨r, hr⟩ := loopText_head m ms
    have e0 : (objectText (m :: ms)).drop 0 = '{' :: (m.ws1 ++ (loopText (m :: ms) ++ ['}'])) := rfl
    have e1 : (objectText (m :: ms)).drop (0 + 1) = m.ws1 ++ (loopText (m :: ms) ++ ['}']) := rfl
    have e2 := drop_of_drop_eq_append _ _ _ _ e1
    have h0 : charAt (objectText (m :: ms)) 0 = .ok '{' := charAt_of_drop_eq_cons e0
    have h1 : skipWhitespace (objectText (m :: ms)) (0 + 1) = 0 + 1 + m.ws1.length :=
      skipWhitespace_stop _ _ _ _ e1 (hwf m (by simp)).1 (by rw [hr]; simp; decide)
    have h2 : charAt (objectText (m :: ms)) (0 + 1 + m.ws1.length) = .ok '"' := by
      rw [hr] at e2
      exact charAt_of_drop_eq_cons e2
    have h3 := parseJsonObjectLoop_loopText (m :: ms) (by simp) hwf _ _ [] [] F e2 (by omega)
    simp only [parseJsonObject, h0, h1, h2, h3, bind, Except.bind]
    simp only [hlen]
    simp

/-- C10 fails on the object text `{"k":"a\"b","k":2}`, in which the key `k`
occurs twice and the first value is a string with an escaped quote: the
parser decodes no escape, so the string value ends at the escaped quote
(cursor 4 of the 6 characters of `"a\"b"`) and `parseJsonObject` throws
"Expected ','" at the `b`. It fails in the same way on `{"k":1e2,"k":2}`,
where the number stops in front of the exponent (the defect of C8). -/
theorem C10_duplicate_key_counterexample :
    parseJsonValue 1 ['"', 'a', '\\', '"', 'b', '"'] 0 = .ok (.STRING ['a', '\\'], 4) ∧
      parseJsonObject 40 ['{', '"', 'k', '"', ':', '"', 'a', '\\', '"', 'b', '"', ',',
        '"', 'k', '"', ':', '2', '}'] 0 = .error (.runtime_error "Expected ','") ∧
      readJson ['{', '"', 'k', '"', ':', '"', 'a', '\\', '"', 'b', '"', ',',
        '"', 'k', '"', ':', '2', '}'] = .error (.runtime_error "Expected ','") ∧
      parseJsonObject 40 ['{', '"', 'k', '"', ':', '1', 'e', '2', ',',
        '"', 'k', '"', ':', '2', '}'] 0 = .error (.runtime_error "Expected ','") := by
  decide!

/-- C10 as amended: for every object text whose keys hold no quote character
and whose value texts `parseJsonValue` parses, on their own, up to their end
(any whitespace around the tokens), `parseJsonObject`, given a recursion
budget that covers the text, returns an object `o` with the cursor at the end
of the text, such that `o` has as many entries as the text has distinct keys
and, for every member `m` that is the last one with its key, `o` holds exactly
one entry with that key and that entry holds the value of `m`. Every JSON
text without an exponent and without a quote character inside a string is
such a value text (`jsonText_parses`). -/
theorem C10_duplicate_key_last_wins (ms : List Member) (hwf : ∀ m ∈ ms, m.WellFormed) :
    ∃ o, (∀ fuel, 2 * (objectText ms).length ≤ fuel →
        parseJsonObject fuel (objectText ms) 0 = .ok (.OBJECT o, (objectText ms).length)) ∧
      o.length = ((ms.map Member.key).dedup).length ∧
      ∀ before m after, ms = before ++ m :: after → (∀ m' ∈ after, m'.key ≠ m.key) →
        (o.filter (fun e => decide (e.1 = m.key))).length = 1 ∧ mapFind o m.key = some m.value :=
  ⟨assignAll [] ms, fun fuel hfuel => parseJsonObject_objectText ms hwf fuel hfuel,
    (assignAll_last_wins ms).1, (assignAll_last_wins ms).2⟩

/-- C10 as amended, on the text `{"k":1,"k":2}`, whose two members have the
key `k`. -/
theorem C10_duplicate_key_witness :
    ∃ o, (∀ fuel, 2 * (objectText duplicateKeyMembers).length ≤ fuel →
        parseJsonObject fuel (objectText duplicateKeyMembers) 0 =
          .ok (.OBJECT o, (objectText duplicateKeyMembers).length)) ∧
      o.length = ((duplicateKeyMembers.map Member.key).dedup).length ∧
      ∀ before m after, duplicateKeyMembers = before ++ m :: after →
        (∀ m' ∈ after, m'.key ≠ m.key) →
        (o.filter (fun e => decide (e.1 = m.key))).length = 1 ∧ mapFind o m.key = some m.value :=
  C10_duplicate_key_last_wins duplicateKeyMembers
    (by
      intro m hm
      simp only [duplicateKeyMembers, List.mem_cons, List.mem_singleton, List.not_mem_nil,
        or_false] at hm
      rcases hm with rfl | rfl
      · exact ⟨by simp, by simp, by simp, by simp, by decide, 1, by decide!⟩
      · exact ⟨by simp, by simp, by simp, by simp, by decide, 1, by decide!⟩)

/-! ## Parsing an array text -/

/-- A value that parses starts, behind the whitespace, with a character
inside the text, and this character is not a closing bracket. -/
theorem parseJsonValue_start (fuel : Nat) (u : List Char) (k : Nat) (v : JsonValue) (n : Nat)
    (h : parseJsonValue fuel u k = .ok (v, n)) :
    ∃ c r, u.drop (skipWhitespace u k) = c :: r ∧ c ≠ ']' := by
  cases fuel with
  | zero => simp [parseJsonValue] at h
  | succ f =>
    simp only [parseJsonValue, bind, Except.bind] at h
    by_cases hq : skipWhitespace u k < u.length
    · have hd := List.drop_eq_getElem_cons hq
      refine ⟨_, _, hd, fun hc => ?_⟩
      rw [hc] at hd
      have h4 : substr u (skipWhitespace u k) 4 =
          .ok (']' :: (u.drop (skipWhitespace u k + 1)).take 3) := by
        rw [substr_of_le 4 hq.le, hd]
        rfl
      have h5 : substr u (skipWhitespace u k) 5 =
          .ok (']' :: (u.drop (skipWhitespace u k + 1)).take 4) := by
        rw [substr_of_le 5 hq.le, hd]
        rfl
      rw [charAt_of_drop_eq_cons hd, h4, h5] at h
      simp [isdigit] at h
    · exfalso
      have hnil : u.drop (skipWhitespace u k) = [] := List.drop_eq_nil_of_le (by omega)
      by_cases he : skipWhitespace u k = u.length
      · have h4 : substr u (skipWhitespace u k) 4 = .ok [] := by
          rw [substr_of_le 4 (by omega), hnil]
          rfl
        have h5 : substr u (skipWhitespace u k) 5 = .ok [] := by
          rw [substr_of_le 5 (by omega), hnil]
          rfl
        rw [h4, h5, he, charAt_length] at h
        simp [isdigit] at h
      · have hc : charAt u (skipWhitespace u k) = .error .undefined := by
          simp [charAt, List.getElem?_eq_none (by omega : u.length ≤ skipWhitespace u k), he]
        rw [hc] at h
        cases h

theorem value_start_in_context (s : List Char) (p : Nat) (vt tail : List Char) (v : JsonValue)
    (fuel : Nat) (h : parseJsonValue fuel vt 0 = .ok (v, vt.length))
    (hdrop : s.drop p = vt ++ tail) :
    ∃ c r, s.drop (skipWhitespace s p) = c :: r ∧ c ≠ ']' := by
  obtain ⟨c, r, hd, hc⟩ := parseJsonValue_start fuel vt 0 v _ h
  have hq := lt_length_of_drop_eq_cons hd
  have h1 : skipWhitespace s p = p + skipWhitespace vt 0 := by
    have := skipWhitespace_shift s p 0
    rw [Nat.add_zero, hdrop, skipWhitespace_append vt tail 0 hq] at this
    exact this
  refine ⟨c, r ++ tail, ?_, hc⟩
  rw [h1, drop_add, hdrop, List.drop_append_of_le_length hq.le, hd]
  rfl

theorem parseJsonArrayLoop_skipWhitespace (fuel : Nat) (s : List Char) (p : Nat)
    (values : List JsonValue) :
    parseJsonArrayLoop fuel s (skipWhitespace s p) values = parseJsonArrayLoop fuel s p values := by
  cases fuel with
  | zero => rfl
  | succ f => simp only [parseJsonArrayLoop, parseJsonValue_skipWhitespace]

/-- One turn of the loop of `parseJsonArray` on a well-formed element that is
followed by the character `c`: the value is appended; on a closing bracket
the loop returns, on a comma it goes on behind the comma. -/
theorem parseJsonArrayLoop_element (e : Element) (he : e.WellFormed) (s : List Char) (p : Nat)
    (c : Char) (rest : List Char) (hdrop : s.drop p = e.core ++ c :: rest)
    (hc : c = ']' ∨ c = ',') (values : List JsonValue) (F : Nat)
    (hF : 2 * e.valueText.length + 1 ≤ F) :
    parseJsonArrayLoop (F + 1) s p values =
      if c = ']' then .ok (values ++ [e.value], p + e.core.length)
      else parseJsonArrayLoop F s (skipWhitespace s (p + e.core.length + 1))
        (values ++ [e.value]) := by
  obtain ⟨_, hws2, fuel, hval⟩ := he
  have hcs : isspace c = false := by
    rcases hc with rfl | rfl <;> decide
  have hcn : isNumberChar c = false := by
    rcases hc with rfl | rfl <;> decide
  have e0 : s.drop p = e.valueText ++ (e.ws2 ++ c :: rest) := by
    rw [hdrop]
    simp [Element.core]
  have e1 : s.drop (p + e.valueText.length) = e.ws2 ++ c :: rest :=
    drop_of_drop_eq_append s _ _ _ e0
  have e2 : s.drop (p + e.valueText.length + e.ws2.length) = c :: rest :=
    drop_of_drop_eq_append s _ _ _ e1
  have hlen : p + e.core.length = p + e.valueText.length + e.ws2.length := by
    simp only [Element.core, List.length_append]
    omega
  have s1 : parseJsonValue F s p = .ok (e.value, p + e.valueText.length) := by
    apply parseJsonValue_in_context s _ _ _ _ fuel hval e0 _ F hF
    intro d hd
    cases hw : e.ws2 with
    | nil =>
      rw [hw] at hd
      cases hd
      exact hcn
    | cons w ws =>
      rw [hw] at hd
      cases hd
      by_contra hcon
      have := isspace_of_isNumberChar d (by simpa using hcon)
      rw [hws2 d (by rw [hw]; simp)] at this
      cases this
  have s2 : skipWhitespace s (p + e.valueText.length) = p + e.core.length := by
    rw [hlen]
    exact skipWhitespace_stop s _ _ _ e1 hws2 (by simp [hcs])
  have s3 : charAt s (p + e.core.length) = .ok c := by
    rw [hlen]
    exact charAt_of_drop_eq_cons e2
  simp only [parseJsonArrayLoop, s1, s2, s3, bind, Except.bind]
  rcases hc with rfl | rfl <;> simp

/-- The loop of `parseJsonArray` on the elements of an array text appends
their values in the order written and stops on the closing bracket. -/
theorem parseJsonArrayLoop_elementsText :
    ∀ (es : List Element), es ≠ [] → (∀ e ∈ es, e.WellFormed) →
      ∀ (s : List Char) (p : Nat) (post : List Char) (values : List JsonValue) (F : Nat),
        s.drop p = elementsText es ++ ']' :: post →
        2 * (elementsText es).length + 2 ≤ F →
        parseJsonArrayLoop F s p values =
          .ok (values ++ es.map Element.value, p + (elementsText es).length) := by
  intro es
  induction es with
  | nil => intro h; exact absurd rfl h
  | cons e es ih =>
    intro _ hwf s p post values F hdrop hF
    have he := hwf e (by simp)
    have hlen : e.valueText.length ≤ e.core.length := by
      simp only [Element.core, List.length_append]
      omega
    obtain ⟨F, rfl⟩ : ∃ F', F = F' + 1 := ⟨F - 1, by omega⟩
    cases es with
    | nil =>
      simp only [elementsText] at hdrop hF ⊢
      rw [parseJsonArrayLoop_element e he s p ']' post hdrop (Or.inl rfl) values F (by omega),
        if_pos rfl]
      rfl
    | cons e' es' =>
      have hll : (elementsText (e :: e' :: es')).length =
          e.core.length + 1 + e'.ws1.length + (elementsText (e' :: es')).length := by
        simp only [elementsText, List.length_append, List.length_cons]
        omega
      have hdrop1 : s.drop p =
          e.core ++ ',' :: (e'.ws1 ++ (elementsText (e' :: es') ++ ']' :: post)) := by
        rw [hdrop]
        simp [elementsText]
      rw [parseJsonArrayLoop_element e he s p ',' _ hdrop1 (Or.inr rfl) values F (by omega),
        if_neg (by decide)]
      have e1 : s.drop (p + e.core.length + 1) =
          e'.ws1 ++ (elementsText (e' :: es') ++ ']' :: post) := by
        have := drop_of_drop_eq_append s p (e.core ++ [','])
          (e'.ws1 ++ (elementsText (e' :: es') ++ ']' :: post)) (by rw [hdrop1]; simp)
        simpa [Nat.add_assoc] using this
      have e2 := drop_of_drop_eq_append s _ _ _ e1
      rw [skipWhitespace_spaces s _ _ _ e1 (hwf e' (by simp)).1,
        parseJsonArrayLoop_skipWhitespace,
        ih (by simp) (fun x hx => hwf x (List.mem_cons_of_mem _ hx)) s _ post _ F e2
          (by omega), hll]
      simp only [List.map_cons, List.append_assoc, List.singleton_append]
      congr 2
      omega

/-- The array parser on an array text: the values of its elements in the
order written, the cursor at the end of the text. -/
theorem parseJsonArray_arrayText (ws : List Char) (hws : ∀ c ∈ ws, isspace c = true)
    (es : List Element) (hwf : ∀ e ∈ es, e.WellFormed)
    (F : Nat) (hF : 2 * (arrayText ws es).length ≤ F) :
    parseJsonArray F (arrayText ws es) 0 =
      .ok (.ARRAY (es.map Element.value), (arrayText ws es).length) := by
  cases es with
  | nil =>
    obtain ⟨F, rfl⟩ : ∃ F', F = F' + 1 := ⟨F - 1, by simp [arrayText] at hF; omega⟩
    have e0 : (arrayText ws []).drop 0 = '[' :: (ws ++ [']']) := rfl
    have e1 : (arrayText ws []).drop (0 + 1) = ws ++ [']'] := rfl
    have e2 := drop_of_drop_eq_append _ _ _ _ e1
    have h0 : charAt (arrayText ws []) 0 = .ok '[' := charAt_of_drop_eq_cons e0
    have h1 : skipWhitespace (arrayText ws []) (0 + 1) = 0 + 1 + ws.length :=
      skipWhitespace_stop _ _ _ _ e1 hws (by simp; decide)
    have h2 : charAt (arrayText ws []) (0 + 1 + ws.length) = .ok ']' :=
      charAt_of_drop_eq_cons e2
    simp only [parseJsonArray, h0, h1, h2, bind, Except.bind]
    simp [arrayText]
    omega
  | cons e es =>
    have hlen : (arrayText ws (e :: es)).length =
        1 + e.ws1.length + (elementsText (e :: es)).length + 1 := by
      simp only [arrayText, List.length_cons, List.length_append, List.length_nil]
      omega
    obtain ⟨F, rfl⟩ : ∃ F', F = F' + 1 := ⟨F - 1, by omega⟩
    have e1 : (arrayText ws (e :: es)).drop (0 + 1) =
        e.ws1 ++ (elementsText (e :: es) ++ [']']) := rfl
    have e2 := drop_of_drop_eq_append _ _ _ _ e1
    have h0 : charAt (arrayText ws (e :: es)) 0 = .ok '[' := charAt_of_drop_eq_cons rfl
    have h1 : skipWhitespace (arrayText ws (e :: es)) (0 + 1) =
        skipWhitespace (arrayText ws (e :: es)) (0 + 1 + e.ws1.length) :=
      skipWhitespace_spaces _ _ _ _ e1 (hwf e (by simp)).1
    obtain ⟨fuel, hval⟩ := (hwf e (by simp)).2.2
    have e3 : (arrayText ws (e :: es)).drop (0 + 1 + e.ws1.length) =
        e.valueText ++ ((elementsText (e :: es)).drop e.valueText.length ++ [']']) := by
      rw [e2]
      cases es with
      | nil => simp [elementsText, Element.core]
      | cons e' es' => simp [elementsText, Element.core]
    obtain ⟨c, r, hd, hc⟩ := value_start_in_context _ _ _ _ _ fuel hval e3
    have h2 : charAt (arrayText ws (e :: es))
        (skipWhitespace (arrayText ws (e :: es)) (0 + 1 + e.ws1.length)) = .ok c :=
      charAt_of_drop_eq_cons hd
    have h3 := parseJsonArrayLoop_elementsText (e :: es) (by simp) hwf _ _ [] [] F e2 (by omega)
    simp only [parseJsonArray, h0, h1, h2, hc, parseJsonArrayLoop_skipWhitespace, h3, bind,
      Except.bind]
    simp only [hlen]
    simp [hc]

/-- C11 fails on the array text `["a\"b"]`, whose one element is a string with
an escaped quote: the parser decodes no escape, so parsing the element alone
returns the string `a\` with the cursor at 4 of its 6 characters, and
`parseJsonArray` throws "Expected ','" at the `b`. It fails in the same way
on `[1e2]`, where the number stops in front of the exponent (the defect of
C8). -/
theorem C11_array_elements_counterexample :
    parseJsonValue 1 ['"', 'a', '\\', '"', 'b', '"'] 0 = .ok (.STRING ['a', '\\'], 4) ∧
      parseJsonArray 40 ['[', '"', 'a', '\\', '"', 'b', '"', ']'] 0 =
        .error (.runtime_error "Expected ','") ∧
      readJson ['[', '"', 'a', '\\', '"', 'b', '"', ']'] =
        .error (.runtime_error "Expected ','") ∧
      parseJsonValue 1 ['1', 'e', '2'] 0 = .ok (.NUMBER (.fin 1), 1) ∧
      parseJsonArray 40 ['[', '1', 'e', '2', ']'] 0 = .error (.runtime_error "Expected ','") := by
  decide!

/-- C11 as amended: for every array text whose value texts `parseJsonValue`
parses, on their own, up to their end (any whitespace around the values and
delimiters), `parseJsonArray`, given a recursion budget that covers the text,
returns an array `vs` with the cursor at the end of the text, such that `vs`
has as many elements as the text and its `i`-th element is the result of
parsing the `i`-th value text alone. Every JSON text without an exponent and
without a quote character inside a string is such a value text
(`jsonText_parses`). -/
theorem C11_array_elements_in_order (ws : List Char) (es : List Element)
    (hws : ∀ c ∈ ws, isspace c = true) (hwf : ∀ e ∈ es, e.WellFormed) :
    ∃ vs, (∀ fuel, 2 * (arrayText ws es).length ≤ fuel →
        parseJsonArray fuel (arrayText ws es) 0 = .ok (.ARRAY vs, (arrayText ws es).length)) ∧
      vs.length = es.length ∧
      ∀ i (hi : i < es.length) (hv : i < vs.length), ∃ fuel,
        parseJsonValue fuel es[i].valueText 0 = .ok (vs[i], es[i].valueText.length) := by
  refine ⟨es.map Element.value,
    fun fuel hfuel => parseJsonArray_arrayText ws hws es hwf fuel hfuel, by simp, ?_⟩
  intro i hi hv
  obtain ⟨fuel, h⟩ := (hwf es[i] (List.getElem_mem _)).2.2
  exact ⟨fuel, by simpa using h⟩

/-- C11 as amended, on the text `[1 , "x",[true]]`, whose three elements are a number, a
string and an array. -/
theorem C11_array_elements_witness :
    ∃ vs, (∀ fuel, 2 * (arrayText [] exampleElements).length ≤ fuel →
        parseJsonArray fuel (arrayText [] exampleElements) 0 =
          .ok (.ARRAY vs, (arrayText [] exampleElements).length)) ∧
      vs.length = exampleElements.length ∧
      ∀ i (hi : i < exampleElements.length) (hv : i < vs.length), ∃ fuel,
        parseJsonValue fuel exampleElements[i].valueText 0 =
          .ok (vs[i], exampleElements[i].valueText.length) :=
  C11_array_elements_in_order [] exampleElements (by simp)
    (by
      intro e he
      simp only [exampleElements, List.mem_cons, List.mem_singleton, List.not_mem_nil,
        or_false] at he
      rcases he with rfl | rfl | rfl
      · exact ⟨by simp, by simp [isspace], 1, by decide!⟩
      · exact ⟨by simp [isspace], by simp, 1, by decide!⟩
      · exact ⟨by simp, by simp, 4, by decide!⟩)

/-! ## The tokenizer, token by token -/

theorem nextToken_whitespace (expr : List Char) (pos : Nat) (ws rest : List Char)
    (h : expr.drop pos = ws ++ rest) (hws : ∀ c ∈ ws, isspace c = true) :
    Tokenizer.nextToken expr pos = Tokenizer.nextToken expr (pos + ws.length) := by
  have hs := skipWhitespace_spaces expr pos ws rest h hws
  simp only [skipWhitespace] at hs
  simp only [Tokenizer.nextToken, hs]

theorem nextToken_underscore (expr : List Char) (pos : Nat) {r : List Char}
    (h : expr.drop pos = '_' :: r) :
    Tokenizer.nextToken expr pos =
      .error (.runtime_error "Unexpected character in expression") := by
  have hp := lt_length_of_drop_eq_cons h
  simp [Tokenizer.nextToken, skip_none isspace h (by decide), Nat.not_le.2 hp,
    charAt_of_drop_eq_cons h, bind, Except.bind, isalpha, isdigit]

theorem nextToken_skip (expr : List Char) (pos : Nat) :
    Tokenizer.nextToken expr pos = Tokenizer.nextToken expr (skipWhitespace expr pos) := by
  have hs : scanWhile isspace expr (expr.length - skipWhitespace expr pos)
      (skipWhitespace expr pos) = scanWhile isspace expr (expr.length - pos) pos :=
    skipWhitespace_idem expr pos
  simp only [Tokenizer.nextToken, hs]

theorem skipWhitespace_not_space (s : List Char) (pos : Nat) (c : Char) (r : List Char)
    (h : s.drop (skipWhitespace s pos) = c :: r) : isspace c = false := by
  have h1 : skipWhitespace s pos = pos + ((s.drop pos).takeWhile isspace).length :=
    scanWhile_eq isspace s _ pos (le_refl _)
  have h2 := takeWhile_drop_takeWhile isspace (s.drop pos)
  rw [← drop_add, ← h1, h] at h2
  by_contra hc
  rw [List.takeWhile_cons_of_pos (by simpa using hc)] at h2
  cases h2

/-- The token at a character that is not whitespace. -/
theorem nextToken_at (expr : List Char) (pos : Nat) (c : Char) (r : List Char)
    (h : expr.drop pos = c :: r) (hs : isspace c = false) :
    Tokenizer.nextToken expr pos =
      if isalpha c = true then
        .ok (⟨.IDENTIFIER, (c :: r).takeWhile (fun x => isalnum x || x = '_')⟩,
          pos + ((c :: r).takeWhile (fun x => isalnum x || x = '_')).length)
      else if (isdigit c || decide (c = '-')) = true then
        .ok (⟨.NUMBER, (c :: r).takeWhile (fun x => isdigit x || x = '.')⟩,
          pos + ((c :: r).takeWhile (fun x => isdigit x || x = '.')).length)
      else if c = ',' then .ok (⟨.COMMA, [',']⟩, pos + 1)
      else if c = '(' then .ok (⟨.LEFT_PAREN, ['(']⟩, pos + 1)
      else if c = ')' then .ok (⟨.RIGHT_PAREN, [')']⟩, pos + 1)
      else if c = '[' then .ok (⟨.LEFT_BRACKET, ['[']⟩, pos + 1)
      else if c = ']' then .ok (⟨.RIGHT_BRACKET, [']']⟩, pos + 1)
      else if c = '.' then .ok (⟨.DOT, ['.']⟩, pos + 1)
      else .error (.runtime_error "Unexpected character in expression") := by
  have hp := lt_length_of_drop_eq_cons h
  simp only [Tokenizer.nextToken, skip_none isspace h hs, ge_iff_le, Nat.not_le.2 hp, if_false,
    charAt_of_drop_eq_cons h, bind, Except.bind]
  by_cases ha : isalpha c = true
  · rw [if_pos ha, if_pos ha, scanWhile_eq _ expr _ pos (le_refl _), h, Nat.add_sub_cancel_left,
      substr_of_le _ hp.le, h, take_length_takeWhile]
  · rw [if_neg ha, if_neg ha]
    by_cases hd : (isdigit c || decide (c = '-')) = true
    · rw [if_pos hd, if_pos hd, scanWhile_eq _ expr _ pos (le_refl _), h, Nat.add_sub_cancel_left,
        substr_of_le _ hp.le, h, take_length_takeWhile]
    · rw [if_neg hd, if_neg hd]

theorem nextToken_progress (expr : List Char) (pos : Nat) (tok : Token) (pos' : Nat)
    (h : Tokenizer.nextToken expr pos = .ok (tok, pos')) :
    pos ≤ pos' ∧ (tokenWeight tok.type = 1 → pos < pos' ∧ pos' ≤ expr.length) := by
  rw [nextToken_skip] at h
  have hle := skipWhitespace_le expr pos
  by_cases hq : expr.length ≤ skipWhitespace expr pos
  · rw [nextToken_end hq] at h
    cases h
    exact ⟨hle, fun hw => by simp [tokenWeight] at hw⟩
  · have hq' : skipWhitespace expr pos < expr.length := by omega
    have hd := List.drop_eq_getElem_cons hq'
    have hs := skipWhitespace_not_space expr pos _ _ hd
    have hlen : (expr.drop (skipWhitespace expr pos)).length =
        expr.length - skipWhitespace expr pos := List.length_drop _ _
    rw [nextToken_at expr _ _ _ hd hs] at h
    split_ifs at h with h1 h2 h3 h4 h5 h6 h7 h8
    · cases h
      have hb := (List.takeWhile_sublist (fun x => isalnum x || decide (x = '_'))
        (l := expr[skipWhitespace expr pos] :: expr.drop (skipWhitespace expr pos + 1))).length_le
      have hcr : (expr[skipWhitespace expr pos] ::
          expr.drop (skipWhitespace expr pos + 1)).length =
            expr.length - skipWhitespace expr pos := by
        rw [← hd]
        exact hlen
      have hne : 0 < ((expr[skipWhitespace expr pos] ::
          expr.drop (skipWhitespace expr pos + 1)).takeWhile
            (fun x => isalnum x || decide (x = '_'))).length := by
        rw [List.takeWhile_cons_of_pos (by simp [isalnum, h1])]
        simp
      exact ⟨by omega, fun _ => ⟨by omega, by omega⟩⟩
    · cases h
      exact ⟨by omega, fun hw => by simp [tokenWeight] at hw⟩
    all_goals
      cases h
      exact ⟨by omega, fun _ => ⟨by omega, by omega⟩⟩

theorem nextToken_error (expr : List Char) (pos : Nat) (e : Err)
    (h : Tokenizer.nextToken expr pos = .error e) :
    e = .runtime_error "Unexpected character in expression" := by
  rw [nextToken_skip] at h
  by_cases hq : expr.length ≤ skipWhitespace expr pos
  · rw [nextToken_end hq] at h
    cases h
  · have hq' : skipWhitespace expr pos < expr.length := by omega
    have hd := List.drop_eq_getElem_cons hq'
    have hs := skipWhitespace_not_space expr pos _ _ hd
    rw [nextToken_at expr _ _ _ hd hs] at h
    split_ifs at h
    all_goals cases h
    rfl

theorem advance_remaining (expr : List Char) (st st1 : ParserState)
    (h : ExpressionParser.advance expr st = .ok st1) :
    st1.remaining expr ≤ expr.length - st.pos := by
  simp only [ExpressionParser.advance, bind, Except.bind] at h
  cases ht : Tokenizer.nextToken expr st.pos with
  | error e => rw [ht] at h; cases h
  | ok r =>
    obtain ⟨tok, pos'⟩ := r
    rw [ht] at h
    cases h
    obtain ⟨h1, h2⟩ := nextToken_progress expr _ _ _ ht
    simp only [ParserState.remaining]
    by_cases hw : tokenWeight tok.type = 1
    · have := h2 hw
      omega
    · have : tokenWeight tok.type = 0 := by
        cases htt : tok.type <;> simp [tokenWeight, htt] at hw ⊢
      omega

theorem advance_error (expr : List Char) (st : ParserState) (e : Err)
    (h : ExpressionParser.advance expr st = .error e) : ∃ what, e = .runtime_error what := by
  simp only [ExpressionParser.advance, bind, Except.bind] at h
  cases ht : Tokenizer.nextToken expr st.pos with
  | error e' =>
    rw [ht] at h
    cases h
    exact ⟨_, nextToken_error expr _ _ ht⟩
  | ok r => rw [ht] at h; cases h

/-! ## The expression parser stays within its recursion budget -/

theorem withinBudget_of_runs {α : Type} (expr : List Char)
    (f : Nat → Except Err (α × ParserState)) (F bound : Nat) (res : Except Err (α × ParserState))
    (hrun : ∀ n, n = F ∨ n = F + 1 → f n = res)
    (hres : ∀ e, res = .error e → ∃ what, e = .runtime_error what)
    (hb : ∀ x st, res = .ok (x, st) → ParserState.remaining expr st ≤ bound) :
    WithinBudget expr f F bound := by
  have h0 := hrun F (Or.inl rfl)
  have h1 := hrun (F + 1) (Or.inr rfl)
  refine ⟨fun e h => hres e (by rw [← h0]; exact h),
    fun x st h => hb x st (by rw [← h0]; exact h), ?_⟩
  rw [h0, h1]

theorem withinBudget_runs {α : Type} {expr : List Char}
    {f : Nat → Except Err (α × ParserState)} {F bound : Nat} (h : WithinBudget expr f F bound) :
    ∀ n, n = F ∨ n = F + 1 → f n = f F := by
  rintro n (rfl | rfl)
  · rfl
  · exact h.2.2

theorem remaining_le (expr : List Char) (st : ParserState) :
    expr.length - st.pos ≤ st.remaining expr := by
  simp only [ParserState.remaining]
  omega

theorem remaining_of_weight (expr : List Char) (st : ParserState)
    (h : tokenWeight st.currentToken.type = 1) :
    expr.length - st.pos + 1 = st.remaining expr := by
  simp only [ParserState.remaining, h]

theorem parsePrimary_budget (expr : List Char) (F : Nat)
    (ihE : ∀ st : ParserState, 3 * st.remaining expr + 3 ≤ F →
      WithinBudget expr (fun n => ExpressionParser.parseExpression n expr st) F
        (st.remaining expr)) :
    ∀ st : ParserState, 3 * st.remaining expr + 1 ≤ F + 1 →
      WithinBudget expr (fun n => ExpressionParser.parsePrimary n expr st) (F + 1)
        (st.remaining expr) := by
  intro st hF
  by_cases h1 : st.currentToken.type = .NUMBER ∨ st.currentToken.type = .IDENTIFIER
  · cases ha : ExpressionParser.advance expr st with
    | error e =>
      refine withinBudget_of_runs expr _ _ _ (.error e) (fun n hn => ?_)
        (fun _ h => by cases h; exact advance_error _ _ _ ha) (fun _ _ h => by cases h)
      rcases hn with rfl | rfl <;>
        simp only [ExpressionParser.parsePrimary, if_pos h1, ha, bind, Except.bind]
    | ok st1 =>
      have := advance_remaining _ _ _ ha
      have := remaining_le expr st
      refine withinBudget_of_runs expr _ _ _ (.ok (.mk .LITERAL st.currentToken.value [], st1))
        (fun n hn => ?_) (fun _ h => by cases h) (fun _ _ h => by cases h; omega)
      rcases hn with rfl | rfl <;>
        simp only [ExpressionParser.parsePrimary, if_pos h1, ha, bind, Except.bind]
  · by_cases h2 : st.currentToken.type = .LEFT_PAREN
    · cases ha : ExpressionParser.advance expr st with
      | error e =>
        refine withinBudget_of_runs expr _ _ _ (.error e) (fun n hn => ?_)
          (fun _ h => by cases h; exact advance_error _ _ _ ha) (fun _ _ h => by cases h)
        rcases hn with rfl | rfl <;>
          simp only [ExpressionParser.parsePrimary, if_neg h1, if_pos h2, ha, bind, Except.bind]
      | ok st1 =>
        have hr1 := advance_remaining _ _ _ ha
        have hw := remaining_of_weight expr st (by rw [h2]; rfl)
        have hE := ihE st1 (by omega)
        have e3 := hE.2.2
        dsimp only at e3
        cases hr : ExpressionParser.parseExpression F expr st1 with
        | error e =>
          refine withinBudget_of_runs expr _ _ _ (.error e) (fun n hn => ?_)
            (fun _ h => by cases h; exact hE.1 _ hr) (fun _ _ h => by cases h)
          rcases hn with rfl | rfl <;>
            simp only [ExpressionParser.parsePrimary, if_neg h1, if_pos h2, ha, e3, hr, bind,
              Except.bind]
        | ok r =>
          obtain ⟨node, st2⟩ := r
          have hr2 := hE.2.1 _ _ hr
          by_cases h3 : st2.currentToken.type ≠ .RIGHT_PAREN
          · refine withinBudget_of_runs expr _ _ _ (.error (.runtime_error "Expected ')'"))
              (fun n hn => ?_) (fun _ h => by cases h; exact ⟨_, rfl⟩) (fun _ _ h => by cases h)
            rcases hn with rfl | rfl <;>
              simp only [ExpressionParser.parsePrimary, if_neg h1, if_pos h2, ha, e3, hr, bind,
                Except.bind, if_pos h3]
          · cases ha2 : ExpressionParser.advance expr st2 with
            | error e =>
              refine withinBudget_of_runs expr _ _ _ (.error e) (fun n hn => ?_)
                (fun _ h => by cases h; exact advance_error _ _ _ ha2) (fun _ _ h => by cases h)
              rcases hn with rfl | rfl <;>
                simp only [ExpressionParser.parsePrimary, if_neg h1, if_pos h2, ha, e3, hr, bind,
                  Except.bind, if_neg h3, ha2]
            | ok st3 =>
              have := advance_remaining _ _ _ ha2
              have := remaining_le expr st2
              refine withinBudget_of_runs expr _ _ _ (.ok (node, st3)) (fun n hn => ?_)
                (fun _ h => by cases h) (fun _ _ h => by cases h; omega)
              rcases hn with rfl | rfl <;>
                simp only [ExpressionParser.parsePrimary, if_neg h1, if_pos h2, ha, e3, hr, bind,
                  Except.bind, if_neg h3, ha2]
    · refine withinBudget_of_runs expr _ _ _ (.error (.runtime_error "Invalid expression"))
        (fun n hn => ?_) (fun _ h => by cases h; exact ⟨_, rfl⟩) (fun _ _ h => by cases h)
      rcases hn with rfl | rfl <;>
        simp only [ExpressionParser.parsePrimary, if_neg h1, if_neg h2]

theorem parseArguments_succ (fuel : Nat) (expr : List Char) (children : List AstNode)
    (st : ParserState) :
    ExpressionParser.parseArguments (fuel + 1) expr children st =
      (ExpressionParser.parseExpression fuel expr st).bind (fun r =>
        if r.2.currentToken.type = .RIGHT_PAREN then .ok (children ++ [r.1], r.2)
        else if r.2.currentToken.type ≠ .COMMA then
          .error (.runtime_error "Expected ',' or ')'")
        else (ExpressionParser.advance expr r.2).bind (fun st1 =>
          ExpressionParser.parseArguments fuel expr (children ++ [r.1]) st1)) := by
  simp only [ExpressionParser.parseArguments, bind]

theorem parsePostfix_succ (fuel : Nat) (expr : List Char) (node : AstNode) (st : ParserState) :
    ExpressionParser.parsePostfix (fuel + 1) expr node st =
      if st.currentToken.type = .LEFT_BRACKET ∨ st.currentToken.type = .DOT then
        if st.currentToken.type = .LEFT_BRACKET then
          (ExpressionParser.advance expr st).bind (fun st1 =>
            (ExpressionParser.parseExpression fuel expr st1).bind (fun r =>
              if r.2.currentToken.type ≠ .RIGHT_BRACKET then
                .error (.runtime_error "Expected ']'")
              else (ExpressionParser.advance expr r.2).bind (fun st2 =>
                ExpressionParser.parsePostfix fuel expr (.mk .SUBSCRIPT [] [node, r.1]) st2)))
        else
          (ExpressionParser.advance expr st).bind (fun st1 =>
            if st1.currentToken.type ≠ .IDENTIFIER then
              .error (.runtime_error "Expected an identifier after '.'")
            else (ExpressionParser.advance expr st1).bind (fun st2 =>
              ExpressionParser.parsePostfix fuel expr
                (.mk .MEMBER_ACCESS st1.currentToken.value [node]) st2))
      else .ok (node, st) := by
  simp only [ExpressionParser.parsePostfix, bind]

theorem parseExpression_budget (expr : List Char) (F : Nat)
    (ihFC : ∀ st : ParserState, 3 * st.remaining expr + 2 ≤ F →
      WithinBudget expr (fun n => ExpressionParser.parseFunctionCall n expr st) F
        (st.remaining expr))
    (ihPF : ∀ (node : AstNode) (st : ParserState), 3 * st.remaining expr + 2 ≤ F →
      WithinBudget expr (fun n => ExpressionParser.parsePostfix n expr node st) F
        (st.remaining expr)) :
    ∀ st : ParserState, 3 * st.remaining expr + 3 ≤ F + 1 →
      WithinBudget expr (fun n => ExpressionParser.parseExpression n expr st) (F + 1)
        (st.remaining expr) := by
  intro st hF
  have hFC := ihFC st (by omega)
  have e3 := hFC.2.2
  dsimp only at e3
  cases hr : ExpressionParser.parseFunctionCall F expr st with
  | error e =>
    refine withinBudget_of_runs expr _ _ _ (.error e) (fun n hn => ?_)
      (fun _ h => by cases h; exact hFC.1 _ hr) (fun _ _ h => by cases h)
    rcases hn with rfl | rfl <;>
      simp only [ExpressionParser.parseExpression, e3, hr, bind, Except.bind]
  | ok r =>
    obtain ⟨node, st1⟩ := r
    have hr1 := hFC.2.1 _ _ hr
    have hPF := ihPF node st1 (by omega)
    have p3 := hPF.2.2
    dsimp only at p3
    refine withinBudget_of_runs expr _ _ _ (ExpressionParser.parsePostfix F expr node st1)
      (fun n hn => ?_) hPF.1 (fun x st' h => le_trans (hPF.2.1 x st' h) hr1)
    rcases hn with rfl | rfl <;>
      simp only [ExpressionParser.parseExpression, e3, hr, bind, Except.bind, p3]

theorem parseArguments_budget (expr : List Char) (F : Nat)
    (ihE : ∀ st : ParserState, 3 * st.remaining expr + 3 ≤ F →
      WithinBudget expr (fun n => ExpressionParser.parseExpression n expr st) F
        (st.remaining expr))
    (ihA : ∀ (children : List AstNode) (st : ParserState), 3 * st.remaining expr + 4 ≤ F →
      WithinBudget expr (fun n => ExpressionParser.parseArguments n expr children st) F
        (st.remaining expr)) :
    ∀ (children : List AstNode) (st : ParserState), 3 * st.remaining expr + 4 ≤ F + 1 →
      WithinBudget expr (fun n => ExpressionParser.parseArguments n expr children st) (F + 1)
        (st.remaining expr) := by
  intro children st hF
  have hE := ihE st (by omega)
  have e3 := hE.2.2
  dsimp only at e3
  cases hr : ExpressionParser.parseExpression F expr st with
  | error e =>
    refine withinBudget_of_runs expr _ _ _ (.error e) (fun n hn => ?_)
      (fun _ h => by cases h; exact hE.1 _ hr) (fun _ _ h => by cases h)
    rcases hn with rfl | rfl <;>
      simp only [ExpressionParser.parseArguments, e3, hr, bind, Except.bind]
  | ok r =>
    obtain ⟨node, st1⟩ := r
    have hr1 := hE.2.1 _ _ hr
    by_cases h1 : st1.currentToken.type = .RIGHT_PAREN
    · refine withinBudget_of_runs expr _ _ _ (.ok (children ++ [node], st1)) (fun n hn => ?_)
        (fun _ h => by cases h) (fun _ _ h => by cases h; exact hr1)
      rcases hn with rfl | rfl <;>
        simp only [ExpressionParser.parseArguments, e3, hr, bind, Except.bind, if_pos h1]
    · by_cases h2 : st1.currentToken.type ≠ .COMMA
      · refine withinBudget_of_runs expr _ _ _ (.error (.runtime_error "Expected ',' or ')'"))
          (fun n hn => ?_) (fun _ h => by cases h; exact ⟨_, rfl⟩) (fun _ _ h => by cases h)
        rcases hn with rfl | rfl <;>
          simp only [ExpressionParser.parseArguments, e3, hr, bind, Except.bind, if_neg h1,
            if_pos h2]
      · have hw := remaining_of_weight expr st1 (by rw [not_not.1 h2]; rfl)
        cases ha : ExpressionParser.advance expr st1 with
        | error e =>
          refine withinBudget_of_runs expr _ _ _ (.error e) (fun n hn => ?_)
            (fun _ h => by cases h; exact advance_error _ _ _ ha) (fun _ _ h => by cases h)
          rcases hn with rfl | rfl <;>
            simp only [ExpressionParser.parseArguments, e3, hr, bind, Except.bind, if_neg h1,
              if_neg h2, ha]
        | ok st2 =>
          have hr2 := advance_remaining _ _ _ ha
          have hA := ihA (children ++ [node]) st2 (by omega)
          have a3 := hA.2.2
          dsimp only at a3
          refine withinBudget_of_runs expr _ _ _
            (ExpressionParser.parseArguments F expr (children ++ [node]) st2)
            (fun n hn => ?_) hA.1 (fun x st' h => le_trans (hA.2.1 x st' h) (by omega))
          rcases hn with rfl | rfl
          · simp only [ExpressionParser.parseArguments, e3, hr, bind, Except.bind, if_neg h1,
              if_neg h2, ha]
          · rw [parseArguments_succ]
            simp only [e3, hr, bind, Except.bind, if_neg h1, if_neg h2, ha, a3]

theorem parsePostfix_budget (expr : List Char) (F : Nat)
    (ihE : ∀ st : ParserState, 3 * st.remaining expr + 3 ≤ F →
      WithinBudget expr (fun n => ExpressionParser.parseExpression n expr st) F
        (st.remaining expr))
    (ihPF : ∀ (node : AstNode) (st : ParserState), 3 * st.remaining expr + 2 ≤ F →
      WithinBudget expr (fun n => ExpressionParser.parsePostfix n expr node st) F
        (st.remaining expr)) :
    ∀ (node : AstNode) (st : ParserState), 3 * st.remaining expr + 2 ≤ F + 1 →
      WithinBudget expr (fun n => ExpressionParser.parsePostfix n expr node st) (F + 1)
        (st.remaining expr) := by
  intro node st hF
  by_cases h1 : st.currentToken.type = .LEFT_BRACKET ∨ st.currentToken.type = .DOT
  · have hw := remaining_of_weight expr st (by rcases h1 with h | h <;> rw [h] <;> rfl)
    cases ha : ExpressionParser.advance expr st with
    | error e =>
      refine withinBudget_of_runs expr _ _ _ (.error e) (fun n hn => ?_)
        (fun _ h => by cases h; exact advance_error _ _ _ ha) (fun _ _ h => by cases h)
      rcases hn with rfl | rfl <;>
        simp only [ExpressionParser.parsePostfix, if_pos h1, ha, bind, Except.bind, ite_self]
    | ok st1 =>
      have hr1 := advance_remaining _ _ _ ha
      by_cases h2 : st.currentToken.type = .LEFT_BRACKET
      · have hE := ihE st1 (by omega)
        have e3 := hE.2.2
        dsimp only at e3
        cases hr : ExpressionParser.parseExpression F expr st1 with
        | error e =>
          refine withinBudget_of_runs expr _ _ _ (.error e) (fun n hn => ?_)
            (fun _ h => by cases h; exact hE.1 _ hr) (fun _ _ h => by cases h)
          rcases hn with rfl | rfl <;>
            simp only [ExpressionParser.parsePostfix, if_pos h1, if_pos h2, ha, e3, hr, bind,
              Except.bind]
        | ok r =>
          obtain ⟨idx, st2⟩ := r
          have hr2 := hE.2.1 _ _ hr
          by_cases h3 : st2.currentToken.type ≠ .RIGHT_BRACKET
          · refine withinBudget_of_runs expr _ _ _ (.error (.runtime_error "Expected ']'"))
              (fun n hn => ?_) (fun _ h => by cases h; exact ⟨_, rfl⟩) (fun _ _ h => by cases h)
            rcases hn with rfl | rfl <;>
              simp only [ExpressionParser.parsePostfix, if_pos h1, if_pos h2, ha, e3, hr, bind,
                Except.bind, if_pos h3]
          · have hw2 := remaining_of_weight expr st2 (by rw [not_not.1 h3]; rfl)
            cases ha2 : ExpressionParser.advance expr st2 with
            | error e =>
              refine withinBudget_of_runs expr _ _ _ (.error e) (fun n hn => ?_)
                (fun _ h => by cases h; exact advance_error _ _ _ ha2) (fun _ _ h => by cases h)
              rcases hn with rfl | rfl <;>
                simp only [ExpressionParser.parsePostfix, if_pos h1, if_pos h2, ha, e3, hr, bind,
                  Except.bind, if_neg h3, ha2]
            | ok st3 =>
              have hr3 := advance_remaining _ _ _ ha2
              have hPF := ihPF (.mk .SUBSCRIPT [] [node, idx]) st3 (by omega)
              have p3 := hPF.2.2
              dsimp only at p3
              refine withinBudget_of_runs expr _ _ _
                (ExpressionParser.parsePostfix F expr (.mk .SUBSCRIPT [] [node, idx]) st3)
                (fun n hn => ?_) hPF.1 (fun x st' h => le_trans (hPF.2.1 x st' h) (by omega))
              rcases hn with rfl | rfl
              · simp only [ExpressionParser.parsePostfix, if_pos h1, if_pos h2, ha, e3, hr, bind,
                  Except.bind, if_neg h3, ha2]
              · rw [parsePostfix_succ]
                simp only [if_pos h1, if_pos h2, ha, e3, hr, bind, Except.bind, if_neg h3, ha2,
                  p3]
      · by_cases h3 : st1.currentToken.type ≠ .IDENTIFIER
        · refine withinBudget_of_runs expr _ _ _
            (.error (.runtime_error "Expected an identifier after '.'"))
            (fun n hn => ?_) (fun _ h => by cases h; exact ⟨_, rfl⟩) (fun _ _ h => by cases h)
          rcases hn with rfl | rfl <;>
            simp only [ExpressionParser.parsePostfix, if_pos h1, if_neg h2, ha, bind,
              Except.bind, if_pos h3]
        · have hw1 := remaining_of_weight expr st1 (by rw [not_not.1 h3]; rfl)
          cases ha2 : ExpressionParser.advance expr st1 with
          | error e =>
            refine withinBudget_of_runs expr _ _ _ (.error e) (fun n hn => ?_)
              (fun _ h => by cases h; exact advance_error _ _ _ ha2) (fun _ _ h => by cases h)
            rcases hn with rfl | rfl <;>
              simp only [ExpressionParser.parsePostfix, if_pos h1, if_neg h2, ha, bind,
                Except.bind, if_neg h3, ha2]
          | ok st2 =>
            have hr2 := advance_remaining _ _ _ ha2
            have hPF := ihPF (.mk .MEMBER_ACCESS st1.currentToken.value [node]) st2 (by omega)
            have p3 := hPF.2.2
            dsimp only at p3
            refine withinBudget_of_runs expr _ _ _
              (ExpressionParser.parsePostfix F expr
                (.mk .MEMBER_ACCESS st1.currentToken.value [node]) st2)
              (fun n hn => ?_) hPF.1 (fun x st' h => le_trans (hPF.2.1 x st' h) (by omega))
            rcases hn with rfl | rfl
            · simp only [ExpressionParser.parsePostfix, if_pos h1, if_neg h2, ha, bind,
                Except.bind, if_neg h3, ha2]
            · rw [parsePostfix_succ]
              simp only [if_pos h1, if_neg h2, ha, bind, Except.bind, if_neg h3, ha2, p3]
  · refine withinBudget_of_runs expr _ _ _ (.ok (node, st)) (fun n hn => ?_)
      (fun _ h => by cases h) (fun _ _ h => by cases h; exact le_refl _)
    rcases hn with rfl | rfl <;>
      simp only [ExpressionParser.parsePostfix, if_neg h1]

theorem parseFunctionCall_budget (expr : List Char) (F : Nat)
    (ihP : ∀ st : ParserState, 3 * st.remaining expr + 1 ≤ F →
      WithinBudget expr (fun n => ExpressionParser.parsePrimary n expr st) F
        (st.remaining expr))
    (ihA : ∀ (children : List AstNode) (st : ParserState), 3 * st.remaining expr + 4 ≤ F →
      WithinBudget expr (fun n => ExpressionParser.parseArguments n expr children st) F
        (st.remaining expr)) :
    ∀ st : ParserState, 3 * st.remaining expr + 2 ≤ F + 1 →
      WithinBudget expr (fun n => ExpressionParser.parseFunctionCall n expr st) (F + 1)
        (st.remaining expr) := by
  intro st hF
  by_cases h1 : st.currentToken.type = .IDENTIFIER
  · have hw := remaining_of_weight expr st (by rw [h1]; rfl)
    cases ha : ExpressionParser.advance expr st with
    | error e =>
      refine withinBudget_of_runs expr _ _ _ (.error e) (fun n hn => ?_)
        (fun _ h => by cases h; exact advance_error _ _ _ ha) (fun _ _ h => by cases h)
      rcases hn with rfl | rfl <;>
        simp only [ExpressionParser.parseFunctionCall, if_pos h1, ha, bind, Except.bind]
    | ok st1 =>
      have hr1 := advance_remaining _ _ _ ha
      by_cases h2 : st1.currentToken.type = .LEFT_PAREN
      · have hw1 := remaining_of_weight expr st1 (by rw [h2]; rfl)
        cases ha2 : ExpressionParser.advance expr st1 with
        | error e =>
          refine withinBudget_of_runs expr _ _ _ (.error e) (fun n hn => ?_)
            (fun _ h => by cases h; exact advance_error _ _ _ ha2) (fun _ _ h => by cases h)
          rcases hn with rfl | rfl <;>
            simp only [ExpressionParser.parseFunctionCall, if_pos h1, ha, bind, Except.bind,
              if_pos h2, ha2]
        | ok st2 =>
          have hr2 := advance_remaining _ _ _ ha2
          by_cases h3 : st2.currentToken.type ≠ .RIGHT_PAREN
          · have hA := ihA [] st2 (by omega)
            have a3 := hA.2.2
            dsimp only at a3
            cases hr : ExpressionParser.parseArguments F expr [] st2 with
            | error e =>
              refine withinBudget_of_runs expr _ _ _ (.error e) (fun n hn => ?_)
                (fun _ h => by cases h; exact hA.1 _ hr) (fun _ _ h => by cases h)
              rcases hn with rfl | rfl <;>
                simp only [ExpressionParser.parseFunctionCall, if_pos h1, ha, bind, Except.bind,
                  if_pos h2, ha2, if_pos h3, a3, hr]
            | ok r =>
              obtain ⟨children, st3⟩ := r
              have hr3 := hA.2.1 _ _ hr
              cases ha3 : ExpressionParser.advance expr st3 with
              | error e =>
                refine withinBudget_of_runs expr _ _ _ (.error e) (fun n hn => ?_)
                  (fun _ h => by cases h; exact advance_error _ _ _ ha3)
                  (fun _ _ h => by cases h)
                rcases hn with rfl | rfl <;>
                  simp only [ExpressionParser.parseFunctionCall, if_pos h1, ha, bind,
                    Except.bind, if_pos h2, ha2, if_pos h3, a3, hr, ha3]
              | ok st4 =>
                have hr4 := advance_remaining _ _ _ ha3
                have := remaining_le expr st3
                refine withinBudget_of_runs expr _ _ _
                  (.ok (.mk .FUNCTION_CALL st.currentToken.value children, st4))
                  (fun n hn => ?_) (fun _ h => by cases h) (fun _ _ h => by cases h; omega)
                rcases hn with rfl | rfl <;>
                  simp only [ExpressionParser.parseFunctionCall, if_pos h1, ha, bind,
                    Except.bind, if_pos h2, ha2, if_pos h3, a3, hr, ha3]
          · cases ha3 : ExpressionParser.advance expr st2 with
            | error e =>
              refine withinBudget_of_runs expr _ _ _ (.error e) (fun n hn => ?_)
                (fun _ h => by cases h; exact advance_error _ _ _ ha3) (fun _ _ h => by cases h)
              rcases hn with rfl | rfl <;>
                simp only [ExpressionParser.parseFunctionCall, if_pos h1, ha, bind, Except.bind,
                  if_pos h2, ha2, if_neg h3, ha3]
            | ok st3 =>
              have hr3 := advance_remaining _ _ _ ha3
              have := remaining_le expr st2
              refine withinBudget_of_runs expr _ _ _
                (.ok (.mk .FUNCTION_CALL st.currentToken.value [], st3))
                (fun n hn => ?_) (fun _ h => by cases h) (fun _ _ h => by cases h; omega)
              rcases hn with rfl | rfl <;>
                simp only [ExpressionParser.parseFunctionCall, if_pos h1, ha, bind, Except.bind,
                  if_pos h2, ha2, if_neg h3, ha3]
      · refine withinBudget_of_runs expr _ _ _
          (.ok (.mk .IDENTIFIER st.currentToken.value [], st1))
          (fun n hn => ?_) (fun _ h => by cases h) (fun _ _ h => by cases h; omega)
        rcases hn with rfl | rfl <;>
          simp only [ExpressionParser.parseFunctionCall, if_pos h1, ha, bind, Except.bind,
            if_neg h2]
  · have hP := ihP st (by omega)
    have p3 := hP.2.2
    dsimp only at p3
    refine withinBudget_of_runs expr _ _ _ (ExpressionParser.parsePrimary F expr st)
      (fun n hn => ?_) hP.1 hP.2.1
    rcases hn with rfl | rfl <;>
      simp only [ExpressionParser.parseFunctionCall, if_neg h1, p3]

/-- Every method of the expression parser stays within a recursion budget of
three calls for each remaining character, plus a constant. -/
theorem parser_budget (expr : List Char) :
    ∀ F : Nat,
      (∀ st : ParserState, 3 * st.remaining expr + 3 ≤ F →
        WithinBudget expr (fun n => ExpressionParser.parseExpression n expr st) F
          (st.remaining expr)) ∧
      (∀ st : ParserState, 3 * st.remaining expr + 2 ≤ F →
        WithinBudget expr (fun n => ExpressionParser.parseFunctionCall n expr st) F
          (st.remaining expr)) ∧
      (∀ st : ParserState, 3 * st.remaining expr + 1 ≤ F →
        WithinBudget expr (fun n => ExpressionParser.parsePrimary n expr st) F
          (st.remaining expr)) ∧
      (∀ (node : AstNode) (st : ParserState), 3 * st.remaining expr + 2 ≤ F →
        WithinBudget expr (fun n => ExpressionParser.parsePostfix n expr node st) F
          (st.remaining expr)) ∧
      (∀ (children : List AstNode) (st : ParserState), 3 * st.remaining expr + 4 ≤ F →
        WithinBudget expr (fun n => ExpressionParser.parseArguments n expr children st) F
          (st.remaining expr)) := by
  intro F
  induction F with
  | zero =>
    refine ⟨?_, ?_, ?_, ?_, ?_⟩ <;> intros <;> omega
  | succ F ih =>
    obtain ⟨ihE, ihFC, ihP, ihPF, ihA⟩ := ih
    exact ⟨parseExpression_budget expr F ihFC ihPF, parseFunctionCall_budget expr F ihP ihA,
      parsePrimary_budget expr F ihE, parsePostfix_budget expr F ihE ihPF,
      parseArguments_budget expr F ihE ihA⟩

/-- With a budget of three calls for each remaining character, plus three,
`parseExpression` returns or throws a `std::runtime_error`, and every larger
budget gives the same result. -/
theorem parseExpression_stable (expr : List Char) (st : ParserState) (F : Nat)
    (hF : 3 * st.remaining expr + 3 ≤ F) :
    (∀ e, ExpressionParser.parseExpression F expr st = .error e →
        ∃ what, e = .runtime_error what) ∧
      ∀ F', F ≤ F' →
        ExpressionParser.parseExpression F' expr st =
          ExpressionParser.parseExpression F expr st := by
  refine ⟨((parser_budget expr F).1 st hF).1, fun F' hF' => ?_⟩
  induction F' with
  | zero =>
    have : F = 0 := by omega
    rw [this]
  | succ n ih =>
    by_cases hn : F ≤ n
    · rw [← ih hn]
      exact ((parser_budget expr n).1 st (by omega)).2.2
    · have : F = n + 1 := by omega
      rw [this]

/-! ## An expression inside a subscript -/

theorem drop_in_context (p e tail : List Char) (k : Nat) (hk : k ≤ e.length) :
    (p ++ (e ++ tail)).drop (p.length + k) = e.drop k ++ tail := by
  rw [List.drop_append, List.drop_append_of_le_length hk]

/-- A token of `e` is the same token of `p ++ e ++ "]" ++ rest`, and the end
of `e` is the closing bracket. -/
theorem nextToken_in_context (p e rest : List Char) (k : Nat) (hk : k ≤ e.length)
    (tok : Token) (k' : Nat) (h : Tokenizer.nextToken e k = .ok (tok, k')) :
    Tokenizer.nextToken (p ++ (e ++ ']' :: rest)) (p.length + k) =
        .ok (if tok.type = .END then (⟨.RIGHT_BRACKET, [']']⟩, p.length + e.length + 1)
          else (tok, p.length + k')) ∧
      k' ≤ e.length := by
  have hdrop := drop_in_context p e (']' :: rest) k hk
  have hsplit := (List.takeWhile_append_dropWhile isspace (e.drop k)).symm
  have hws : ∀ c ∈ (e.drop k).takeWhile isspace, isspace c = true :=
    fun c hc => List.mem_takeWhile_imp hc
  have hq : skipWhitespace e k = k + ((e.drop k).takeWhile isspace).length :=
    scanWhile_eq isspace e _ k (le_refl _)
  have hqd : e.drop (skipWhitespace e k) = (e.drop k).dropWhile isspace := by
    rw [hq]
    exact drop_of_drop_eq_append e k _ _ hsplit
  rw [nextToken_skip] at h
  rw [hsplit, List.append_assoc] at hdrop
  rw [nextToken_whitespace _ _ _ _ hdrop hws]
  have hdrop2 := drop_of_drop_eq_append _ _ _ _ hdrop
  cases htl : (e.drop k).dropWhile isspace with
  | nil =>
    rw [htl] at hqd hdrop2
    have hlen : e.length ≤ skipWhitespace e k := by
      by_contra hn
      rw [List.drop_eq_getElem_cons (by omega)] at hqd
      cases hqd
    have hle : skipWhitespace e k ≤ e.length := by
      have := (scanWhile_bounds isspace e k).2 hk
      exact this
    rw [nextToken_end hlen] at h
    cases h
    refine ⟨?_, hle⟩
    rw [if_pos rfl, (nextToken_symbol _ _ hdrop2).2.2.2.2.1 rfl]
    have hpe : p.length + k + ((e.drop k).takeWhile isspace).length =
        p.length + e.length := by omega
    rw [hpe]
  | cons c r =>
    rw [htl] at hqd hdrop2
    have hs := skipWhitespace_not_space e k c r hqd
    have hlt := lt_length_of_drop_eq_cons hqd
    have hcr : (c :: r).length = e.length - skipWhitespace e k := by
      rw [← hqd]
      exact List.length_drop _ _
    have hb1 := (List.takeWhile_sublist (fun x => isalnum x || decide (x = '_'))
      (l := c :: r)).length_le
    have hb2 := (List.takeWhile_sublist (fun x => isdigit x || decide (x = '.'))
      (l := c :: r)).length_le
    have ht1 : (c :: (r ++ ']' :: rest)).takeWhile (fun x => isalnum x || decide (x = '_')) =
        (c :: r).takeWhile (fun x => isalnum x || decide (x = '_')) :=
      takeWhile_append_of_head _ (c :: r) (']' :: rest) (by simp; decide)
    have ht2 : (c :: (r ++ ']' :: rest)).takeWhile (fun x => isdigit x || decide (x = '.')) =
        (c :: r).takeWhile (fun x => isdigit x || decide (x = '.')) :=
      takeWhile_append_of_head _ (c :: r) (']' :: rest) (by simp; decide)
    rw [nextToken_at e _ c r hqd hs] at h
    have hpq : p.length + k + ((e.drop k).takeWhile isspace).length =
        p.length + skipWhitespace e k := by omega
    rw [nextToken_at _ _ c (r ++ ']' :: rest) (by rw [hdrop2]; rfl) hs, ht1, ht2, hpq]
    by_cases h1 : isalpha c = true
    · rw [if_pos h1] at h ⊢
      cases h
      exact ⟨by simp [Nat.add_assoc], by omega⟩
    rw [if_neg h1] at h ⊢
    by_cases h2 : (isdigit c || decide (c = '-')) = true
    · rw [if_pos h2] at h ⊢
      cases h
      exact ⟨by simp [Nat.add_assoc], by omega⟩
    rw [if_neg h2] at h ⊢
    by_cases h3 : c = ','
    · rw [if_pos h3] at h ⊢
      cases h
      exact ⟨by simp [Nat.add_assoc], by omega⟩
    rw [if_neg h3] at h ⊢
    by_cases h4 : c = '('
    · rw [if_pos h4] at h ⊢
      cases h
      exact ⟨by simp [Nat.add_assoc], by omega⟩
    rw [if_neg h4] at h ⊢
    by_cases h5 : c = ')'
    · rw [if_pos h5] at h ⊢
      cases h
      exact ⟨by simp [Nat.add_assoc], by omega⟩
    rw [if_neg h5] at h ⊢
    by_cases h6 : c = '['
    · rw [if_pos h6] at h ⊢
      cases h
      exact ⟨by simp [Nat.add_assoc], by omega⟩
    rw [if_neg h6] at h ⊢
    by_cases h7 : c = ']'
    · rw [if_pos h7] at h ⊢
      cases h
      exact ⟨by simp [Nat.add_assoc], by omega⟩
    rw [if_neg h7] at h ⊢
    by_cases h8 : c = '.'
    · rw [if_pos h8] at h ⊢
      cases h
      exact ⟨by simp [Nat.add_assoc], by omega⟩
    rw [if_neg h8] at h
    cases h

theorem inContext_of_ne (P E : Nat) (st : ParserState) (h : st.currentToken.type ≠ .END) :
    inContext P E st = ⟨P + st.pos, st.currentToken⟩ :=
  if_neg h

theorem inContext_type (P E : Nat) (st : ParserState) (t : TokenType) (h1 : t ≠ .END)
    (h2 : t ≠ .RIGHT_BRACKET) :
    (inContext P E st).currentToken.type = t ↔ st.currentToken.type = t := by
  unfold inContext
  by_cases h : st.currentToken.type = .END
  · rw [if_pos h, h]
    exact ⟨fun h' => absurd h'.symm h2, fun h' => absurd h'.symm h1⟩
  · rw [if_neg h]

theorem inContext_type_bracket (P E : Nat) (st : ParserState)
    (h : st.currentToken.type = .RIGHT_BRACKET) :
    (inContext P E st).currentToken.type = .RIGHT_BRACKET := by
  rw [inContext_of_ne P E st (by rw [h]; decide)]
  exact h

theorem advance_in_context (p e rest : List Char) (st st1 : ParserState) (tok : Token)
    (hpos : st.pos ≤ e.length) (ha : ExpressionParser.advance e st = .ok st1) :
    ExpressionParser.advance (p ++ (e ++ ']' :: rest)) ⟨p.length + st.pos, tok⟩ =
        .ok (inContext p.length e.length st1) ∧
      st1.pos ≤ e.length := by
  simp only [ExpressionParser.advance, bind, Except.bind] at ha ⊢
  cases ht : Tokenizer.nextToken e st.pos with
  | error err => rw [ht] at ha; cases ha
  | ok r =>
    obtain ⟨tok1, k1⟩ := r
    rw [ht] at ha
    cases ha
    obtain ⟨h1, h2⟩ := nextToken_in_context p e rest st.pos hpos tok1 k1 ht
    refine ⟨?_, h2⟩
    rw [h1]
    unfold inContext
    by_cases hend : tok1.type = .END
    · simp only [if_pos hend]
    · simp only [if_neg hend]

theorem parsePrimary_in_context (p e rest : List Char) (F : Nat)
    (ihE : ∀ (st : ParserState) (x : AstNode) (st' : ParserState), st.pos ≤ e.length →
      ExpressionParser.parseExpression F e st = .ok (x, st') →
      ExpressionParser.parseExpression F (p ++ (e ++ ']' :: rest))
          (inContext p.length e.length st) = .ok (x, inContext p.length e.length st') ∧
        st'.pos ≤ e.length) :
    ∀ (st : ParserState) (x : AstNode) (st' : ParserState), st.pos ≤ e.length →
      ExpressionParser.parsePrimary (F + 1) e st = .ok (x, st') →
      ExpressionParser.parsePrimary (F + 1) (p ++ (e ++ ']' :: rest))
          (inContext p.length e.length st) = .ok (x, inContext p.length e.length st') ∧
        st'.pos ≤ e.length := by
  intro st x st' hpos h
  have tR := fun s => inContext_type p.length e.length s .RIGHT_PAREN (by decide) (by decide)
  by_cases h1 : st.currentToken.type = .NUMBER ∨ st.currentToken.type = .IDENTIFIER
  · have hne : st.currentToken.type ≠ .END := by
      rcases h1 with h' | h' <;> rw [h'] <;> decide
    simp only [ExpressionParser.parsePrimary, if_pos h1, bind, Except.bind] at h
    cases ha : ExpressionParser.advance e st with
    | error err => rw [ha] at h; cases h
    | ok st1 =>
      rw [ha] at h
      obtain ⟨a1, a2⟩ := advance_in_context p e rest st st1 st.currentToken hpos ha
      cases h
      refine ⟨?_, a2⟩
      rw [inContext_of_ne _ _ st hne]
      simp only [ExpressionParser.parsePrimary, if_pos h1, a1, bind, Except.bind]
  · by_cases h2 : st.currentToken.type = .LEFT_PAREN
    · have hne : st.currentToken.type ≠ .END := by rw [h2]; decide
      simp only [ExpressionParser.parsePrimary, if_neg h1, if_pos h2, bind, Except.bind] at h
      cases ha : ExpressionParser.advance e st with
      | error err => rw [ha] at h; cases h
      | ok st1 =>
        rw [ha] at h
        dsimp only at h
        obtain ⟨a1, a2⟩ := advance_in_context p e rest st st1 st.currentToken hpos ha
        cases hr : ExpressionParser.parseExpression F e st1 with
        | error err => rw [hr] at h; cases h
        | ok r =>
          obtain ⟨node, st2⟩ := r
          rw [hr] at h
          dsimp only at h
          obtain ⟨e1, e2⟩ := ihE st1 node st2 a2 hr
          by_cases h3 : st2.currentToken.type ≠ .RIGHT_PAREN
          · rw [if_pos h3] at h
            cases h
          · rw [if_neg h3] at h
            have hne2 : st2.currentToken.type ≠ .END := by rw [not_not.1 h3]; decide
            cases ha2 : ExpressionParser.advance e st2 with
            | error err => rw [ha2] at h; cases h
            | ok st3 =>
              rw [ha2] at h
              obtain ⟨b1, b2⟩ := advance_in_context p e rest st2 st3 st2.currentToken e2 ha2
              cases h
              refine ⟨?_, b2⟩
              rw [inContext_of_ne _ _ st hne]
              rw [inContext_of_ne _ _ st2 hne2] at e1
              simp only [ExpressionParser.parsePrimary, if_neg h1, if_pos h2, a1, e1, bind,
                Except.bind, if_neg h3, b1]
    · simp only [ExpressionParser.parsePrimary, if_neg h1, if_neg h2] at h
      cases h

theorem parseExpression_in_context (p e rest : List Char) (F : Nat)
    (ihFC : ∀ (st : ParserState) (x : AstNode) (st' : ParserState), st.pos ≤ e.length →
      ExpressionParser.parseFunctionCall F e st = .ok (x, st') →
      ExpressionParser.parseFunctionCall F (p ++ (e ++ ']' :: rest))
          (inContext p.length e.length st) = .ok (x, inContext p.length e.length st') ∧
        st'.pos ≤ e.length)
    (ihPF : ∀ (node : AstNode) (st : ParserState) (x : AstNode) (st' : ParserState),
      st.pos ≤ e.length →
      ExpressionParser.parsePostfix F e node st = .ok (x, st') →
      ExpressionParser.parsePostfix F (p ++ (e ++ ']' :: rest)) node
          (inContext p.length e.length st) = .ok (x, inContext p.length e.length st') ∧
        st'.pos ≤ e.length) :
    ∀ (st : ParserState) (x : AstNode) (st' : ParserState), st.pos ≤ e.length →
      ExpressionParser.parseExpression (F + 1) e st = .ok (x, st') →
      ExpressionParser.parseExpression (F + 1) (p ++ (e ++ ']' :: rest))
          (inContext p.length e.length st) = .ok (x, inContext p.length e.length st') ∧
        st'.pos ≤ e.length := by
  intro st x st' hpos h
  simp only [ExpressionParser.parseExpression, bind, Except.bind] at h
  cases hr : ExpressionParser.parseFunctionCall F e st with
  | error err => rw [hr] at h; cases h
  | ok r =>
    obtain ⟨node, st1⟩ := r
    rw [hr] at h
    dsimp only at h
    obtain ⟨e1, e2⟩ := ihFC st node st1 hpos hr
    obtain ⟨p1, p2⟩ := ihPF node st1 x st' e2 h
    refine ⟨?_, p2⟩
    simp only [ExpressionParser.parseExpression, e1, bind, Except.bind, p1]

theorem parseArguments_in_context (p e rest : List Char) (F : Nat)
    (ihE : ∀ (st : ParserState) (x : AstNode) (st' : ParserState), st.pos ≤ e.length →
      ExpressionParser.parseExpression F e st = .ok (x, st') →
      ExpressionParser.parseExpression F (p ++ (e ++ ']' :: rest))
          (inContext p.length e.length st) = .ok (x, inContext p.length e.length st') ∧
        st'.pos ≤ e.length)
    (ihA : ∀ (children : List AstNode) (st : ParserState) (x : List AstNode)
      (st' : ParserState), st.pos ≤ e.length →
      ExpressionParser.parseArguments F e children st = .ok (x, st') →
      ExpressionParser.parseArguments F (p ++ (e ++ ']' :: rest)) children
          (inContext p.length e.length st) = .ok (x, inContext p.length e.length st') ∧
        st'.pos ≤ e.length ∧ st'.currentToken.type = .RIGHT_PAREN) :
    ∀ (children : List AstNode) (st : ParserState) (x : List AstNode) (st' : ParserState),
      st.pos ≤ e.length →
      ExpressionParser.parseArguments (F + 1) e children st = .ok (x, st') →
      ExpressionParser.parseArguments (F + 1) (p ++ (e ++ ']' :: rest)) children
          (inContext p.length e.length st) = .ok (x, inContext p.length e.length st') ∧
        st'.pos ≤ e.length ∧ st'.currentToken.type = .RIGHT_PAREN := by
  intro children st x st' hpos h
  rw [parseArguments_succ] at h ⊢
  cases hr : ExpressionParser.parseExpression F e st with
  | error err => rw [hr] at h; cases h
  | ok r =>
    obtain ⟨node, st1⟩ := r
    rw [hr] at h
    simp only [Except.bind] at h
    obtain ⟨e1, e2⟩ := ihE st node st1 hpos hr
    by_cases h1 : st1.currentToken.type = .RIGHT_PAREN
    · rw [if_pos h1] at h
      have hne1 : st1.currentToken.type ≠ .END := by rw [h1]; decide
      have e1' := e1
      rw [inContext_of_ne _ _ st1 hne1] at e1'
      cases h
      refine ⟨?_, e2, h1⟩
      simp only [e1', Except.bind, if_pos h1]
      rw [inContext_of_ne _ _ _ hne1]
    · rw [if_neg h1] at h
      by_cases h2 : st1.currentToken.type ≠ .COMMA
      · rw [if_pos h2] at h
        cases h
      · rw [if_neg h2] at h
        have hne1 : st1.currentToken.type ≠ .END := by rw [not_not.1 h2]; decide
        cases ha : ExpressionParser.advance e st1 with
        | error err => rw [ha] at h; cases h
        | ok st2 =>
          rw [ha] at h
          simp only [Except.bind] at h
          obtain ⟨a1, a2⟩ := advance_in_context p e rest st1 st2 st1.currentToken e2 ha
          obtain ⟨b1, b2, b3⟩ := ihA _ st2 x st' a2 h
          refine ⟨?_, b2, b3⟩
          rw [inContext_of_ne _ _ st1 hne1] at e1
          simp only [e1, Except.bind, if_neg h1, if_neg h2, a1, b1]

theorem parsePostfix_in_context (p e rest : List Char) (F : Nat)
    (ihE : ∀ (st : ParserState) (x : AstNode) (st' : ParserState), st.pos ≤ e.length →
      ExpressionParser.parseExpression F e st = .ok (x, st') →
      ExpressionParser.parseExpression F (p ++ (e ++ ']' :: rest))
          (inContext p.length e.length st) = .ok (x, inContext p.length e.length st') ∧
        st'.pos ≤ e.length)
    (ihPF : ∀ (node : AstNode) (st : ParserState) (x : AstNode) (st' : ParserState),
      st.pos ≤ e.length →
      ExpressionParser.parsePostfix F e node st = .ok (x, st') →
      ExpressionParser.parsePostfix F (p ++ (e ++ ']' :: rest)) node
          (inContext p.length e.length st) = .ok (x, inContext p.length e.length st') ∧
        st'.pos ≤ e.length) :
    ∀ (node : AstNode) (st : ParserState) (x : AstNode) (st' : ParserState),
      st.pos ≤ e.length →
      ExpressionParser.parsePostfix (F + 1) e node st = .ok (x, st') →
      ExpressionParser.parsePostfix (F + 1) (p ++ (e ++ ']' :: rest)) node
          (inContext p.length e.length st) = .ok (x, inContext p.length e.length st') ∧
        st'.pos ≤ e.length := by
  intro node st x st' hpos h
  have tB := inContext_type p.length e.length st .LEFT_BRACKET (by decide) (by decide)
  have tD := inContext_type p.length e.length st .DOT (by decide) (by decide)
  rw [parsePostfix_succ] at h ⊢
  by_cases h1 : st.currentToken.type = .LEFT_BRACKET ∨ st.currentToken.type = .DOT
  · have hne : st.currentToken.type ≠ .END := by
      rcases h1 with h' | h' <;> rw [h'] <;> decide
    rw [if_pos h1] at h
    rw [inContext_of_ne _ _ st hne]
    cases ha : ExpressionParser.advance e st with
    | error err => rw [ha] at h; simp only [Except.bind, ite_self] at h; cases h
    | ok st1 =>
      rw [ha] at h
      simp only [Except.bind] at h
      obtain ⟨a1, a2⟩ := advance_in_context p e rest st st1 st.currentToken hpos ha
      by_cases h2 : st.currentToken.type = .LEFT_BRACKET
      · rw [if_pos h2] at h
        cases hr : ExpressionParser.parseExpression F e st1 with
        | error err => rw [hr] at h; cases h
        | ok r =>
          obtain ⟨idx, st2⟩ := r
          rw [hr] at h
          dsimp only at h
          obtain ⟨e1, e2⟩ := ihE st1 idx st2 a2 hr
          by_cases h3 : st2.currentToken.type ≠ .RIGHT_BRACKET
          · rw [if_pos h3] at h
            cases h
          · rw [if_neg h3] at h
            have hne2 : st2.currentToken.type ≠ .END := by rw [not_not.1 h3]; decide
            cases ha2 : ExpressionParser.advance e st2 with
            | error err => rw [ha2] at h; cases h
            | ok st3 =>
              rw [ha2] at h
              dsimp only at h
              obtain ⟨b1, b2⟩ := advance_in_context p e rest st2 st3 st2.currentToken e2 ha2
              obtain ⟨c1, c2⟩ := ihPF _ st3 x st' b2 h
              refine ⟨?_, c2⟩
              rw [inContext_of_ne _ _ st2 hne2] at e1
              simp only [if_pos h1, if_pos h2, a1, e1, Except.bind, if_neg h3, b1, c1]
      · rw [if_neg h2] at h
        by_cases h3 : st1.currentToken.type ≠ .IDENTIFIER
        · rw [if_pos h3] at h
          cases h
        · rw [if_neg h3] at h
          have hne1 : st1.currentToken.type ≠ .END := by rw [not_not.1 h3]; decide
          cases ha2 : ExpressionParser.advance e st1 with
          | error err => rw [ha2] at h; cases h
          | ok st2 =>
            rw [ha2] at h
            dsimp only at h
            obtain ⟨b1, b2⟩ := advance_in_context p e rest st1 st2 st1.currentToken a2 ha2
            obtain ⟨c1, c2⟩ := ihPF _ st2 x st' b2 h
            refine ⟨?_, c2⟩
            rw [inContext_of_ne _ _ st1 hne1] at a1
            simp only [if_pos h1, if_neg h2, a1, Except.bind, if_neg h3, b1, c1]
  · rw [if_neg h1] at h
    cases h
    have h1' : ¬((inContext p.length e.length st).currentToken.type = .LEFT_BRACKET ∨
        (inContext p.length e.length st).currentToken.type = .DOT) := by
      rw [tB, tD]
      exact h1
    rw [if_neg h1']
    exact ⟨rfl, hpos⟩

theorem parseFunctionCall_in_context (p e rest : List Char) (F : Nat)
    (ihP : ∀ (st : ParserState) (x : AstNode) (st' : ParserState), st.pos ≤ e.length →
      ExpressionParser.parsePrimary F e st = .ok (x, st') →
      ExpressionParser.parsePrimary F (p ++ (e ++ ']' :: rest))
          (inContext p.length e.length st) = .ok (x, inContext p.length e.length st') ∧
        st'.pos ≤ e.length)
    (ihA : ∀ (children : List AstNode) (st : ParserState) (x : List AstNode)
      (st' : ParserState), st.pos ≤ e.length →
      ExpressionParser.parseArguments F e children st = .ok (x, st') →
      ExpressionParser.parseArguments F (p ++ (e ++ ']' :: rest)) children
          (inContext p.length e.length st) = .ok (x, inContext p.length e.length st') ∧
        st'.pos ≤ e.length ∧ st'.currentToken.type = .RIGHT_PAREN) :
    ∀ (st : ParserState) (x : AstNode) (st' : ParserState), st.pos ≤ e.length →
      ExpressionParser.parseFunctionCall (F + 1) e st = .ok (x, st') →
      ExpressionParser.parseFunctionCall (F + 1) (p ++ (e ++ ']' :: rest))
          (inContext p.length e.length st) = .ok (x, inContext p.length e.length st') ∧
        st'.pos ≤ e.length := by
  intro st x st' hpos h
  have tI := inContext_type p.length e.length st .IDENTIFIER (by decide) (by decide)
  have tL := fun s => inContext_type p.length e.length s .LEFT_PAREN (by decide) (by decide)
  have tR := fun s => inContext_type p.length e.length s .RIGHT_PAREN (by decide) (by decide)
  by_cases h1 : st.currentToken.type = .IDENTIFIER
  · have hne : st.currentToken.type ≠ .END := by rw [h1]; decide
    simp only [ExpressionParser.parseFunctionCall, if_pos h1, bind, Except.bind] at h
    cases ha : ExpressionParser.advance e st with
    | error err => rw [ha] at h; cases h
    | ok st1 =>
      rw [ha] at h
      dsimp only at h
      obtain ⟨a1, a2⟩ := advance_in_context p e rest st st1 st.currentToken hpos ha
      by_cases h2 : st1.currentToken.type = .LEFT_PAREN
      · rw [if_pos h2] at h
        have hne1 : st1.currentToken.type ≠ .END := by rw [h2]; decide
        cases ha2 : ExpressionParser.advance e st1 with
        | error err => rw [ha2] at h; cases h
        | ok st2 =>
          rw [ha2] at h
          dsimp only at h
          obtain ⟨b1, b2⟩ := advance_in_context p e rest st1 st2 st1.currentToken a2 ha2
          rw [inContext_of_ne _ _ st1 hne1] at a1
          by_cases h3 : st2.currentToken.type ≠ .RIGHT_PAREN
          · rw [if_pos h3] at h
            have h3' : (inContext p.length e.length st2).currentToken.type ≠ .RIGHT_PAREN := by
              rw [Ne, tR]
              exact h3
            cases hr : ExpressionParser.parseArguments F e [] st2 with
            | error err => rw [hr] at h; cases h
            | ok r =>
              obtain ⟨children, st3⟩ := r
              rw [hr] at h
              dsimp only at h
              obtain ⟨c1, c2, c3⟩ := ihA [] st2 children st3 b2 hr
              have hne3 : st3.currentToken.type ≠ .END := by rw [c3]; decide
              cases ha3 : ExpressionParser.advance e st3 with
              | error err => rw [ha3] at h; cases h
              | ok st4 =>
                rw [ha3] at h
                obtain ⟨d1, d2⟩ := advance_in_context p e rest st3 st4 st3.currentToken c2 ha3
                cases h
                refine ⟨?_, d2⟩
                rw [inContext_of_ne _ _ st hne]
                rw [inContext_of_ne _ _ st3 hne3] at c1
                simp only [ExpressionParser.parseFunctionCall, if_pos h1, a1, bind, Except.bind,
                  if_pos h2, b1, if_pos h3', c1, d1]
          · rw [if_neg h3] at h
            have hne2 : st2.currentToken.type ≠ .END := by rw [not_not.1 h3]; decide
            cases ha3 : ExpressionParser.advance e st2 with
            | error err => rw [ha3] at h; cases h
            | ok st3 =>
              rw [ha3] at h
              obtain ⟨d1, d2⟩ := advance_in_context p e rest st2 st3 st2.currentToken b2 ha3
              cases h
              refine ⟨?_, d2⟩
              rw [inContext_of_ne _ _ st hne]
              rw [inContext_of_ne _ _ st2 hne2] at b1
              simp only [ExpressionParser.parseFunctionCall, if_pos h1, a1, bind, Except.bind,
                if_pos h2, b1, if_neg h3, d1]
      · rw [if_neg h2] at h
        have h2' : ¬(inContext p.length e.length st1).currentToken.type = .LEFT_PAREN := by
          rw [tL]
          exact h2
        cases h
        refine ⟨?_, a2⟩
        rw [inContext_of_ne _ _ st hne]
        simp only [ExpressionParser.parseFunctionCall, if_pos h1, a1, bind, Except.bind,
          if_neg h2']
  · simp only [ExpressionParser.parseFunctionCall, if_neg h1] at h
    obtain ⟨p1, p2⟩ := ihP st x st' hpos h
    refine ⟨?_, p2⟩
    have h1' : ¬(inContext p.length e.length st).currentToken.type = .IDENTIFIER := by
      rw [tI]
      exact h1
    simp only [ExpressionParser.parseFunctionCall, if_neg h1', p1]

/-- A successful run of a parser method on `e` from a state inside `e` is a
run on `p ++ e ++ "]" ++ rest` from the corresponding state, with the same
tree and the corresponding final state. -/
theorem parser_in_context (p e rest : List Char) :
    ∀ F : Nat,
      (∀ (st : ParserState) (x : AstNode) (st' : ParserState), st.pos ≤ e.length →
        ExpressionParser.parseExpression F e st = .ok (x, st') →
        ExpressionParser.parseExpression F (p ++ (e ++ ']' :: rest))
            (inContext p.length e.length st) = .ok (x, inContext p.length e.length st') ∧
          st'.pos ≤ e.length) ∧
      (∀ (st : ParserState) (x : AstNode) (st' : ParserState), st.pos ≤ e.length →
        ExpressionParser.parseFunctionCall F e st = .ok (x, st') →
        ExpressionParser.parseFunctionCall F (p ++ (e ++ ']' :: rest))
            (inContext p.length e.length st) = .ok (x, inContext p.length e.length st') ∧
          st'.pos ≤ e.length) ∧
      (∀ (st : ParserState) (x : AstNode) (st' : ParserState), st.pos ≤ e.length →
        ExpressionParser.parsePrimary F e st = .ok (x, st') →
        ExpressionParser.parsePrimary F (p ++ (e ++ ']' :: rest))
            (inContext p.length e.length st) = .ok (x, inContext p.length e.length st') ∧
          st'.pos ≤ e.length) ∧
      (∀ (node : AstNode) (st : ParserState) (x : AstNode) (st' : ParserState),
        st.pos ≤ e.length →
        ExpressionParser.parsePostfix F e node st = .ok (x, st') →
        ExpressionParser.parsePostfix F (p ++ (e ++ ']' :: rest)) node
            (inContext p.length e.length st) = .ok (x, inContext p.length e.length st') ∧
          st'.pos ≤ e.length) ∧
      (∀ (children : List AstNode) (st : ParserState) (x : List AstNode)
        (st' : ParserState), st.pos ≤ e.length →
        ExpressionParser.parseArguments F e children st = .ok (x, st') →
        ExpressionParser.parseArguments F (p ++ (e ++ ']' :: rest)) children
            (inContext p.length e.length st) = .ok (x, inContext p.length e.length st') ∧
          st'.pos ≤ e.length ∧ st'.currentToken.type = .RIGHT_PAREN) := by
  intro F
  induction F with
  | zero =>
    refine ⟨?_, ?_, ?_, ?_, ?_⟩ <;> intros <;>
      simp_all [ExpressionParser.parseExpression, ExpressionParser.parseFunctionCall,
        ExpressionParser.parsePrimary, ExpressionParser.parsePostfix,
        ExpressionParser.parseArguments]
  | succ F ih =>
    obtain ⟨ihE, ihFC, ihP, ihPF, ihA⟩ := ih
    exact ⟨parseExpression_in_context p e rest F ihFC ihPF,
      parseFunctionCall_in_context p e rest F ihP ihA,
      parsePrimary_in_context p e rest F ihE, parsePostfix_in_context p e rest F ihE ihPF,
      parseArguments_in_context p e rest F ihE ihA⟩

/-- The text of an index that parses on its own parses, inside the brackets
of a subscript, to the same tree, and leaves the parser on the closing
bracket. -/
theorem index_in_context (p e rest : List Char) (index : AstNode) (stE : ParserState)
    (hrun : ExpressionParser.run (4 * e.length + 4) e = .ok (index, stE))
    (hend : stE.currentToken.type = .END) (tok : Token) (F : Nat)
    (hF : 4 * e.length + 4 ≤ F) :
    ∃ st0, ExpressionParser.advance (p ++ (e ++ ']' :: rest)) ⟨p.length, tok⟩ = .ok st0 ∧
      ExpressionParser.parseExpression F (p ++ (e ++ ']' :: rest)) st0 =
        .ok (index, ⟨p.length + e.length + 1, ⟨.RIGHT_BRACKET, [']']⟩⟩) := by
  simp only [ExpressionParser.run, bind, Except.bind] at hrun
  cases ha : ExpressionParser.advance e ⟨0, ⟨.END, []⟩⟩ with
  | error err => rw [ha] at hrun; cases hrun
  | ok st0 =>
    rw [ha] at hrun
    dsimp only at hrun
    have hr := advance_remaining _ _ _ ha
    simp only [Nat.sub_zero] at hr
    have hs := (parseExpression_stable e st0 (4 * e.length + 4) (by omega)).2 F hF
    rw [← hs] at hrun
    obtain ⟨a1, a2⟩ := advance_in_context p e rest ⟨0, ⟨.END, []⟩⟩ st0 tok (Nat.zero_le _) ha
    obtain ⟨s1, _⟩ := (parser_in_context p e rest F).1 st0 index stE a2 hrun
    refine ⟨_, a1, ?_⟩
    rw [s1]
    simp only [inContext, if_pos hend]

/-! ## Chains of postfix operations -/

theorem opsText_head (ops : List PostfixOp) (c : Char)
    (h : (opsText ops).head? = some c) : c = '.' ∨ c = '[' := by
  cases ops with
  | nil => cases h
  | cons op ops =>
    cases op with
    | member name =>
      simp only [opsText, PostfixOp.text, List.cons_append, List.head?_cons,
        Option.some.injEq] at h
      exact Or.inl h.symm
    | subscript e index =>
      simp only [opsText, PostfixOp.text, List.cons_append, List.head?_cons,
        Option.some.injEq] at h
      exact Or.inr h.symm

theorem entry_token (pre : List Char) (ops : List PostfixOp) (tok : Token) :
    ExpressionParser.advance (pre ++ opsText ops) ⟨pre.length, tok⟩ =
      .ok (entryState pre.length ops) := by
  simp only [ExpressionParser.advance, bind, Except.bind]
  cases ops with
  | nil =>
    rw [nextToken_end (by simp [opsText])]
    rfl
  | cons op ops =>
    cases op with
    | member name =>
      have hd : (pre ++ opsText (.member name :: ops)).drop pre.length =
          '.' :: (name ++ opsText ops) := by
        rw [List.drop_left]
        rfl
      rw [(nextToken_symbol _ _ hd).2.2.2.2.2 rfl]
      rfl
    | subscript e index =>
      have hd : (pre ++ opsText (.subscript e index :: ops)).drop pre.length =
          '[' :: (e ++ [']'] ++ opsText ops) := by
        rw [List.drop_left]
        rfl
      rw [(nextToken_symbol _ _ hd).2.2.2.1 rfl]
      rfl

theorem identifier_token (pre c r : List Char) (ch : Char) (ops : List PostfixOp) (tok : Token)
    (hc : c = ch :: r) (hch : isalpha ch = true)
    (hr : ∀ d ∈ r, (isalnum d || decide (d = '_')) = true) :
    ExpressionParser.advance (pre ++ (c ++ opsText ops)) ⟨pre.length, tok⟩ =
      .ok ⟨pre.length + c.length, ⟨.IDENTIFIER, c⟩⟩ := by
  subst hc
  have hd : (pre ++ (ch :: r ++ opsText ops)).drop pre.length = ch :: (r ++ opsText ops) := by
    rw [List.drop_left]
    rfl
  have hall : ∀ d ∈ ch :: r, (isalnum d || decide (d = '_')) = true := by
    intro d hd
    rcases List.mem_cons.1 hd with rfl | hd
    · simp [isalnum, hch]
    · exact hr d hd
  have htw : (ch :: (r ++ opsText ops)).takeWhile (fun x => isalnum x || decide (x = '_')) =
      ch :: r := by
    rw [show ch :: (r ++ opsText ops) = (ch :: r) ++ opsText ops from rfl,
      takeWhile_append_of_head _ (ch :: r) (opsText ops)]
    · exact List.takeWhile_eq_self_iff.2 hall
    · intro d hd
      rcases opsText_head ops d hd with rfl | rfl <;> decide
  simp only [ExpressionParser.advance, bind, Except.bind]
  rw [nextToken_identifier _ _ hd hch, htw]

/-- The loop of `parsePostfix` on the text of well-formed postfix operations
wraps the tree operation by operation, from left to right, and ends at the
end of the text. -/
theorem parsePostfix_chain :
    ∀ (ops : List PostfixOp), (∀ op ∈ ops, op.WellFormed) →
      ∀ (pre : List Char) (node : AstNode) (F : Nat), 4 * (opsText ops).length + 1 ≤ F →
        ExpressionParser.parsePostfix F (pre ++ opsText ops) node (entryState pre.length ops) =
          .ok (ops.foldl PostfixOp.apply node,
            ⟨(pre ++ opsText ops).length, ⟨.END, []⟩⟩) := by
  intro ops
  induction ops with
  | nil =>
    intro _ pre node F hF
    obtain ⟨F, rfl⟩ : ∃ F', F = F' + 1 := ⟨F - 1, by omega⟩
    rw [parsePostfix_succ]
    simp [entryState, opsText]
  | cons op ops ih =>
    intro hwf pre node F hF
    obtain ⟨F, rfl⟩ : ∃ F', F = F' + 1 := ⟨F - 1, by omega⟩
    have hwf' : ∀ o ∈ ops, o.WellFormed := fun o ho => hwf o (List.mem_cons_of_mem _ ho)
    cases op with
    | member name =>
      obtain ⟨ch, r, hname, hch, hr⟩ := hwf (.member name) (by simp)
      have hlen : (opsText (.member name :: ops)).length =
          1 + name.length + (opsText ops).length := by
        simp only [opsText, PostfixOp.text, List.length_append, List.length_cons]
        omega
      have e1 : pre ++ opsText (.member name :: ops) =
          (pre ++ ['.']) ++ (name ++ opsText ops) := by
        simp [opsText, PostfixOp.text]
      have e2 : pre ++ opsText (.member name :: ops) = (pre ++ '.' :: name) ++ opsText ops := by
        simp [opsText, PostfixOp.text]
      have a1 := identifier_token (pre ++ ['.']) name r ch ops ⟨.DOT, ['.']⟩ hname hch hr
      have a2 := entry_token (pre ++ '.' :: name) ops ⟨.IDENTIFIER, name⟩
      have a3 := ih hwf' (pre ++ '.' :: name) (.mk .MEMBER_ACCESS name [node]) F (by omega)
      rw [← e1] at a1
      rw [← e2] at a2 a3
      simp only [List.length_append, List.length_cons, List.length_nil, Nat.zero_add] at a1 a2 a3
      rw [show pre.length + (name.length + 1) = pre.length + 1 + name.length from by omega]
        at a2 a3
      rw [parsePostfix_succ, show entryState pre.length (.member name :: ops) =
        ⟨pre.length + 1, ⟨.DOT, ['.']⟩⟩ from rfl]
      simp only [or_true, if_true, a1, Except.bind, ne_eq, not_true_eq_false,
        if_false, a2, a3, List.foldl_cons, PostfixOp.apply, List.length_append,
        show (TokenType.DOT = TokenType.LEFT_BRACKET) = False from by simp]
    | subscript e index =>
      obtain ⟨stE, hrun, hend⟩ := hwf (.subscript e index) (by simp)
      have hlen : (opsText (.subscript e index :: ops)).length =
          2 + e.length + (opsText ops).length := by
        simp only [opsText, PostfixOp.text, List.length_append, List.length_cons,
          List.length_nil]
        omega
      have e1 : pre ++ opsText (.subscript e index :: ops) =
          (pre ++ ['[']) ++ (e ++ ']' :: opsText ops) := by
        simp [opsText, PostfixOp.text]
      have e2 : pre ++ opsText (.subscript e index :: ops) =
          (pre ++ '[' :: (e ++ [']'])) ++ opsText ops := by
        simp [opsText, PostfixOp.text]
      obtain ⟨st0, a1, a2⟩ := index_in_context (pre ++ ['[']) e (opsText ops) index stE hrun
        hend ⟨.LEFT_BRACKET, ['[']⟩ F (by omega)
      have a3 := entry_token (pre ++ '[' :: (e ++ [']'])) ops ⟨.RIGHT_BRACKET, [']']⟩
      have a4 := ih hwf' (pre ++ '[' :: (e ++ [']'])) (.mk .SUBSCRIPT [] [node, index]) F
        (by omega)
      rw [← e1] at a1 a2
      rw [← e2] at a3 a4
      simp only [List.length_append, List.length_cons, List.length_nil, Nat.zero_add] at a1 a2 a3 a4
      rw [show pre.length + (e.length + 1 + 1) = pre.length + 1 + e.length + 1 from by omega]
        at a3 a4
      rw [parsePostfix_succ, show entryState pre.length (.subscript e index :: ops) =
        ⟨pre.length + 1, ⟨.LEFT_BRACKET, ['[']⟩⟩ from rfl]
      simp only [true_or, if_true, a1, Except.bind, a2, ne_eq, not_true_eq_false,
        if_false, a3, a4, List.foldl_cons, PostfixOp.apply, List.length_append]

theorem entryState_not_paren (P : Nat) (ops : List PostfixOp) :
    (entryState P ops).currentToken.type ≠ .LEFT_PAREN := by
  cases ops with
  | nil => simp [entryState]
  | cons op ops => cases op <;> simp [entryState]

theorem parse_of_run (fuel : Nat) (e : List Char) (index : AstNode) (st : ParserState)
    (h : ExpressionParser.run fuel e = .ok (index, st)) :
    ExpressionParser.parseWith fuel e = .ok index := by
  simp only [ExpressionParser.run, bind, Except.bind] at h
  simp only [ExpressionParser.parseWith, bind, Except.bind]
  cases ha : ExpressionParser.advance e ⟨0, ⟨.END, []⟩⟩ with
  | error err => rw [ha] at h; cases h
  | ok st0 =>
    rw [ha] at h
    dsimp only at h ⊢
    rw [h]

/-- C12 fails on the texts `_a.b` and `a._b`, whose identifiers start with an
underscore: the tokenizer starts an identifier at a letter only and throws
"Unexpected character in expression". It also fails on `a[-5]`: the tokenizer
does not move over the `-` (the defect of C20), the index parses to the
literal with the empty text, and the parser throws "Expected ']'". -/
theorem C12_postfix_counterexample :
    ExpressionParser.parse ['_', 'a', '.', 'b'] =
        .error (.runtime_error "Unexpected character in expression") ∧
      ExpressionParser.parse ['a', '.', '_', 'b'] =
        .error (.runtime_error "Unexpected character in expression") ∧
      ExpressionParser.parse ['-', '5'] = .ok (.mk .LITERAL [] []) ∧
      ExpressionParser.parse ['a', '[', '-', '5', ']'] =
        .error (.runtime_error "Expected ']'") := by
  decide!

/-- C12 as amended: for every identifier `x` that starts with a letter (a
letter followed by letters, digits and underscores) and every sequence of
postfix operations, each `.name` with such an identifier `name` or `[e]` with
a text `e` that the parser parses on its own, up to its end, to the tree
`index`, `ExpressionParser::parse` on the text `x p_1 ... p_n` returns the
left-nested tree: the fold of the operations from the identifier node of `x`,
each operation taking the tree so far as the first child of a member-access
node or of a subscript node whose second child is the parse of `e`. -/
theorem C12_postfix_left_associative (x : List Char) (ops : List PostfixOp)
    (hx : IsIdentifier x) (hops : ∀ op ∈ ops, op.WellFormed) :
    ExpressionParser.parse (chainText x ops) = .ok (chainAst x ops) ∧
      ∀ e index, PostfixOp.subscript e index ∈ ops → ExpressionParser.parse e = .ok index := by
  refine ⟨?_, fun e index hmem => ?_⟩
  · obtain ⟨ch, r, hxe, hch, hr⟩ := hx
    have a1 := identifier_token [] x r ch ops ⟨.END, []⟩ hxe hch hr
    have a2 := entry_token x ops ⟨.IDENTIFIER, x⟩
    have a3 := parsePostfix_chain ops hops x (.mk .IDENTIFIER x [])
      (4 * (chainText x ops).length + 3) (by
        simp only [chainText, List.length_append]
        omega)
    have a4 := entryState_not_paren x.length ops
    simp only [List.nil_append, List.length_nil, Nat.zero_add] at a1
    show ExpressionParser.parseWith (4 * (x ++ opsText ops).length + 3 + 1) (x ++ opsText ops) =
      .ok (chainAst x ops)
    simp only [chainText] at a3
    simp only [ExpressionParser.parseWith, ExpressionParser.parseExpression,
      ExpressionParser.parseFunctionCall, a1, a2, a3, a4, bind, Except.bind, if_true, if_false,
      chainAst]
  · obtain ⟨st, hrun, _⟩ := hops _ hmem
    exact parse_of_run _ e index st hrun

/-- C12 as amended, on the text `a.b[1].c`: the member `c` of the subscript, by the
literal `1`, of the member `b` of the identifier `a`. -/
theorem C12_postfix_left_associative_witness :
    ExpressionParser.parse ['a', '.', 'b', '[', '1', ']', '.', 'c'] =
      .ok (.mk .MEMBER_ACCESS ['c'] [.mk .SUBSCRIPT []
        [.mk .MEMBER_ACCESS ['b'] [.mk .IDENTIFIER ['a'] []], .mk .LITERAL ['1'] []]]) :=
  (C12_postfix_left_associative ['a'] exampleOps ⟨'a', [], rfl, by decide, by simp⟩
    (by
      intro op hop
      simp only [exampleOps, List.mem_cons, List.mem_singleton, List.not_mem_nil,
        or_false] at hop
      rcases hop with rfl | rfl | rfl
      · exact ⟨'b', [], rfl, by decide, by simp⟩
      · exact ⟨⟨1, ⟨.END, []⟩⟩, by decide!, rfl⟩
      · exact ⟨'c', [], rfl, by decide, by simp⟩)).1

/-! ## The evaluator: calls without arguments, member access, subscripts -/

/-- C13 on the code: the texts `min()` and `max()` parse to calls without
arguments, and for every root the evaluation of these calls returns the seed
of the fold, `+infinity` for `min` and `-infinity` for `max`; no error about
the number of arguments is raised. -/
theorem C13_min_max_without_arguments (root : JsonValue) :
    ExpressionParser.parse ['m', 'i', 'n', '(', ')'] =
        .ok (.mk .FUNCTION_CALL ['m', 'i', 'n'] []) ∧
      ExpressionParser.parse ['m', 'a', 'x', '(', ')'] =
        .ok (.mk .FUNCTION_CALL ['m', 'a', 'x'] []) ∧
      evaluateAst (.mk .FUNCTION_CALL ['m', 'i', 'n'] []) root = .ok (.NUMBER .pos_inf) ∧
      evaluateAst (.mk .FUNCTION_CALL ['m', 'a', 'x'] []) root = .ok (.NUMBER .neg_inf) ∧
      evaluateAst (.mk .FUNCTION_CALL ['s', 'i', 'z', 'e'] []) root =
        .error (.runtime_error "size() expects exactly one argument") := by
  refine ⟨by decide!, by decide!, ?_, ?_, ?_⟩
  · simp [evaluateAst, evaluateMin, bind, Except.bind]
  · simp [evaluateAst, evaluateMax, bind, Except.bind]
  · simp [evaluateAst]

/-! ## The tokenizer: identifiers -/

/-- C14 fails on the text `_x1.b`: the tokenizer throws "Unexpected character
in expression"; it does not return the identifier `_x1` with the cursor at 3. -/
theorem C14_underscore_start_counterexample :
    Tokenizer.nextToken ['_', 'x', '1', '.', 'b'] 0 =
        .error (.runtime_error "Unexpected character in expression") ∧
      Tokenizer.nextToken ['_', 'x', '1', '.', 'b'] 0 ≠
        .ok (⟨.IDENTIFIER, ['_', 'x', '1']⟩, 3) := by
  decide!

/-- C14 as amended: on a text that holds, from the cursor on, whitespace `ws`
and then a character `c`, `Tokenizer::nextToken` returns, when `c` is a
letter, an identifier token whose text is the maximal run of letters, digits
and underscores that starts at `c`, with the cursor just past that run; when
`c` is an underscore it throws "Unexpected character in expression". -/
theorem C14_identifier_starts_with_letter (expr : List Char) (pos : Nat) (ws : List Char)
    (c : Char) (r : List Char) (hdrop : expr.drop pos = ws ++ c :: r)
    (hws : ∀ w ∈ ws, isspace w = true) :
    (isalpha c = true →
      Tokenizer.nextToken expr pos =
        .ok (⟨.IDENTIFIER, (c :: r).takeWhile (fun x => isalnum x || x = '_')⟩,
          pos + ws.length + ((c :: r).takeWhile (fun x => isalnum x || x = '_')).length)) ∧
    (c = '_' →
      Tokenizer.nextToken expr pos =
        .error (.runtime_error "Unexpected character in expression")) := by
  have h1 := drop_of_drop_eq_append expr pos ws (c :: r) hdrop
  rw [nextToken_whitespace expr pos ws (c :: r) hdrop hws]
  refine ⟨fun hc => nextToken_identifier expr _ h1 hc, ?_⟩
  rintro rfl
  exact nextToken_underscore expr _ h1

/-- C14 as amended, on the text ` x_1.b` from the cursor 0: the identifier
`x_1`, the cursor at 4. -/
theorem C14_identifier_starts_with_letter_witness :
    Tokenizer.nextToken [' ', 'x', '_', '1', '.', 'b'] 0 =
      .ok (⟨.IDENTIFIER, ['x', '_', '1']⟩, 4) :=
  (C14_identifier_starts_with_letter [' ', 'x', '_', '1', '.', 'b'] 0 [' '] 'x'
    ['_', '1', '.', 'b'] rfl (by decide)).1 (by decide)

/-- C15: for a member-access node with the name `member` and the base `base`,
evaluation returns `v` exactly when the base evaluates to an object whose
entry for `member` is `v`; when the base evaluates to a value that is not an
object it throws "Member access applied to non-object", and when the base
evaluates to an object without the key it throws "Member not found". -/
theorem C15_member_access (root : JsonValue) (member : List Char) (base : AstNode)
    (rest : List AstNode) :
    (∀ v, evaluateAst (.mk .MEMBER_ACCESS member (base :: rest)) root = .ok v ↔
      ∃ o, evaluateAst base root = .ok (.OBJECT o) ∧ mapFind o member = some v) ∧
    (∀ w, evaluateAst base root = .ok w → (∀ o, w ≠ .OBJECT o) →
      evaluateAst (.mk .MEMBER_ACCESS member (base :: rest)) root =
        .error (.runtime_error "Member access applied to non-object")) ∧
    (∀ o, evaluateAst base root = .ok (.OBJECT o) → mapFind o member = none →
      evaluateAst (.mk .MEMBER_ACCESS member (base :: rest)) root =
        .error (.runtime_error ("Member not found: " ++ String.mk member))) := by
  refine ⟨fun v => ?_, fun w hw hno => ?_, fun o ho hnone => ?_⟩
  · cases hb : evaluateAst base root with
    | error e =>
      simp only [evaluateAst, hb, bind, Except.bind]
      exact ⟨(fun h => by cases h), fun ⟨_, h, _⟩ => by cases h⟩
    | ok w =>
      cases w with
      | OBJECT o =>
        cases hf : mapFind o member with
        | none =>
          simp only [evaluateAst, hb, hf, bind, Except.bind]
          refine ⟨(fun h => by cases h), fun ⟨o2, h, h2⟩ => ?_⟩
          cases h
          rw [hf] at h2
          cases h2
        | some x =>
          simp only [evaluateAst, hb, hf, bind, Except.bind]
          refine ⟨fun h => ⟨o, rfl, ?_⟩, fun ⟨o2, h, h2⟩ => ?_⟩
          · cases h; exact hf
          · cases h
            rw [hf] at h2
            cases h2
            rfl
      | _ =>
        simp only [evaluateAst, hb, bind, Except.bind]
        exact ⟨(fun h => by cases h), fun ⟨_, h, _⟩ => by cases h⟩
  · cases w with
    | OBJECT o => exact absurd rfl (hno o)
    | _ => simp only [evaluateAst, hw, bind, Except.bind]
  · simp only [evaluateAst, ho, hnone, bind, Except.bind]

/-- C15 on the document `{"a":{"b":[10,20,30,{"c":99}]}}`: `a.b` is the
array, `a.x` throws "Member not found: x" and `a.b.c` throws "Member access
applied to non-object". -/
theorem C15_member_access_witness :
    evaluateAst (.mk .MEMBER_ACCESS ['b'] [.mk .IDENTIFIER ['a'] []]) exampleDocument =
        .ok (.ARRAY [.NUMBER (.fin 10), .NUMBER (.fin 20), .NUMBER (.fin 30),
          .OBJECT [(['c'], .NUMBER (.fin 99))]]) ∧
      evaluateAst (.mk .MEMBER_ACCESS ['x'] [.mk .IDENTIFIER ['a'] []]) exampleDocument =
        .error (.runtime_error "Member not found: x") ∧
      evaluateAst (.mk .MEMBER_ACCESS ['c'] [.mk .MEMBER_ACCESS ['b'] [.mk .IDENTIFIER ['a'] []]])
        exampleDocument = .error (.runtime_error "Member access applied to non-object") :=
  ⟨((C15_member_access exampleDocument ['b'] (.mk .IDENTIFIER ['a'] []) []).1 _).2
      ⟨[(['b'], .ARRAY [.NUMBER (.fin 10), .NUMBER (.fin 20), .NUMBER (.fin 30),
        .OBJECT [(['c'], .NUMBER (.fin 99))]])], by decide!, by decide!⟩,
    (C15_member_access exampleDocument ['x'] (.mk .IDENTIFIER ['a'] []) []).2.2
      [(['b'], .ARRAY [.NUMBER (.fin 10), .NUMBER (.fin 20), .NUMBER (.fin 30),
        .OBJECT [(['c'], .NUMBER (.fin 99))]])] (by decide!) (by decide!),
    (C15_member_access exampleDocument ['c']
      (.mk .MEMBER_ACCESS ['b'] [.mk .IDENTIFIER ['a'] []]) []).2.1
      (.ARRAY [.NUMBER (.fin 10), .NUMBER (.fin 20), .NUMBER (.fin 30),
        .OBJECT [(['c'], .NUMBER (.fin 99))]]) (by decide!) (by intro o h; cases h)⟩

/-- C16 fails on the document `{"a":1}` and the text `a[z]`: the base `a` is a
number and the index `z` is an unknown identifier; the evaluation throws
"Unknown identifier: z", not "Subscript operator applied to non-array". -/
theorem C16_failing_index_counterexample :
    ExpressionParser.parse ['a', '[', 'z', ']'] =
        .ok (.mk .SUBSCRIPT [] [.mk .IDENTIFIER ['a'] [], .mk .IDENTIFIER ['z'] []]) ∧
      evaluateAst (.mk .IDENTIFIER ['a'] []) (.OBJECT [(['a'], .NUMBER (.fin 1))]) =
        .ok (.NUMBER (.fin 1)) ∧
      evaluateAst (.mk .SUBSCRIPT [] [.mk .IDENTIFIER ['a'] [], .mk .IDENTIFIER ['z'] []])
        (.OBJECT [(['a'], .NUMBER (.fin 1))]) = .error (.runtime_error "Unknown identifier: z") ∧
      evaluateAst (.mk .SUBSCRIPT [] [.mk .IDENTIFIER ['a'] [], .mk .IDENTIFIER ['z'] []])
        (.OBJECT [(['a'], .NUMBER (.fin 1))]) ≠
          .error (.runtime_error "Subscript operator applied to non-array") := by
  decide!

/-- C16 as amended: for a subscript node whose base evaluates to a value `w`
that is not an array, `evaluateAst` evaluates the index before it looks at
the type of the base: when the index evaluates to a value, whatever it is, it
throws "Subscript operator applied to non-array"; when the evaluation of the
index fails, the subscript fails in the same way. -/
theorem C16_subscript_non_array (root : JsonValue) (value : List Char) (base index : AstNode)
    (w : JsonValue) (hbase : evaluateAst base root = .ok w) (hw : ∀ xs, w ≠ .ARRAY xs) :
    (∀ v, evaluateAst index root = .ok v →
      evaluateAst (.mk .SUBSCRIPT value [base, index]) root =
        .error (.runtime_error "Subscript operator applied to non-array")) ∧
    (∀ e, evaluateAst index root = .error e →
      evaluateAst (.mk .SUBSCRIPT value [base, index]) root = .error e) := by
  refine ⟨fun v hv => ?_, fun e he => ?_⟩
  · cases w with
    | ARRAY xs => exact absurd rfl (hw xs)
    | _ => simp only [evaluateAst, hbase, hv, bind, Except.bind]
  · simp only [evaluateAst, hbase, he, bind, Except.bind]

/-- C16 as amended, on the document `{"a":1}`: `a[0]` throws "Subscript
operator applied to non-array" and `a[z]` throws "Unknown identifier: z". -/
theorem C16_subscript_non_array_witness :
    evaluateAst (.mk .SUBSCRIPT [] [.mk .IDENTIFIER ['a'] [], .mk .LITERAL ['0'] []])
        (.OBJECT [(['a'], .NUMBER (.fin 1))]) =
          .error (.runtime_error "Subscript operator applied to non-array") ∧
      evaluateAst (.mk .SUBSCRIPT [] [.mk .IDENTIFIER ['a'] [], .mk .IDENTIFIER ['z'] []])
        (.OBJECT [(['a'], .NUMBER (.fin 1))]) =
          .error (.runtime_error "Unknown identifier: z") :=
  ⟨(C16_subscript_non_array (.OBJECT [(['a'], .NUMBER (.fin 1))]) []
      (.mk .IDENTIFIER ['a'] []) (.mk .LITERAL ['0'] []) (.NUMBER (.fin 1)) (by decide!)
      (by intro xs h; cases h)).1 (.NUMBER (.fin 0)) (by decide!),
    (C16_subscript_non_array (.OBJECT [(['a'], .NUMBER (.fin 1))]) []
      (.mk .IDENTIFIER ['a'] []) (.mk .IDENTIFIER ['z'] []) (.NUMBER (.fin 1)) (by decide!)
      (by intro xs h; cases h)).2 _ (by decide!)⟩

/-- The conversion `static_cast<size_t>` truncates toward zero: a number `q`
above `-1` whose magnitude, with the fraction dropped, is `i`, converts to
`i`. -/
theorem toSizeT_trunc (q : ℚ) (i : Nat) (hneg : -1 < q) (hlo : (i : ℚ) ≤ |q|)
    (hhi : |q| < i + 1) (h64 : i < 2 ^ 64) : Double.toSizeT (.fin q) = some i := by
  have hden : (0 : ℚ) < q.den := by exact_mod_cast q.den_pos
  have hdenI : (0 : Int) ≤ q.den := Int.natCast_nonneg _
  have key : Int.tdiv q.num (q.den : Int) = (i : Int) := by
    by_cases h0 : 0 ≤ q
    · rw [abs_of_nonneg h0] at hlo hhi
      rw [Int.tdiv_eq_ediv (Rat.num_nonneg.2 h0) hdenI, ← Rat.floor_def, Int.floor_eq_iff]
      exact ⟨by exact_mod_cast hlo, by exact_mod_cast hhi⟩
    · have hq : q < 0 := lt_of_not_le h0
      rw [abs_of_neg hq] at hlo hhi
      have hi0 : i = 0 := by
        have h : (i : ℚ) < 1 := by linarith
        have h' : i < 1 := by exact_mod_cast h
        omega
      have h1 : -1 < (q.num : ℚ) / q.den := by rw [Rat.num_div_den]; exact hneg
      rw [lt_div_iff₀ hden] at h1
      have h2 : -(q.num : ℚ) < q.den := by linarith
      have h3 : -q.num < (q.den : Int) := by exact_mod_cast h2
      have h4 : (0 : Int) ≤ -q.num := by
        have := Rat.num_neg.2 hq
        omega
      have h5 := Int.tdiv_eq_zero_of_lt h4 h3
      rw [Int.neg_tdiv] at h5
      rw [hi0]
      simpa using h5
  have h2 : (i : Int) < 2 ^ 64 := by exact_mod_cast h64
  simp only [Double.toSizeT, key, Int.natCast_nonneg, h2, and_self, if_true, Int.toNat_ofNat]

/-- C17: the index of a subscript is evaluated against the root, and the
element returned is the one at the index truncated toward zero. For a
subscript node whose base evaluates, against the root, to an array `xs`: when
the index evaluates, against the same root, to a Number `q` above `-1` whose
magnitude with the fraction dropped is `i` (`i ≤ |q| < i + 1`) and `i` is
inside the array, the subscript returns `xs[i]`; when the index evaluates to
the negative zero, it returns `xs[0]`. -/
theorem C17_subscript_index_from_root (root : JsonValue) (value : List Char)
    (base index : AstNode) (xs : List JsonValue)
    (hbase : evaluateAst base root = .ok (.ARRAY xs)) (hsize : xs.length ≤ 2 ^ 64) :
    (∀ (q : ℚ) (i : Nat) (hi : i < xs.length),
      evaluateAst index root = .ok (.NUMBER (.fin q)) → -1 < q → (i : ℚ) ≤ |q| → |q| < i + 1 →
      evaluateAst (.mk .SUBSCRIPT value [base, index]) root = .ok xs[i]) ∧
    ∀ (h0 : 0 < xs.length), evaluateAst index root = .ok (.NUMBER .neg_zero) →
      evaluateAst (.mk .SUBSCRIPT value [base, index]) root = .ok xs[0] := by
  constructor
  · intro q i hi hindex hneg hlo hhi
    have hd := toSizeT_trunc q i hneg hlo hhi (by omega)
    simp only [evaluateAst, hbase, hindex, bind, Except.bind, JsonValue.toNumber, hd, vectorAt,
      List.getElem?_eq_getElem hi]
  · intro h0 hindex
    simp only [evaluateAst, hbase, hindex, bind, Except.bind, JsonValue.toNumber,
      Double.toSizeT, vectorAt, List.getElem?_eq_getElem h0]

/-- C17 on the document `{"a":[10,20,30],"i":1.5}`: in `a[i]` the index `i` is
resolved from the root to 1.5, which is truncated to 1, so the subscript is
the second element of `a`, the Number 20. On the document
`{"a":{"b":[1,2,{"c":"test"},[11,12]]}}` the text `a.b[a.b[1]].c` parses to
the member `c` of the subscript of `a.b` by `a.b[1]`; the index `a.b[1]` is
resolved from the root to 2, and the text evaluates to the string `test`. -/
theorem C17_subscript_index_from_root_witness :
    evaluateAst (.mk .SUBSCRIPT [] [.mk .IDENTIFIER ['a'] [], .mk .IDENTIFIER ['i'] []])
        (.OBJECT [(['a'], .ARRAY [.NUMBER (.fin 10), .NUMBER (.fin 20), .NUMBER (.fin 30)]),
          (['i'], .NUMBER (.fin (3 / 2)))]) = .ok (.NUMBER (.fin 20)) ∧
      readJson ['{', '"', 'a', '"', ':', '[', '1', '0', ',', '2', '0', ',', '3', '0', ']', ',',
          '"', 'i', '"', ':', '1', '.', '5', '}'] =
        .ok (.OBJECT [(['a'], .ARRAY [.NUMBER (.fin 10), .NUMBER (.fin 20), .NUMBER (.fin 30)]),
          (['i'], .NUMBER (.fin (3 / 2)))]) ∧
      evaluate ['a', '[', 'i', ']']
        (.OBJECT [(['a'], .ARRAY [.NUMBER (.fin 10), .NUMBER (.fin 20), .NUMBER (.fin 30)]),
          (['i'], .NUMBER (.fin (3 / 2)))]) = .ok (.NUMBER (.fin 20)) ∧
      ExpressionParser.parse
        ['a', '.', 'b', '[', 'a', '.', 'b', '[', '1', ']', ']', '.', 'c'] =
        .ok (.mk .MEMBER_ACCESS ['c'] [.mk .SUBSCRIPT []
          [.mk .MEMBER_ACCESS ['b'] [.mk .IDENTIFIER ['a'] []], pathAst ['1']]]) ∧
      evaluateAst (.mk .SUBSCRIPT [] [.mk .MEMBER_ACCESS ['b'] [.mk .IDENTIFIER ['a'] []],
        pathAst ['1']]) testDocument = .ok (.OBJECT [(['c'], .STRING ['t', 'e', 's', 't'])]) ∧
      evaluate ['a', '.', 'b', '[', 'a', '.', 'b', '[', '1', ']', ']', '.', 'c'] testDocument =
        .ok (.STRING ['t', 'e', 's', 't']) :=
  ⟨(C17_subscript_index_from_root
      (.OBJECT [(['a'], .ARRAY [.NUMBER (.fin 10), .NUMBER (.fin 20), .NUMBER (.fin 30)]),
        (['i'], .NUMBER (.fin (3 / 2)))]) []
      (.mk .IDENTIFIER ['a'] []) (.mk .IDENTIFIER ['i'] [])
      [.NUMBER (.fin 10), .NUMBER (.fin 20), .NUMBER (.fin 30)]
      (by decide!) (by decide)).1 (3 / 2) 1 (by decide) (by decide!) (by norm_num)
      (by norm_num [abs_of_pos]) (by norm_num [abs_of_pos]),
    by decide!, by decide!, by decide!, by decide!, by decide!⟩

/-! ## The JSON parser never reads behind the terminator -/

/-- C19: on every expression text the parser ends: with the recursion budget
of `ExpressionParser::parse`, and with every budget of at least three calls
for each character plus three, the run returns a tree or throws a
`std::runtime_error`, and all these budgets give the same result; no run ends
for lack of budget. -/
theorem C19_expression_parser_terminates (expr : List Char) :
    ((∃ ast, ExpressionParser.parse expr = .ok ast) ∨
      ∃ what, ExpressionParser.parse expr = .error (.runtime_error what)) ∧
    ∀ fuel, 3 * expr.length + 3 ≤ fuel →
      ExpressionParser.parseWith fuel expr = ExpressionParser.parse expr := by
  have hrun : ∀ fuel, 3 * expr.length + 3 ≤ fuel →
      ExpressionParser.parseWith fuel expr =
        ExpressionParser.parseWith (3 * expr.length + 3) expr := by
    intro fuel hfuel
    simp only [ExpressionParser.parseWith, bind, Except.bind]
    cases ha : ExpressionParser.advance expr ⟨0, ⟨.END, []⟩⟩ with
    | error e => rfl
    | ok st =>
      have hr := advance_remaining _ _ _ ha
      have hs := (parseExpression_stable expr st (3 * expr.length + 3)
        (by simp only [Nat.sub_zero] at hr; omega)).2 fuel hfuel
      simp only [hs]
  have hparse : ExpressionParser.parse expr =
      ExpressionParser.parseWith (3 * expr.length + 3) expr :=
    hrun (4 * expr.length + 4) (by omega)
  refine ⟨?_, fun fuel hfuel => by rw [hparse, hrun fuel hfuel]⟩
  rw [hparse]
  simp only [ExpressionParser.parseWith, bind, Except.bind]
  cases ha : ExpressionParser.advance expr ⟨0, ⟨.END, []⟩⟩ with
  | error e =>
    obtain ⟨what, rfl⟩ := advance_error _ _ _ ha
    exact Or.inr ⟨what, rfl⟩
  | ok st =>
    have hr := advance_remaining _ _ _ ha
    have hs := (parseExpression_stable expr st (3 * expr.length + 3)
      (by simp only [Nat.sub_zero] at hr; omega)).1
    cases hp : ExpressionParser.parseExpression (3 * expr.length + 3) expr st with
    | error e =>
      obtain ⟨what, rfl⟩ := hs e hp
      exact Or.inr ⟨what, by simp only [hp]⟩
    | ok r => exact Or.inl ⟨r.1, by simp only [hp]⟩

/-- C20 on the code: on the text `-5` from the cursor 0, `Tokenizer::nextToken`
returns a number token with empty text and leaves the cursor at 0, in front
of the `-`; a token other than the end token is returned without progress.
The parser therefore reads `-5` as a literal with empty text, which the
evaluator hands to `std::stod`. -/
theorem C20_minus_token_without_progress :
    Tokenizer.nextToken ['-', '5'] 0 = .ok (⟨.NUMBER, []⟩, 0) ∧
      ExpressionParser.parse ['-', '5'] = .ok (.mk .LITERAL [] []) ∧
      evaluate ['-', '5'] exampleDocument = .error (.invalid_argument "stod") := by
  decide!
